import Mathlib

/-!
# cryptobackup: ciphers, local store and transfer pipeline

A shallow embedding of `pkg/crypto` (`aes.go`, `custom.go`, `crypto.go`), of
`pkg/storage` (`storage.go`, `local.go`), of `pkg/uploader/uploader.go` and of
`formatSize` of `pkg/web/handlers.go`, with the properties of the two ciphers,
of the local store and its sidecar files, and of the orchestrator.

Conventions of the embedding

* A byte is a natural number (below 256 for real data); `^^^` on two bytes
  never leaves that range, so no reduction modulo 256 is needed.
* A Go `error` is a value of `Error`; `fmt.Errorf("msg: %w", err)` is
  `Error.wrap "msg" err`, and `nil` is `none`.  A function with result type
  `error` gives a `Result`: it returns an error or `nil`, or it panics.
* An `io.Reader` is a finite script of read results.  `Read` hands out at most
  as many bytes as the caller's buffer holds and keeps the rest of the chunk
  for the next call; once the script is used up every `Read` returns
  `(0, io.EOF)`.  A reader that returns `(0, nil)` for ever has no script.
* An `io.Writer` is the bytes written so far together with the room left;
  `bytes.Buffer` has unbounded room.
* Go's `int` is the 64-bit signed integer: arithmetic on it wraps.
* What the Go standard library and the environment supply is a parameter:
  the GCM of `crypto/cipher` (`AEAD`), the reader `rand.Reader`, the local
  files of `os.Open`, the clock.  `io.ReadFull`, `io.ReadAll`, `aes.NewCipher`
  and `filepath.Base` follow their documentation.
* A loop over reads takes one unit of fuel per turn and gives `none` when the
  fuel runs out; `xorData` has fuel for every read its source can offer.
* The file system is a table from places (the names from the root down) to
  files and directories, together with the working directory of the process.
  The functions of package `os` take path texts as the code passes them; a
  text is walked from the root or from the working directory, and the walk
  reports the errors of Linux: a missing entry, a file in the place of a
  directory, a name of more than 255 bytes, a text of 4096 bytes or more or
  with a NUL character, a directory that is not empty, and the refusal to
  remove the root, `.` and `..`.  Permissions, links and failing devices are
  left out, and a `..` after a name is taken with that name, which is what
  the operating system does with every text that `filepath.Clean` or
  `filepath.Join` returns.
* `encoding/json` is a parameter (`JSONCodec`), and so is the formatting of a
  float by `fmt.Sprintf` in `formatSize`.
-/

namespace CryptoBackup

/-! ## Bytes, errors, readers and writers -/

/-- A byte of a Go `[]byte`. -/
abbrev Byte := Nat

/-- Go error values that the pipeline produces or passes on. -/
inductive Error where
  /-- The sentinel `io.EOF`. -/
  | EOF
  /-- The sentinel `io.ErrUnexpectedEOF`. -/
  | ErrUnexpectedEOF
  /-- Any other failure of a reader, a writer, the file system or the store. -/
  | io (msg : String)
  /-- The error of `cipher.AEAD.Open`: "cipher: message authentication failed". -/
  | errOpen
  /-- The error `aes.KeySizeError` of `aes.NewCipher`. -/
  | KeySizeError (n : Nat)
  /-- The result of `fmt.Errorf` without a wrapped error. -/
  | errorf (msg : String)
  /-- The result of `fmt.Errorf("msg: %w", inner)`. -/
  | wrap (msg : String) (inner : Error)
  deriving DecidableEq, Repr

/-- What a function with result type `error` does: it returns, or it panics. -/
inductive Result where
  | ret (err : Option Error)
  | panic (msg : String)
  deriving DecidableEq, Repr

/-- One scripted read: the bytes it delivers and the error it reports. -/
structure ReadStep where
  data : List Byte
  err : Option Error
  deriving DecidableEq, Repr

/-- An `io.Reader`: the reads it still has to offer. -/
structure Reader where
  steps : List ReadStep
  deriving DecidableEq, Repr

/-- The outcome of one `Read`: `n` bytes, the error, and the reader afterwards. -/
structure ReadResult where
  data : List Byte
  err : Option Error
  next : Reader
  deriving DecidableEq, Repr

/-- The call `src.Read(buf)` with `len(buf) = cap`. -/
def Reader.Read (r : Reader) (cap : Nat) : ReadResult :=
  match r.steps with
  | [] => { data := [], err := some Error.EOF, next := r }
  | s :: rest =>
    if s.data.length ≤ cap then
      { data := s.data, err := s.err, next := { steps := rest } }
    else
      { data := s.data.take cap, err := none,
        next := { steps := { s with data := s.data.drop cap } :: rest } }

/-- The bytes a script delivers up to its end of file, when it reports no
other error and has nothing left after the read that reports `io.EOF`. -/
def content : List ReadStep → Option (List Byte)
  | [] => some []
  | s :: rest =>
    match s.err with
    | none => (content rest).map (fun q => s.data ++ q)
    | some Error.EOF => if rest = [] then some s.data else none
    | some _ => none

/-- The reader delivers exactly the byte sequence `P` and then end of file,
in whatever split into reads. -/
def Reader.Delivers (r : Reader) (P : List Byte) : Prop :=
  content r.steps = some P

instance (r : Reader) (P : List Byte) : Decidable (r.Delivers P) := by
  unfold Reader.Delivers; exact inferInstance

/-- A bound on the number of `Read` calls with a non-empty buffer before the
reader reports an error. -/
def Reader.fuel (r : Reader) : Nat :=
  (r.steps.map (fun s => s.data.length + 1)).sum + 1

/-- An `io.Writer`: what was written, and how many more bytes it accepts
(`none`: no limit). -/
structure Writer where
  data : List Byte
  room : Option Nat
  deriving DecidableEq, Repr

/-- The call `dst.Write(p)`: a writer without room for all of `p` takes what
fits and fails. -/
def Writer.Write (w : Writer) (p : List Byte) : Writer × Option Error :=
  match w.room with
  | none => ({ w with data := w.data ++ p }, none)
  | some c =>
    if p.length ≤ c then
      ({ data := w.data ++ p, room := some (c - p.length) }, none)
    else
      ({ data := w.data ++ p.take c, room := some 0 }, some (Error.io "short write"))

/-- An empty `bytes.Buffer` used as destination (`var buf bytes.Buffer`). -/
def emptyBuffer : Writer := { data := [], room := none }

/-- A `bytes.Buffer` holding `b`, used as source: it hands out what the
caller's buffer can take and reports `io.EOF` once it is empty. -/
def bufferReader (b : List Byte) : Reader :=
  if b.length = 0 then { steps := [] } else { steps := [{ data := b, err := none }] }

/-- A Go `map[string]string`: the entries, no key twice; the value of a key
is found with `List.lookup`. -/
abbrev Metadata := List (String × String)

/-- The assignment `m[k] = v`. -/
def Metadata.assign (m : Metadata) (k v : String) : Metadata :=
  (k, v) :: m.filter (fun e => e.1 != k)

/-! ## custom.go: the XOR cipher -/

/-- Two's-complement wrap-around of Go's 64-bit `int`. -/
def wrapInt64 (x : Int) : Int := (x + 2 ^ 63) % 2 ^ 64 - 2 ^ 63

/-- The encryptor `XOREncryptor`. -/
structure XOREncryptor where
  key : List Byte
  deriving DecidableEq, Repr

/-- The constructor `NewXOREncryptor`. -/
def NewXOREncryptor (key : List Byte) : Except Error XOREncryptor :=
  if key.length = 0 then .error (Error.errorf "key cannot be empty")
  else .ok { key := key }

/-- The inner loop of `xorData`,
`for i := 0; i < n; i++ { buf[i] ^= e.key[offset%keyLen]; offset++ }`:
the bytes of `buf[:n]` afterwards and the new offset, or `none` when the
loop panics (division by zero, index out of range). -/
def xorChunk (key : List Byte) : Int → List Byte → Option (List Byte × Int)
  | offset, [] => some ([], offset)
  | offset, b :: bs =>
    if key.length = 0 then none
    else
      let idx := Int.tmod offset (key.length : Int)
      if idx < 0 then none
      else
        match key.get? idx.toNat with
        | none => none
        | some k =>
          match xorChunk key (wrapInt64 (offset + 1)) bs with
          | none => none
          | some (out, off) => some ((b ^^^ k) :: out, off)

/-- The `for` loop of `xorData`, one iteration per unit of fuel; `none` when
the fuel runs out before the loop ends. -/
def xorLoop (key : List Byte) : Nat → Reader → Writer → Int → Option (Result × Writer)
  | 0, _, _, _ => none
  | fuel + 1, src, dst, offset =>
    let rd := src.Read 4096
    let wr : Except (Result × Writer) (Writer × Int) :=
      if rd.data.length > 0 then
        match xorChunk key offset rd.data with
        | none => .error (Result.panic "runtime error", dst)
        | some (out, off1) =>
          match dst.Write out with
          | (dst1, some e) =>
            .error (Result.ret (some (Error.wrap "failed to write data" e)), dst1)
          | (dst1, none) => .ok (dst1, off1)
      else .ok (dst, offset)
    match wr with
    | .error r => some r
    | .ok (dst1, off1) =>
      match rd.err with
      | some Error.EOF => some (Result.ret none, dst1)
      | some e => some (Result.ret (some (Error.wrap "failed to read data" e)), dst1)
      | none => xorLoop key fuel rd.next dst1 off1

/-- The method `XOREncryptor.xorData`: the loop started at offset 0, with
fuel for every read the source can offer. -/
def XOREncryptor.xorData (e : XOREncryptor) (src : Reader) (dst : Writer) :
    Option (Result × Writer) :=
  xorLoop e.key src.fuel src dst 0

/-- The method `XOREncryptor.Encrypt`. -/
def XOREncryptor.Encrypt (e : XOREncryptor) (src : Reader) (dst : Writer) :
    Option (Result × Writer) :=
  e.xorData src dst

/-- The method `XOREncryptor.Decrypt`. -/
def XOREncryptor.Decrypt (e : XOREncryptor) (src : Reader) (dst : Writer) :
    Option (Result × Writer) :=
  e.xorData src dst

/-- What the spec says of the stream cipher: byte `i` of the stream, counted
from `start`, is combined with `key[position mod key_length]`. -/
def xorStream (key : List Byte) (start : Nat) : List Byte → List Byte
  | [] => []
  | b :: bs => (b ^^^ key.getD (start % key.length) 0) :: xorStream key (start + 1) bs

/-- The method `XOREncryptor.GetMetadata`. -/
def XOREncryptor.GetMetadata (e : XOREncryptor) : Metadata :=
  [("algorithm", "XOR"), ("key_size", toString e.key.length)]

/-! ## Standard library used by aes.go -/

/-- The loop of `io.ReadAtLeast`, `for n < min && err == nil`, with `need`
bytes still missing: every turn is one `Read` into the free part of the
buffer.  Returns the bytes read, the error of the last `Read`, and the reads
left over. -/
def readAtLeast : List ReadStep → Nat → List Byte × Option Error × List ReadStep
  | steps, 0 => ([], none, steps)
  | [], _ + 1 => ([], some Error.EOF, [])
  | s :: rest, need + 1 =>
    if s.data.length ≤ need + 1 then
      match s.err with
      | none =>
        let r := readAtLeast rest (need + 1 - s.data.length)
        (s.data ++ r.1, r.2.1, r.2.2)
      | some e => (s.data, some e, rest)
    else
      (s.data.take (need + 1), none, { s with data := s.data.drop (need + 1) } :: rest)

/-- The loop of `io.ReadAll`: read until the first error; `io.EOF` is not
reported as an error. -/
def readAll : List ReadStep → List Byte × Option Error
  | [] => ([], none)
  | s :: rest =>
    match s.err with
    | none => let r := readAll rest; (s.data ++ r.1, r.2)
    | some Error.EOF => (s.data, none)
    | some e => (s.data, some e)

namespace io

/-- The function `io.ReadFull(r, buf)` with `len(buf) = size`: the error is nil
when the buffer was filled, `io.ErrUnexpectedEOF` when the source ended after
some bytes, and the error of the source otherwise. -/
def ReadFull (r : Reader) (size : Nat) : ReadResult :=
  let res := readAtLeast r.steps size
  { data := res.1,
    err := if size ≤ res.1.length then none
      else if 0 < res.1.length ∧ res.2.1 = some Error.EOF then some Error.ErrUnexpectedEOF
      else res.2.1,
    next := { steps := res.2.2 } }

/-- The function `io.ReadAll(r)`. -/
def ReadAll (r : Reader) : List Byte × Option Error :=
  readAll r.steps

end io

/-- The `cipher.AEAD` values that `cipher.NewGCM` builds on AES blocks, as a
family indexed by the AES key.  `Seal key nonce plaintext` is
`gcm.Seal(nil, nonce, plaintext, nil)` and `Open key nonce ciphertext` is
`gcm.Open(nil, nonce, ciphertext, nil)`, `none` standing for its error. -/
structure AEAD where
  NonceSize : Nat
  Seal : List Byte → List Byte → List Byte → List Byte
  Open : List Byte → List Byte → List Byte → Option (List Byte)

/-- One `cipher.AEAD` value: the GCM of one AES block. -/
structure GCM where
  NonceSize : Nat
  Seal : List Byte → List Byte → List Byte
  Open : List Byte → List Byte → Option (List Byte)

/-- The `cipher.Block` of `aes.NewCipher`. -/
structure Block where
  key : List Byte

namespace aes

/-- The function `aes.NewCipher`: it accepts keys of 16, 24 and 32 bytes and
fails with `KeySizeError` on every other length. -/
def NewCipher (key : List Byte) : Except Error Block :=
  if key.length = 16 ∨ key.length = 24 ∨ key.length = 32 then .ok { key := key }
  else .error (Error.KeySizeError key.length)

end aes

namespace cipher

/-- The function `cipher.NewGCM`: on an AES block (block size 16) it does not
fail. -/
def NewGCM (lib : AEAD) (block : Block) : Except Error GCM :=
  .ok { NonceSize := lib.NonceSize, Seal := lib.Seal block.key, Open := lib.Open block.key }

end cipher

/-! ## aes.go: the AES-GCM cipher -/

/-- The encryptor `AESEncryptor`. -/
structure AESEncryptor where
  key : List Byte
  deriving DecidableEq, Repr

/-- The constructor `NewAESEncryptor`. -/
def NewAESEncryptor (key : List Byte) : Except Error AESEncryptor :=
  if key.length ≠ 16 ∧ key.length ≠ 24 ∧ key.length ≠ 32 then
    .error (Error.errorf
      ("invalid key size: " ++ toString key.length ++ ", must be 16, 24 or 32 bytes"))
  else .ok { key := key }

/-- The method `AESEncryptor.Encrypt`; `lib` is the GCM of the standard
library and `rand` the reader `rand.Reader`. -/
def AESEncryptor.Encrypt (lib : AEAD) (rand : Reader) (e : AESEncryptor)
    (src : Reader) (dst : Writer) : Result × Writer :=
  match aes.NewCipher e.key with
  | .error err => (Result.ret (some (Error.wrap "failed to create cipher" err)), dst)
  | .ok block =>
    match cipher.NewGCM lib block with
    | .error err => (Result.ret (some (Error.wrap "failed to create GCM" err)), dst)
    | .ok gcm =>
      let nonce := io.ReadFull rand gcm.NonceSize
      match nonce.err with
      | some err => (Result.ret (some (Error.wrap "failed to generate nonce" err)), dst)
      | none =>
        match dst.Write nonce.data with
        | (dst1, some err) => (Result.ret (some (Error.wrap "failed to write nonce" err)), dst1)
        | (dst1, none) =>
          match io.ReadAll src with
          | (_, some err) =>
            (Result.ret (some (Error.wrap "failed to read source data" err)), dst1)
          | (plaintext, none) =>
            let ciphertext := gcm.Seal nonce.data plaintext
            match dst1.Write ciphertext with
            | (dst2, some err) =>
              (Result.ret (some (Error.wrap "failed to write encrypted data" err)), dst2)
            | (dst2, none) => (Result.ret none, dst2)

/-- The method `AESEncryptor.Decrypt`. -/
def AESEncryptor.Decrypt (lib : AEAD) (e : AESEncryptor)
    (src : Reader) (dst : Writer) : Result × Writer :=
  match aes.NewCipher e.key with
  | .error err => (Result.ret (some (Error.wrap "failed to create cipher" err)), dst)
  | .ok block =>
    match cipher.NewGCM lib block with
    | .error err => (Result.ret (some (Error.wrap "failed to create GCM" err)), dst)
    | .ok gcm =>
      let nonce := io.ReadFull src gcm.NonceSize
      match nonce.err with
      | some err => (Result.ret (some (Error.wrap "failed to read nonce" err)), dst)
      | none =>
        match io.ReadAll nonce.next with
        | (_, some err) =>
          (Result.ret (some (Error.wrap "failed to read encrypted data" err)), dst)
        | (ciphertext, none) =>
          match gcm.Open nonce.data ciphertext with
          | none => (Result.ret (some (Error.wrap "failed to decrypt" Error.errOpen)), dst)
          | some plaintext =>
            match dst.Write plaintext with
            | (dst1, some err) =>
              (Result.ret (some (Error.wrap "failed to write decrypted data" err)), dst1)
            | (dst1, none) => (Result.ret none, dst1)

/-- The method `AESEncryptor.GetMetadata`. -/
def AESEncryptor.GetMetadata (e : AESEncryptor) : Metadata :=
  [("algorithm", "AES-GCM"), ("key_size", toString (e.key.length * 8))]

/-! ## crypto.go and storage.go: the two interfaces -/

/-- The interface `crypto.Encryptor`.  `Encrypt` and `Decrypt` give `none` when
the model of the cipher runs out of fuel. -/
structure Encryptor where
  Encrypt : Reader → Writer → Option (Result × Writer)
  Decrypt : Reader → Writer → Option (Result × Writer)
  GetMetadata : Metadata

/-- The XOR cipher as an `Encryptor`. -/
def XOREncryptor.toEncryptor (e : XOREncryptor) : Encryptor :=
  { Encrypt := e.Encrypt, Decrypt := e.Decrypt, GetMetadata := e.GetMetadata }

/-- The AES-GCM cipher as an `Encryptor`. -/
def AESEncryptor.toEncryptor (lib : AEAD) (rand : Reader) (e : AESEncryptor) : Encryptor :=
  { Encrypt := fun src dst => some (e.Encrypt lib rand src dst),
    Decrypt := fun src dst => some (e.Decrypt lib src dst),
    GetMetadata := e.GetMetadata }

/-- The record `storage.FileInfo`. -/
structure FileInfo where
  Path : String
  Size : Int
  IsDir : Bool
  ModTime : Int
  Metadata : Metadata
  deriving DecidableEq, Repr

/-- The interface `storage.Storage` over a store with states of type `σ`.  The
context argument of the methods carries no data and is left out. -/
structure Storage (σ : Type) where
  Upload : String → Reader → Metadata → σ → Option Error × σ
  Download : String → Writer → σ → Option Error × Writer × σ
  Delete : String → σ → Option Error × σ
  List : String → σ → Except Error (List FileInfo)
  Exists : String → σ → Except Error Bool
  GetMetadata : String → σ → Except Error Metadata

/-! ## uploader.go: the orchestrator -/

namespace filepath

/-- The function `filepath.Base` with separator `/`: the last element of the
path, trailing separators removed; `.` for the empty path and `/` for a path
of separators only. -/
def Base (path : String) : String :=
  if path = "" then "."
  else
    let stripped := path.toList.reverse.dropWhile (fun c => c == '/')
    let last := stripped.takeWhile (fun c => c != '/')
    if last = [] then "/" else String.mk last.reverse

end filepath

/-- An open `*os.File`: the reads it offers, and `Size()` of `file.Stat()`. -/
structure File where
  reader : Reader
  Stat : Except Error Int

/-- The local file system as `os.Open` sees it. -/
structure LocalFiles where
  Open : String → Except Error File

/-- The record `Uploader`. -/
structure Uploader (σ : Type) where
  encryptor : Encryptor
  storage : Storage σ

/-- The constructor `NewUploader`. -/
def NewUploader {σ : Type} (encryptor : Encryptor) (storage : Storage σ) : Uploader σ :=
  { encryptor := encryptor, storage := storage }

/-- The method `Uploader.UploadFile`; `fs` is the local file system, `now` is
`time.Now().Format(time.RFC3339)` and `st` the state of the store. -/
def Uploader.UploadFile {σ : Type} (u : Uploader σ) (fs : LocalFiles) (now : String)
    (localPath remotePath : String) (st : σ) : Option (Result × σ) :=
  match fs.Open localPath with
  | .error err => some (Result.ret (some (Error.wrap "failed to open file" err)), st)
  | .ok file =>
    match file.Stat with
    | .error err => some (Result.ret (some (Error.wrap "failed to get file info" err)), st)
    | .ok size =>
      match u.encryptor.Encrypt file.reader emptyBuffer with
      | none => none
      | some (Result.panic msg, _) => some (Result.panic msg, st)
      | some (Result.ret (some err), _) =>
        some (Result.ret (some (Error.wrap "failed to encrypt file" err)), st)
      | some (Result.ret none, encryptedData) =>
        let metadata := u.encryptor.GetMetadata
        let metadata := Metadata.assign metadata "original_name" (filepath.Base localPath)
        let metadata := Metadata.assign metadata "original_size" (toString size)
        let metadata :=
          Metadata.assign metadata "encrypted_size" (toString encryptedData.data.length)
        let metadata := Metadata.assign metadata "upload_time" now
        match u.storage.Upload remotePath (bufferReader encryptedData.data) metadata st with
        | (some err, st1) => some (Result.ret (some (Error.wrap "failed to upload file" err)), st1)
        | (none, st1) => some (Result.ret none, st1)

/-- The method `Uploader.UploadStream`. -/
def Uploader.UploadStream {σ : Type} (u : Uploader σ) (now : String) (data : Reader)
    (remotePath : String) (metadata : Metadata) (st : σ) : Option (Result × σ) :=
  match u.encryptor.Encrypt data emptyBuffer with
  | none => none
  | some (Result.panic msg, _) => some (Result.panic msg, st)
  | some (Result.ret (some err), _) =>
    some (Result.ret (some (Error.wrap "failed to encrypt data" err)), st)
  | some (Result.ret none, encryptedData) =>
    let finalMetadata := u.encryptor.GetMetadata
    let finalMetadata :=
      metadata.foldl (fun m kv => Metadata.assign m kv.1 kv.2) finalMetadata
    let finalMetadata :=
      Metadata.assign finalMetadata "encrypted_size" (toString encryptedData.data.length)
    let finalMetadata := Metadata.assign finalMetadata "upload_time" now
    match u.storage.Upload remotePath (bufferReader encryptedData.data) finalMetadata st with
    | (some err, st1) => some (Result.ret (some (Error.wrap "failed to upload data" err)), st1)
    | (none, st1) => some (Result.ret none, st1)

/-! ## The file system under local.go and uploader.go -/

/-- The place of a file or directory: the names on the way from the root to
it; the root itself is the empty list. -/
abbrev Path := List String

/-- The error `ENOENT` of the operating system. -/
def ENOENT : Error := Error.io "no such file or directory"

/-- The error `ENOTDIR` of the operating system. -/
def ENOTDIR : Error := Error.io "not a directory"

/-- The error `EISDIR` of the operating system. -/
def EISDIR : Error := Error.io "is a directory"

/-- The error `ENOTEMPTY` of the operating system. -/
def ENOTEMPTY : Error := Error.io "directory not empty"

/-- The error `EBUSY` of the operating system. -/
def EBUSY : Error := Error.io "device or resource busy"

/-- The error `ENAMETOOLONG` of the operating system. -/
def ENAMETOOLONG : Error := Error.io "file name too long"

/-- The error `EINVAL` of the operating system. -/
def EINVAL : Error := Error.io "invalid argument"

/-- The limit of Linux on the bytes of one file name. -/
def NAME_MAX : Nat := 255

/-- The limit of Linux on the bytes of a path text, its end marker included. -/
def PATH_MAX : Nat := 4096

namespace os

/-- The function `os.IsNotExist`. -/
def IsNotExist (err : Error) : Bool := err == ENOENT

end os

/-- What a path names: a regular file with its bytes and modification time,
or a directory with the size and modification time that `Info()` reports. -/
inductive Node where
  | file (data : List Byte) (modTime : Int)
  | dir (size : Int) (modTime : Int)
  deriving DecidableEq, Repr

/-- The result of `info.Size()`. -/
def Node.size : Node → Int
  | Node.file data _ => (data.length : Int)
  | Node.dir size _ => size

/-- The result of `entry.IsDir()`. -/
def Node.isDir : Node → Bool
  | Node.file _ _ => false
  | Node.dir _ _ => true

/-- The result of `info.ModTime().Unix()`. -/
def Node.modTime : Node → Int
  | Node.file _ t => t
  | Node.dir _ t => t

/-- A file system as the process sees it: what the paths name (the first
entry of a path counts), the working directory of the process, the time that
the next write stamps, and the size reported for a new directory. -/
structure FS where
  entries : List (Path × Node)
  cwd : Path
  clock : Int
  dirSize : Int
  deriving DecidableEq, Repr

/-- What the path names, if anything. -/
def FS.lookup (fs : FS) (p : Path) : Option Node :=
  List.lookup p fs.entries

/-- The file system with `p` naming `n`. -/
def FS.set (fs : FS) (p : Path) (n : Node) : FS :=
  { fs with entries := (p, n) :: fs.entries.filter (fun e => e.1 != p) }

/-- The file system with nothing at `p`. -/
def FS.erase (fs : FS) (p : Path) : FS :=
  { fs with entries := fs.entries.filter (fun e => e.1 != p) }

/-- The non-empty prefixes of a path, shortest first, the path itself last. -/
def nePrefixes : Path → List Path
  | [] => []
  | a :: l => [a] :: (nePrefixes l).map (fun q => a :: q)

/-- Whether the last name of the path has more bytes than a file name may
have. -/
def Path.nameTooLong (p : Path) : Bool :=
  decide (NAME_MAX < (p.getLastD "").utf8ByteSize)

/-- Walking through the given directories in turn: the error of the first one
that has too long a name, is missing or is not a directory. -/
def FS.checkDirs (fs : FS) : List Path → Option Error
  | [] => none
  | q :: qs =>
    if Path.nameTooLong q then some ENAMETOOLONG
    else
      match fs.lookup q with
      | some (Node.dir _ _) => fs.checkDirs qs
      | some (Node.file _ _) => some ENOTDIR
      | none => some ENOENT

/-- The system call behind `os.Stat` and `os.Open` at a place: the path is
walked from the root, which is always a directory. -/
def FS.Stat (fs : FS) (p : Path) : Except Error Node :=
  match fs.checkDirs (nePrefixes p.dropLast) with
  | some err => .error err
  | none =>
    if p = [] then .ok (Node.dir fs.dirSize 0)
    else if Path.nameTooLong p then .error ENAMETOOLONG
    else
      match fs.lookup p with
      | some n => .ok n
      | none => .error ENOENT

/-- Creating the given directories in turn, as `os.MkdirAll` does with the
prefixes of its path. -/
def FS.mkdirs (fs : FS) : List Path → Option Error × FS
  | [] => (none, fs)
  | q :: qs =>
    if Path.nameTooLong q then (some ENAMETOOLONG, fs)
    else
      match fs.lookup q with
      | some (Node.dir _ _) => fs.mkdirs qs
      | some (Node.file _ _) => (some ENOTDIR, fs)
      | none => (fs.set q (Node.dir fs.dirSize fs.clock)).mkdirs qs

/-- The system call behind `os.WriteFile` and `os.Create` at a place: the
file is created or truncated and gets `data`; the directory of the file has
to exist. -/
def FS.WriteFile (fs : FS) (p : Path) (data : List Byte) : Except Error FS :=
  match fs.checkDirs (nePrefixes p.dropLast) with
  | some err => .error err
  | none =>
    if p = [] then .error EISDIR
    else if Path.nameTooLong p then .error ENAMETOOLONG
    else
      match fs.lookup p with
      | some (Node.dir _ _) => .error EISDIR
      | _ => .ok (fs.set p (Node.file data fs.clock))

/-- Writing `data` through the handle of the open file `p`. -/
def FS.write (fs : FS) (p : Path) (data : List Byte) : FS :=
  fs.set p (Node.file data fs.clock)

/-- The system call behind `os.ReadFile` at a place. -/
def FS.ReadFile (fs : FS) (p : Path) : Except Error (List Byte) :=
  match fs.Stat p with
  | .error err => .error err
  | .ok (Node.file data _) => .ok data
  | .ok (Node.dir _ _) => .error EISDIR

/-- The entries directly below the directory `p`. -/
def FS.children (fs : FS) (p : Path) : List (Path × Node) :=
  fs.entries.filter (fun e => e.1 != [] && e.1.dropLast == p)

/-- The system call behind `os.Remove` at a place: it removes a file or an
empty directory. -/
def FS.Remove (fs : FS) (p : Path) : Except Error FS :=
  match fs.checkDirs (nePrefixes p.dropLast) with
  | some err => .error err
  | none =>
    if p = [] then .error EBUSY
    else if Path.nameTooLong p then .error ENAMETOOLONG
    else
      match fs.lookup p with
      | none => .error ENOENT
      | some (Node.file _ _) => .ok (fs.erase p)
      | some (Node.dir _ _) =>
        if fs.children p = [] then .ok (fs.erase p) else .error ENOTEMPTY

/-- An `os.DirEntry`: the name of a child and what it names. -/
structure DirEntry where
  name : String
  node : Node
  deriving DecidableEq, Repr

/-- The order of file names, byte by byte. -/
def leChars : List Char → List Char → Bool
  | [], _ => true
  | _ :: _, [] => false
  | a :: as, b :: bs => a.toNat < b.toNat || (a.toNat == b.toNat && leChars as bs)

/-- Insertion of an entry into a list sorted by file name. -/
def insertEntry (e : DirEntry) : List DirEntry → List DirEntry
  | [] => [e]
  | x :: xs =>
    if leChars e.name.toList x.name.toList then e :: x :: xs else x :: insertEntry e xs

/-- The entries sorted by file name, as `os.ReadDir` returns them. -/
def sortEntries : List DirEntry → List DirEntry
  | [] => []
  | x :: xs => insertEntry x (sortEntries xs)

/-- The system call behind `os.ReadDir` at a place. -/
def FS.ReadDir (fs : FS) (p : Path) : Except Error (List DirEntry) :=
  match fs.Stat p with
  | .error err => .error err
  | .ok (Node.file _ _) => .error ENOTDIR
  | .ok (Node.dir _ _) =>
    .ok (sortEntries ((fs.children p).map
      (fun e => { name := e.1.getLastD "", node := e.2 })))

/-! ## Standard library used by local.go: path/filepath, os, encoding/json -/

/-- The pieces of a path text between its separators `/`. -/
def splitSlash : List Char → List (List Char)
  | [] => [[]]
  | c :: cs =>
    match splitSlash cs with
    | [] => if c = '/' then [[], []] else [[c]]
    | w :: ws => if c = '/' then [] :: w :: ws else (c :: w) :: ws

/-- The elements of a path text, the empty ones between two separators and
at its ends included. -/
def pathElems (path : String) : List String :=
  (splitSlash path.toList).map String.mk

/-- One element in the walk of `filepath.Clean`: empty elements and `.` are
dropped, `..` takes the last element away (at the root of a rooted path it is
dropped, at the start of another path it is kept). -/
def cleanStep (rooted : Bool) (stack : List String) (elem : String) : List String :=
  if elem = "" ∨ elem = "." then stack
  else if elem = ".." then
    match stack.getLast? with
    | none => if rooted then stack else [".."]
    | some top => if top = ".." then stack ++ [".."] else stack.dropLast
  else stack ++ [elem]

namespace filepath

/-- The path text of cleaned elements: they are joined by `/`, after the
leading `/` of a rooted path; a path of no elements that is not rooted is
`.`. -/
def fromElems (rooted : Bool) (elems : List String) : String :=
  let body := String.intercalate "/" elems
  if rooted then "/" ++ body else if body = "" then "." else body

/-- The function `filepath.Clean`. -/
def Clean (path : String) : String :=
  let rooted : Bool := path.toList.head? == some '/'
  fromElems rooted ((pathElems path).foldl (cleanStep rooted) [])

/-- The function `filepath.Join` of two elements. -/
def Join (a b : String) : String :=
  if a = "" then (if b = "" then "" else Clean b)
  else if b = "" then Clean a
  else Clean (a ++ "/" ++ b)

/-- The function `filepath.Dir`. -/
def Dir (path : String) : String :=
  Clean (String.mk (path.toList.reverse.dropWhile (fun c => c != '/')).reverse)

/-- The function `filepath.Ext`: the text from the last dot of the last
element on, empty when that element has no dot. -/
def Ext (path : String) : String :=
  let rev := path.toList.reverse
  let tail := rev.takeWhile (fun c => c != '.' && c != '/')
  match rev.drop tail.length with
  | c :: _ => if c = '.' then String.mk ('.' :: tail.reverse) else ""
  | [] => ""

end filepath

/-- One element in the walk of the operating system along a path text: the
directory where the walk started and the names it has gone through since.  An
empty element and `.` stay, `..` goes back by one name or, with no name left,
takes the start to its parent (the root is its own parent), a name goes on. -/
def walkStep (w : Path × List String) (elem : String) : Path × List String :=
  if elem = "" ∨ elem = "." then w
  else if elem = ".." then
    (if w.2 = [] then (w.1.dropLast, []) else (w.1, w.2.dropLast))
  else (w.1, w.2 ++ [elem])

/-- The walk of the operating system along a path text: from the root for a
rooted text and from the working directory otherwise.  A `..` after a name
is taken with that name as in a cleaned text, whether or not the name exists;
the texts that `filepath.Clean` and `filepath.Join` return have no such
element. -/
def FS.walk (fs : FS) (path : String) : Path × List String :=
  (pathElems path).foldl walkStep
    (if path.toList.head? = some '/' then [] else fs.cwd, [])

/-- The bytes of a path text before its first NUL character, all its bytes
when it has none. -/
def firstNul (text : String) : Nat :=
  (String.mk (text.toList.takeWhile (fun c => c != Char.ofNat 0))).utf8ByteSize

/-- Why the first `size` bytes of a path text are refused as a path: Go
refuses a text with a NUL character before it makes the system call, and the
system call refuses a text of `PATH_MAX` bytes or more. -/
def textError (text : String) (size : Nat) : Option Error :=
  if firstNul text < size then some EINVAL
  else if PATH_MAX ≤ size then some ENAMETOOLONG
  else none

/-- The place that a path text names: the empty text names nothing, and a
text with a NUL character or of `PATH_MAX` bytes or more is refused. -/
def FS.resolve (fs : FS) (path : String) : Except Error Path :=
  if path = "" then .error ENOENT
  else
    match textError path path.utf8ByteSize with
    | some err => .error err
    | none => .ok ((fs.walk path).1 ++ (fs.walk path).2)

/-- The bytes of the text of the prefix `q` of the place `p`, when `text` is
the text of `p`: the names after `q` and their separators are taken off. -/
def textSize (text : String) (p q : Path) : Nat :=
  text.utf8ByteSize - ((p.drop q.length).map (fun n => n.utf8ByteSize + 1)).sum

namespace os

/-- The function `os.Stat`; `os.Open` succeeds and fails as it does. -/
def Stat (fs : FS) (path : String) : Except Error Node :=
  match fs.resolve path with
  | .error err => .error err
  | .ok p => fs.Stat p

/-- The function `os.MkdirAll`: the directory where the walk starts has to
exist; the directories named after it are created in turn, as far as their
texts are accepted as paths. -/
def MkdirAll (fs : FS) (path : String) : Option Error × FS :=
  if path = "" then (some ENOENT, fs)
  else
    let w := fs.walk path
    match fs.checkDirs (nePrefixes w.1) with
    | some err => (some err, fs)
    | none =>
      let todo := (nePrefixes (w.1 ++ w.2)).drop w.1.length
      let accepted :=
        todo.takeWhile (fun q => (textError path (textSize path (w.1 ++ w.2) q)).isNone)
      match fs.mkdirs accepted with
      | (some err, fs1) => (some err, fs1)
      | (none, fs1) =>
        match todo.drop accepted.length with
        | q :: _ => (textError path (textSize path (w.1 ++ w.2) q), fs1)
        | [] => (textError path path.utf8ByteSize, fs1)

/-- The function `os.Create`: the file is created or truncated; the result is
the open file and the file system with it. -/
def Create (fs : FS) (path : String) : Except Error (Path × FS) :=
  match fs.resolve path with
  | .error err => .error err
  | .ok p =>
    match fs.WriteFile p [] with
    | .error err => .error err
    | .ok fs1 => .ok (p, fs1)

/-- The function `os.WriteFile`. -/
def WriteFile (fs : FS) (path : String) (data : List Byte) : Except Error FS :=
  match fs.resolve path with
  | .error err => .error err
  | .ok p => fs.WriteFile p data

/-- The function `os.ReadFile`. -/
def ReadFile (fs : FS) (path : String) : Except Error (List Byte) :=
  match fs.resolve path with
  | .error err => .error err
  | .ok p => fs.ReadFile p

/-- The function `os.Remove`.  A text that ends in no name has nothing to
remove: the root is busy, `.` is refused, and a directory reached by `..` is
not empty. -/
def Remove (fs : FS) (path : String) : Except Error FS :=
  match fs.resolve path with
  | .error err => .error err
  | .ok p =>
    if (fs.walk path).2 = [] then
      match fs.Stat p with
      | .error err => .error err
      | .ok _ =>
        if (pathElems path).getLast? = some ".." then .error ENOTEMPTY
        else if (pathElems path).getLast? = some "." then .error EINVAL
        else .error EBUSY
    else fs.Remove p

/-- The function `os.ReadDir`. -/
def ReadDir (fs : FS) (path : String) : Except Error (List DirEntry) :=
  match fs.resolve path with
  | .error err => .error err
  | .ok p => fs.ReadDir p

end os

/-- The functions `json.Marshal` and `json.Unmarshal` on a
`map[string]string`. -/
structure JSONCodec where
  Marshal : Metadata → List Byte
  Unmarshal : List Byte → Except Error Metadata

/-! ## local.go: the local store -/

/-- The record `LocalStorage`. -/
structure LocalStorage where
  basePath : String
  deriving DecidableEq, Repr

/-- The constructor `NewLocalStorage`. -/
def NewLocalStorage (basePath : String) (fs : FS) : Except Error LocalStorage × FS :=
  if basePath = "" then (.error (Error.errorf "base path cannot be empty"), fs)
  else
    match os.MkdirAll fs basePath with
    | (some err, fs1) => (.error (Error.wrap "failed to create base directory" err), fs1)
    | (none, fs1) => (.ok { basePath := basePath }, fs1)

/-- The method `LocalStorage.saveMetadata`. -/
def LocalStorage.saveMetadata (_s : LocalStorage) (codec : JSONCodec) (filePath : String)
    (metadata : Metadata) (fs : FS) : Except Error FS :=
  let metaPath := filePath ++ ".meta"
  os.WriteFile fs metaPath (codec.Marshal metadata)

/-- The method `LocalStorage.loadMetadata`. -/
def LocalStorage.loadMetadata (_s : LocalStorage) (codec : JSONCodec) (filePath : String)
    (fs : FS) : Except Error Metadata :=
  let metaPath := filePath ++ ".meta"
  match os.ReadFile fs metaPath with
  | .error err => if os.IsNotExist err then .ok [] else .error err
  | .ok data => codec.Unmarshal data

/-- The method `LocalStorage.Upload`; `io.Copy` reads the data to its end
and the file keeps what was read. -/
def LocalStorage.Upload (s : LocalStorage) (codec : JSONCodec) (remotePath : String)
    (data : Reader) (metadata : Metadata) (fs : FS) : Option Error × FS :=
  let fullPath := filepath.Join s.basePath remotePath
  let dir := filepath.Dir fullPath
  match os.MkdirAll fs dir with
  | (some err, fs1) => (some (Error.wrap "failed to create directory" err), fs1)
  | (none, fs1) =>
    match os.Create fs1 fullPath with
    | .error err => (some (Error.wrap "failed to create file" err), fs1)
    | .ok (file, fs2) =>
      let copied := io.ReadAll data
      let fs3 := fs2.write file copied.1
      match copied.2 with
      | some err => (some (Error.wrap "failed to write data" err), fs3)
      | none =>
        if metadata.length > 0 then
          match s.saveMetadata codec fullPath metadata fs3 with
          | .error err => (some (Error.wrap "failed to save metadata" err), fs3)
          | .ok fs4 => (none, fs4)
        else (none, fs3)

/-- The method `LocalStorage.Download`. -/
def LocalStorage.Download (s : LocalStorage) (remotePath : String) (dst : Writer)
    (fs : FS) : Option Error × Writer × FS :=
  let fullPath := filepath.Join s.basePath remotePath
  match os.Stat fs fullPath with
  | .error err => (some (Error.wrap "failed to open file" err), dst, fs)
  | .ok (Node.dir _ _) => (some (Error.wrap "failed to read data" EISDIR), dst, fs)
  | .ok (Node.file data _) =>
    match dst.Write data with
    | (dst1, some err) => (some (Error.wrap "failed to read data" err), dst1, fs)
    | (dst1, none) => (none, dst1, fs)

/-- The method `LocalStorage.Delete`; the error of the second `os.Remove` is
ignored. -/
def LocalStorage.Delete (s : LocalStorage) (remotePath : String) (fs : FS) :
    Option Error × FS :=
  let fullPath := filepath.Join s.basePath remotePath
  match os.Remove fs fullPath with
  | .error err => (some (Error.wrap "failed to delete file" err), fs)
  | .ok fs1 =>
    let metaPath := fullPath ++ ".meta"
    match os.Remove fs1 metaPath with
    | .error _ => (none, fs1)
    | .ok fs2 => (none, fs2)

/-- The entry of `LocalStorage.List` for one entry of the directory. -/
def LocalStorage.fileInfo (s : LocalStorage) (codec : JSONCodec) (remotePath fullPath : String)
    (fs : FS) (entry : DirEntry) : FileInfo :=
  { Path := filepath.Join remotePath entry.name,
    Size := entry.node.size,
    IsDir := entry.node.isDir,
    ModTime := entry.node.modTime,
    Metadata :=
      match s.loadMetadata codec (filepath.Join fullPath entry.name) fs with
      | .ok metadata => metadata
      | .error _ => [] }

/-- The loop of `LocalStorage.List` over the entries of the directory. -/
def LocalStorage.listEntries (s : LocalStorage) (codec : JSONCodec)
    (remotePath fullPath : String) (fs : FS) : List DirEntry → List FileInfo
  | [] => []
  | entry :: rest =>
    if filepath.Ext entry.name = ".meta" then
      s.listEntries codec remotePath fullPath fs rest
    else
      s.fileInfo codec remotePath fullPath fs entry
        :: s.listEntries codec remotePath fullPath fs rest

/-- The method `LocalStorage.List`. -/
def LocalStorage.List (s : LocalStorage) (codec : JSONCodec) (remotePath : String)
    (fs : FS) : Except Error (List FileInfo) :=
  let fullPath := filepath.Join s.basePath remotePath
  match os.ReadDir fs fullPath with
  | .error err => .error (Error.wrap "failed to read directory" err)
  | .ok entries => .ok (s.listEntries codec remotePath fullPath fs entries)

/-- The method `LocalStorage.Exists`. -/
def LocalStorage.Exists (s : LocalStorage) (remotePath : String) (fs : FS) :
    Except Error Bool :=
  let fullPath := filepath.Join s.basePath remotePath
  match os.Stat fs fullPath with
  | .ok _ => .ok true
  | .error err => if os.IsNotExist err then .ok false else .error err

/-- The method `LocalStorage.GetMetadata`. -/
def LocalStorage.GetMetadata (s : LocalStorage) (codec : JSONCodec) (remotePath : String)
    (fs : FS) : Except Error Metadata :=
  let fullPath := filepath.Join s.basePath remotePath
  match s.Exists remotePath fs with
  | .error err => .error err
  | .ok false => .error (Error.errorf ("file not found: " ++ remotePath))
  | .ok true =>
    match s.loadMetadata codec fullPath fs with
    | .error err => .error err
    | .ok metadata => .ok metadata

/-- The local store as a `Storage`. -/
def LocalStorage.toStorage (s : LocalStorage) (codec : JSONCodec) : Storage FS :=
  { Upload := s.Upload codec,
    Download := s.Download,
    Delete := s.Delete,
    List := s.List codec,
    Exists := s.Exists,
    GetMetadata := s.GetMetadata codec }

/-! ## uploader.go: the download side -/

/-- The method `Uploader.DownloadFile`; `st` is the state of the store and
`lfs` the file system that receives the file. -/
def Uploader.DownloadFile {σ : Type} (u : Uploader σ) (remotePath localPath : String)
    (st : σ) (lfs : FS) : Option (Result × σ × FS) :=
  match u.storage.Download remotePath emptyBuffer st with
  | (some err, _, st1) =>
    some (Result.ret (some (Error.wrap "failed to download file" err)), st1, lfs)
  | (none, encryptedData, st1) =>
    match u.encryptor.Decrypt (bufferReader encryptedData.data) emptyBuffer with
    | none => none
    | some (Result.panic msg, _) => some (Result.panic msg, st1, lfs)
    | some (Result.ret (some err), _) =>
      some (Result.ret (some (Error.wrap "failed to decrypt file" err)), st1, lfs)
    | some (Result.ret none, decryptedData) =>
      let dir := filepath.Dir localPath
      match os.MkdirAll lfs dir with
      | (some err, lfs1) =>
        some (Result.ret (some (Error.wrap "failed to create directory" err)), st1, lfs1)
      | (none, lfs1) =>
        match os.WriteFile lfs1 localPath decryptedData.data with
        | .error err =>
          some (Result.ret (some (Error.wrap "failed to write file" err)), st1, lfs1)
        | .ok lfs2 => some (Result.ret none, st1, lfs2)

/-- The method `Uploader.DownloadStream`. -/
def Uploader.DownloadStream {σ : Type} (u : Uploader σ) (remotePath : String)
    (dst : Writer) (st : σ) : Option (Result × Writer × σ) :=
  match u.storage.Download remotePath emptyBuffer st with
  | (some err, _, st1) =>
    some (Result.ret (some (Error.wrap "failed to download data" err)), dst, st1)
  | (none, encryptedData, st1) =>
    match u.encryptor.Decrypt (bufferReader encryptedData.data) dst with
    | none => none
    | some (Result.panic msg, dst1) => some (Result.panic msg, dst1, st1)
    | some (Result.ret (some err), dst1) =>
      some (Result.ret (some (Error.wrap "failed to decrypt data" err)), dst1, st1)
    | some (Result.ret none, dst1) => some (Result.ret none, dst1, st1)

/-! ## handlers.go: formatSize -/

/-- The loop of `formatSize`,
`for n := size / unit; n >= unit; n /= unit { div *= unit; exp++ }`, one turn
per unit of fuel: the values of `div` and `exp` at its end, `none` when the
fuel runs out. -/
def formatSizeLoop : Nat → Int → Int → Int → Option (Int × Int)
  | 0, _, _, _ => none
  | fuel + 1, n, div, exp =>
    if n ≥ 1024 then
      formatSizeLoop fuel (Int.tdiv n 1024) (wrapInt64 (div * 1024)) (wrapInt64 (exp + 1))
    else some (div, exp)

/-- The function `formatSize`; `fmtFloat size div` is the text that `%.1f`
gives for `float64(size)/float64(div)`.  The outer `none` is the loop out of
fuel, the inner `none` the panic of an index out of range. -/
def formatSize (fmtFloat : Int → Int → String) (size : Int) : Option (Option String) :=
  if size < 1024 then some (some (toString size ++ " B"))
  else
    match formatSizeLoop 64 (Int.tdiv size 1024) 1024 0 with
    | none => none
    | some (div, exp) =>
      if exp < 0 then some none
      else
        match "KMGTPE".toList.get? exp.toNat with
        | none => some none
        | some c => some (some (fmtFloat size div ++ " " ++ String.singleton c ++ "B"))

/-- A stand-in for the `%.1f` of `formatSize`: quotient and first decimal,
truncated. -/
def sampleFloat (size div : Int) : String :=
  toString (size / div) ++ "." ++ toString (size * 10 / div % 10)

/-! ## Predicates of the statements -/

/-- A file name: it is not empty, has no separator and is not `.` or `..`. -/
def ProperName (n : String) : Prop :=
  '/' ∉ n.toList ∧ n ≠ "" ∧ n ≠ "." ∧ n ≠ ".."

instance (n : String) : Decidable (ProperName n) := by
  unfold ProperName; exact inferInstance

/-- The elements `..` of the list come before all its other elements. -/
def Leading : List String → Prop
  | [] => True
  | x :: xs => if x = ".." then Leading xs else ".." ∉ xs

/-- The elements of a cleaned path text: no element is empty, is `.` or has
a separator, and `..` stands only at the start of a text that is not
rooted. -/
def CleanElems (rooted : Bool) (elems : List String) : Prop :=
  (∀ e ∈ elems, '/' ∉ e.toList ∧ e ≠ "" ∧ e ≠ ".") ∧
  (rooted = true → ".." ∉ elems) ∧ Leading elems

/-- A cleaned path text: what `filepath.Clean` returns, and `filepath.Join`
when its result is not empty. -/
def CleanText (c : String) : Prop :=
  ∃ r E, c = filepath.fromElems r E ∧ CleanElems r E

/-! ## Instances for the examples -/

/-- A store that only records the arguments of its `Upload` calls. -/
def recorder : Storage (List (String × List ReadStep × Metadata)) :=
  { Upload := fun path data md st => (none, st ++ [(path, data.steps, md)]),
    Download := fun _ dst st => (some (Error.io "not found"), dst, st),
    Delete := fun _ st => (none, st),
    List := fun _ _ => .ok [],
    Exists := fun _ _ => .ok false,
    GetMetadata := fun _ _ => .ok [] }

/-- The 16-byte tag of `toyGCM`. -/
def toyTag (key nonce plaintext : List Byte) : List Byte :=
  (nonce ++ List.replicate 12 0).take 12 ++ [plaintext.length % 256, key.sum % 256, 0, 0]

/-- A stand-in for AES-GCM with its framing (12-byte nonce, 16-byte tag after
the body) and none of its strength. -/
def toyGCM : AEAD :=
  { NonceSize := 12,
    Seal := fun k n p => xorStream k 0 p ++ toyTag k n p,
    Open := fun k n c =>
      if c.length < 16 then none
      else
        let p := xorStream k 0 (c.take (c.length - 16))
        if c.drop (c.length - 16) = toyTag k n p then some p else none }

/-- A 16-byte key for the examples. -/
def key16 : List Byte := [0, 1, 2, 3, 4, 5, 6, 7, 8, 9, 10, 11, 12, 13, 14, 15]

/-- Another 16-byte key for the examples. -/
def otherKey16 : List Byte := [1, 1, 2, 3, 4, 5, 6, 7, 8, 9, 10, 11, 12, 13, 14, 15]

/-- The ten bytes of the text `hello test`. -/
def helloTest : List Byte := [104, 101, 108, 108, 111, 32, 116, 101, 115, 116]

/-- A random source for the examples: it yields the bytes 20, 21, ... -/
def sampleRand : Reader :=
  { steps := [{ data := [20, 21, 22, 23, 24, 25, 26, 27, 28, 29, 30, 31, 32, 33, 34, 35],
                err := none }] }

/-- The nonce that `sampleRand` yields. -/
def sampleNonce : List Byte := [20, 21, 22, 23, 24, 25, 26, 27, 28, 29, 30, 31]

/-- A local file system for the examples: the file `/tmp/hello.txt` with the
text `hello test`, and nothing else. -/
def sampleFiles : LocalFiles :=
  { Open := fun path =>
      if path = "/tmp/hello.txt" then
        .ok { reader := bufferReader helloTest, Stat := .ok 10 }
      else .error (Error.io "no such file or directory") }

/-- The decoder of `toyJSON`, one entry per unit of fuel. -/
def toyUnmarshal : Nat → List Byte → Except Error Metadata
  | _, [] => .ok []
  | 0, _ :: _ => .error (Error.errorf "unexpected end of JSON input")
  | _ + 1, [_] => .error (Error.errorf "unexpected end of JSON input")
  | fuel + 1, klen :: vlen :: rest =>
    if rest.length < klen + vlen then .error (Error.errorf "unexpected end of JSON input")
    else
      match toyUnmarshal fuel (rest.drop (klen + vlen)) with
      | .error err => .error err
      | .ok m =>
        .ok ((String.mk ((rest.take klen).map Char.ofNat),
              String.mk (((rest.drop klen).take vlen).map Char.ofNat)) :: m)

/-- A stand-in for `encoding/json`: every entry is written as the lengths of
its key and value followed by their characters. -/
def toyJSON : JSONCodec :=
  { Marshal := fun m =>
      (m.map (fun kv => [kv.1.length, kv.2.length]
        ++ kv.1.toList.map Char.toNat ++ kv.2.toList.map Char.toNat)).flatten,
    Unmarshal := fun data => toyUnmarshal data.length data }

/-- A file system with nothing in it. -/
def blankFS : FS := { entries := [], cwd := [], clock := 1700000000, dirSize := 4096 }

/-- The store of the examples, in the directory `/srv/backup`. -/
def sampleStore : LocalStorage := { basePath := "/srv/backup" }

/-- The file system with the empty store of the examples. -/
def sampleFS : FS := (NewLocalStorage "/srv/backup" blankFS).2

/-- What `AESEncryptor.Encrypt` writes for the text `hello test` under
`key16` with `toyGCM` and the nonce of `sampleRand`. -/
def sampleCiphertext : List Byte := sampleNonce ++ toyGCM.Seal key16 sampleNonce helloTest

/-- The store of the examples holding `sampleCiphertext` at `/a/hello.enc`. -/
def sampleVault : FS :=
  (sampleStore.Upload toyJSON "/a/hello.enc" (bufferReader sampleCiphertext) [] sampleFS).2

/-! # Properties -/

/-! ## Readers -/

theorem content_cons_none {s : ReadStep} {rest : List ReadStep} {P : List Byte}
    (h : s.err = none) :
    content (s :: rest) = some P ↔ ∃ Q, content rest = some Q ∧ s.data ++ Q = P := by
  simp [content, h]

theorem content_cons_eof {s : ReadStep} {rest : List ReadStep} {P : List Byte}
    (h : s.err = some Error.EOF) :
    content (s :: rest) = some P ↔ rest = [] ∧ s.data = P := by
  simp [content, h]

theorem content_cons_err {s : ReadStep} {rest : List ReadStep} {e : Error}
    (h : s.err = some e) (he : e ≠ Error.EOF) : content (s :: rest) = none := by
  cases e <;> simp_all [content]

theorem Writer.Write_unbounded (w : Writer) (h : w.room = none) (p : List Byte) :
    w.Write p = ({ w with data := w.data ++ p }, none) := by
  simp [Writer.Write, h]

/-! ## The XOR cipher -/

theorem wrapInt64_of_lt (n : Nat) (h : n < 2 ^ 63) : wrapInt64 (n : Int) = (n : Int) := by
  unfold wrapInt64
  have h1 : (0 : Int) ≤ (n : Int) + 2 ^ 63 := by positivity
  have h2 : (n : Int) + 2 ^ 63 < 2 ^ 64 := by
    have : (n : Int) < 2 ^ 63 := by exact_mod_cast h
    omega
  rw [Int.emod_eq_of_lt h1 h2]
  omega

/-- As long as the offset stays below 2^63 the inner loop does not panic and
produces the key stream of the spec. -/
theorem xorChunk_eq (key : List Byte) (hk : key ≠ []) (bs : List Byte) :
    ∀ n : Nat, n + bs.length < 2 ^ 63 →
      xorChunk key (n : Int) bs = some (xorStream key n bs, ((n + bs.length : Nat) : Int)) := by
  have hlen : 0 < key.length := List.length_pos.mpr hk
  induction bs with
  | nil => intro n _; simp [xorChunk, xorStream]
  | cons b bs ih =>
    intro n hn
    simp only [List.length_cons] at hn
    have hmod : n % key.length < key.length := Nat.mod_lt _ hlen
    have hidx : Int.tmod (n : Int) (key.length : Int) = ((n % key.length : Nat) : Int) :=
      (Int.ofNat_tmod n key.length).symm
    have hget : key.get? (n % key.length) = some (key.getD (n % key.length) 0) := by
      rw [List.get?_eq_get hmod, List.getD_eq_getElem _ _ hmod]
      rfl
    have hw : wrapInt64 ((n : Int) + 1) = ((n + 1 : Nat) : Int) := by
      have := wrapInt64_of_lt (n + 1) (by omega)
      simpa using this
    have hrec := ih (n + 1) (by omega)
    unfold xorChunk
    rw [if_neg (by omega)]
    simp only [hidx, hw, hrec, Int.toNat_ofNat, hget]
    rw [if_neg (by omega)]
    simp [xorStream, Nat.add_assoc, Nat.add_comm 1]

theorem xorStream_append (key : List Byte) (a b : List Byte) :
    ∀ n : Nat,
      xorStream key n (a ++ b) = xorStream key n a ++ xorStream key (n + a.length) b := by
  induction a with
  | nil => intro n; simp [xorStream]
  | cons x a ih =>
    intro n
    simp [xorStream, ih (n + 1), Nat.add_assoc, Nat.add_comm 1]

theorem xorStream_length (key : List Byte) (bs : List Byte) :
    ∀ n : Nat, (xorStream key n bs).length = bs.length := by
  induction bs with
  | nil => intro n; simp [xorStream]
  | cons x a ih => intro n; simp [xorStream, ih (n + 1)]

/-- Applying the key stream twice from the same position gives the input back. -/
theorem xorStream_xorStream (key : List Byte) (bs : List Byte) :
    ∀ n : Nat, xorStream key n (xorStream key n bs) = bs := by
  induction bs with
  | nil => intro n; simp [xorStream]
  | cons x a ih => intro n; simp [xorStream, ih (n + 1), Nat.xor_cancel_right]

/-- The loop of `xorData` on a source that delivers `P` and a destination
without limit: it ends without error, having written the key stream applied
to `P`, whatever the split into reads. -/
theorem xorLoop_delivers (key : List Byte) (hk : key ≠ []) :
    ∀ (fuel : Nat) (steps : List ReadStep) (dst : Writer) (n : Nat) (P : List Byte),
      content steps = some P → dst.room = none →
      (steps.map (fun s => s.data.length + 1)).sum < fuel →
      n + P.length < 2 ^ 63 →
      xorLoop key fuel { steps := steps } dst (n : Int)
        = some (Result.ret none, { dst with data := dst.data ++ xorStream key n P }) := by
  intro fuel
  induction fuel with
  | zero => intro steps dst n P _ _ hf; omega
  | succ fuel ih =>
    intro steps dst n P hc hroom hf hn
    cases steps with
    | nil =>
      simp only [content, Option.some.injEq] at hc
      subst hc
      simp [xorLoop, Reader.Read, xorStream]
    | cons s rest =>
      simp only [List.map_cons, List.sum_cons] at hf
      by_cases hcap : s.data.length ≤ 4096
      · -- the whole chunk fits into the buffer
        have hrd : (Reader.mk (s :: rest)).Read 4096
            = { data := s.data, err := s.err, next := { steps := rest } } := by
          simp [Reader.Read, hcap]
        cases herr : s.err with
        | none =>
          obtain ⟨Q, hQ, hP⟩ := (content_cons_none herr).mp hc
          subst hP
          simp only [List.length_append] at hn
          by_cases hd : s.data.length > 0
          · have hx := xorChunk_eq key hk s.data n (by omega)
            have hroom1 : ({ dst with data := dst.data ++ xorStream key n s.data } : Writer).room
                = none := hroom
            have := ih rest { dst with data := dst.data ++ xorStream key n s.data }
              (n + s.data.length) Q hQ hroom1 (by omega) (by omega)
            unfold xorLoop
            simp only [hrd, herr, hd, if_true, hx, Writer.Write_unbounded dst hroom, this]
            simp [xorStream_append, List.append_assoc]
          · have hnil : s.data = [] := List.length_eq_zero.mp (by omega)
            have := ih rest dst n Q hQ hroom (by omega) (by omega)
            unfold xorLoop
            simp only [hrd, herr, hd, if_false, this]
            simp [hnil]
        | some e =>
          by_cases he : e = Error.EOF
          · subst he
            obtain ⟨_, hP⟩ := (content_cons_eof herr).mp hc
            subst hP
            by_cases hd : s.data.length > 0
            · have hx := xorChunk_eq key hk s.data n (by omega)
              unfold xorLoop
              simp only [hrd, herr, hd, if_true, hx, Writer.Write_unbounded dst hroom]
            · have hnil : s.data = [] := List.length_eq_zero.mp (by omega)
              unfold xorLoop
              simp only [hrd, herr, hd, if_false]
              simp [hnil, xorStream]
          · rw [content_cons_err herr he] at hc
            exact absurd hc (by simp)
      · -- the chunk is longer than the buffer: 4096 bytes now, the rest later
        have hrd : (Reader.mk (s :: rest)).Read 4096
            = { data := s.data.take 4096, err := none,
                next := { steps := { s with data := s.data.drop 4096 } :: rest } } := by
          simp [Reader.Read, hcap]
        have htl : (s.data.take 4096).length = 4096 := by
          rw [List.length_take]; omega
        have hsplit : content ({ s with data := s.data.drop 4096 } :: rest)
            = some (P.drop 4096) ∧ P = s.data.take 4096 ++ P.drop 4096 := by
          cases herr : s.err with
          | none =>
            obtain ⟨Q, hQ, hP⟩ := (content_cons_none herr).mp hc
            subst hP
            have h1 : List.drop 4096 (s.data ++ Q) = List.drop 4096 s.data ++ Q := by
              rw [List.drop_append_of_le_length (by omega)]
            have h2 : List.take 4096 (s.data ++ Q) = List.take 4096 s.data := by
              rw [List.take_append_of_le_length (by omega)]
            refine ⟨(content_cons_none (s := { data := s.data.drop 4096, err := none }) rfl).mpr ⟨Q, hQ, h1.symm⟩, ?_⟩
            rw [h1, ← List.append_assoc, List.take_append_drop]
          | some e =>
            by_cases he : e = Error.EOF
            · subst he
              obtain ⟨hr, hP⟩ := (content_cons_eof herr).mp hc
              subst hP
              exact ⟨(content_cons_eof (s := { data := s.data.drop 4096, err := some Error.EOF }) rfl).mpr ⟨hr, rfl⟩,
                (List.take_append_drop _ _).symm⟩
            · rw [content_cons_err herr he] at hc
              exact absurd hc (by simp)
        obtain ⟨hc1, hP⟩ := hsplit
        have hPlen : P.length = 4096 + (P.drop 4096).length := by
          conv_lhs => rw [hP]
          rw [List.length_append, htl]
        have hx := xorChunk_eq key hk (s.data.take 4096) n (by omega)
        have hroom1 : ({ dst with data := dst.data ++ xorStream key n (s.data.take 4096) }
            : Writer).room = none := hroom
        have := ih ({ s with data := s.data.drop 4096 } :: rest)
          { dst with data := dst.data ++ xorStream key n (s.data.take 4096) }
          (n + 4096) (P.drop 4096) hc1 hroom1
          (by simp only [List.map_cons, List.sum_cons, List.length_drop]; omega) (by omega)
        unfold xorLoop
        simp only [hrd, htl, hx, Writer.Write_unbounded dst hroom]
        simp only [Nat.cast_add, Nat.cast_ofNat] at this ⊢
        simp only [gt_iff_lt, Nat.ofNat_pos, if_true, this]
        conv_rhs => rw [hP]
        simp [xorStream_append, htl, List.append_assoc]

/-- The method `xorData` on a source that delivers `P`. -/
theorem xorData_delivers (e : XOREncryptor) (hk : e.key ≠ []) (src : Reader) (dst : Writer)
    (P : List Byte) (hsrc : src.Delivers P) (hdst : dst.room = none)
    (hP : P.length < 2 ^ 63) :
    e.xorData src dst
      = some (Result.ret none, { dst with data := dst.data ++ xorStream e.key 0 P }) := by
  have := xorLoop_delivers e.key hk src.fuel src.steps dst 0 P hsrc hdst
    (by simp [Reader.fuel]) (by omega)
  simpa [XOREncryptor.xorData] using this

/-- The loop of `xorData` ends on every reader, within the fuel that
`Reader.fuel` grants. -/
theorem xorLoop_isSome (key : List Byte) :
    ∀ (fuel : Nat) (steps : List ReadStep) (dst : Writer) (offset : Int),
      (steps.map (fun s => s.data.length + 1)).sum < fuel →
      (xorLoop key fuel { steps := steps } dst offset).isSome = true := by
  intro fuel
  induction fuel with
  | zero => intro steps dst offset hf; omega
  | succ fuel ih =>
    intro steps dst offset hf
    unfold xorLoop
    cases steps with
    | nil => simp [Reader.Read]
    | cons s rest =>
      simp only [List.map_cons, List.sum_cons] at hf
      have hnext : (((Reader.mk (s :: rest)).Read 4096).next.steps.map
          (fun s => s.data.length + 1)).sum < fuel := by
        by_cases hcap : s.data.length ≤ 4096
        · simp only [Reader.Read, hcap, if_true]; omega
        · simp only [Reader.Read, hcap, if_false, List.map_cons, List.sum_cons,
            List.length_drop]
          omega
      generalize (Reader.mk (s :: rest)).Read 4096 = rd at hnext
      obtain ⟨data, err, next⟩ := rd
      simp only at hnext ⊢
      split
      · rfl
      · rename_i dst1 off1 _
        cases err with
        | none => exact ih next.steps dst1 off1 hnext
        | some e => cases e <;> rfl

/-- The method `xorData` returns on every reader and writer. -/
theorem xorData_isSome (e : XOREncryptor) (src : Reader) (dst : Writer) :
    (e.xorData src dst).isSome = true :=
  xorLoop_isSome e.key src.fuel src.steps dst 0 (by simp [Reader.fuel])

/-- With two keys the two key streams combine: byte `i` comes back unchanged
exactly when the keys agree at stream position `i`. -/
theorem xorStream_two_keys (K1 K2 : List Byte) (P : List Byte) :
    ∀ n : Nat, xorStream K2 n (xorStream K1 n P) = P ↔
      ∀ i, i < P.length →
        K1.getD ((n + i) % K1.length) 0 = K2.getD ((n + i) % K2.length) 0 := by
  induction P with
  | nil => intro n; simp [xorStream]
  | cons b bs ih =>
    intro n
    simp only [xorStream, List.cons.injEq, ih (n + 1), List.length_cons]
    have hb : ∀ x y : Nat, (b ^^^ x) ^^^ y = b ↔ x = y := by
      intro x y
      constructor
      · intro h
        have h1 : b ^^^ ((b ^^^ x) ^^^ y) = b ^^^ b := by rw [h]
        rw [Nat.xor_assoc, Nat.xor_cancel_left, Nat.xor_self] at h1
        exact Nat.xor_eq_zero.mp h1
      · intro h
        rw [h, Nat.xor_cancel_right]
    rw [hb]
    constructor
    · rintro ⟨h0, hrest⟩ i hi
      cases i with
      | zero => simpa using h0
      | succ j =>
        have := hrest j (by omega)
        simpa [Nat.add_assoc, Nat.add_comm 1] using this
    · intro h
      refine ⟨by simpa using h 0 (by omega), ?_⟩
      intro i hi
      have := h (i + 1) (by omega)
      simpa [Nat.add_assoc, Nat.add_comm 1] using this

/-! ### Claims on the XOR cipher -/

/-- C1: for every non-empty key `K` and every byte sequence `P` (the empty one
included, shorter than 2^63 bytes as every Go slice is), however the source
splits `P` into reads, `Encrypt` under `K` returns no error and writes some
`C`, and `Decrypt` under `K`, reading `C` in whatever split, returns no error
and writes exactly `P`. -/
theorem xor_decrypt_encrypt (K P : List Byte) (src : Reader) (dst : Writer)
    (hK : K ≠ []) (hP : P.length < 2 ^ 63) (hsrc : src.Delivers P) (hdst : dst.room = none) :
    ∃ e C, NewXOREncryptor K = .ok e ∧
      e.Encrypt src dst = some (Result.ret none, { dst with data := dst.data ++ C }) ∧
      ∀ (src2 : Reader) (dst2 : Writer), src2.Delivers C → dst2.room = none →
        e.Decrypt src2 dst2 = some (Result.ret none, { dst2 with data := dst2.data ++ P }) := by
  refine ⟨{ key := K }, xorStream K 0 P, ?_, ?_, ?_⟩
  · have : K.length ≠ 0 := fun h => hK (List.length_eq_zero.mp h)
    simp [NewXOREncryptor, this]
  · exact xorData_delivers { key := K } hK src dst P hsrc hdst hP
  · intro src2 dst2 hsrc2 hdst2
    have := xorData_delivers { key := K } hK src2 dst2 (xorStream K 0 P) hsrc2 hdst2
      (by rw [xorStream_length]; exact hP)
    rw [xorStream_xorStream] at this
    exact this

/-- C1, witness: the key `[1, 2, 3]`, the plaintext `[10, 20, 30, 40]` read in
two reads, the ciphertext read from a buffer. -/
theorem xor_decrypt_encrypt_witness :
    (XOREncryptor.mk [1, 2, 3]).Decrypt (bufferReader [11, 22, 29, 41]) emptyBuffer
      = some (Result.ret none, { data := [10, 20, 30, 40], room := none }) := by
  obtain ⟨e, C, he, henc, hdec⟩ := xor_decrypt_encrypt [1, 2, 3] [10, 20, 30, 40]
    { steps := [{ data := [10, 20], err := none }, { data := [30, 40], err := some Error.EOF }] }
    emptyBuffer (by decide) (by decide) (by decide) rfl
  have he2 : e = XOREncryptor.mk [1, 2, 3] := by
    have h : NewXOREncryptor [1, 2, 3] = .ok (XOREncryptor.mk [1, 2, 3]) := rfl
    rw [h] at he
    injection he with he
    exact he.symm
  subst he2
  have hC : C = [11, 22, 29, 41] := by
    have h : (XOREncryptor.mk [1, 2, 3]).Encrypt
        { steps := [{ data := [10, 20], err := none },
                    { data := [30, 40], err := some Error.EOF }] } emptyBuffer
        = some (Result.ret none, { data := [11, 22, 29, 41], room := none }) := by decide
    rw [h] at henc
    simpa [emptyBuffer] using henc.symm
  subst hC
  exact hdec (bufferReader [11, 22, 29, 41]) emptyBuffer (by decide) rfl

/-- C8, counterexample: the keys `[1]` and `[1, 1]` are different and not
empty, and decrypting under the second what was encrypted under the first
gives the plaintext `[5, 6, 7]` back. -/
theorem xor_wrong_key_counterexample :
    ([1] : List Byte) ≠ [1, 1] ∧
    (XOREncryptor.mk [1]).Encrypt (bufferReader [5, 6, 7]) emptyBuffer
      = some (Result.ret none, { data := [4, 7, 6], room := none }) ∧
    (XOREncryptor.mk [1, 1]).Decrypt (bufferReader [4, 7, 6]) emptyBuffer
      = some (Result.ret none, { data := [5, 6, 7], room := none }) := by
  decide

/-- C8, amended: for every plaintext `P` and every two non-empty keys `K1` and
`K2`, `Decrypt` under `K2` applied to `Encrypt(P)` under `K1` returns no error
and writes `P` combined with both key streams; what it writes differs from `P`
exactly when the two keys differ at some stream position `i < len(P)`, that is
`K1[i mod len(K1)] ≠ K2[i mod len(K2)]`. -/
theorem xor_wrong_key (K1 K2 P : List Byte) (src src2 : Reader) (dst dst2 : Writer)
    (hK1 : K1 ≠ []) (hK2 : K2 ≠ []) (hP : P.length < 2 ^ 63)
    (hsrc : src.Delivers P) (hdst : dst.room = none)
    (hsrc2 : src2.Delivers (xorStream K1 0 P)) (hdst2 : dst2.room = none) :
    (XOREncryptor.mk K1).Encrypt src dst
      = some (Result.ret none, { dst with data := dst.data ++ xorStream K1 0 P }) ∧
    (XOREncryptor.mk K2).Decrypt src2 dst2
      = some (Result.ret none,
          { dst2 with data := dst2.data ++ xorStream K2 0 (xorStream K1 0 P) }) ∧
    (xorStream K2 0 (xorStream K1 0 P) ≠ P ↔
      ∃ i, i < P.length ∧ K1.getD (i % K1.length) 0 ≠ K2.getD (i % K2.length) 0) := by
  refine ⟨xorData_delivers { key := K1 } hK1 src dst P hsrc hdst hP,
    xorData_delivers { key := K2 } hK2 src2 dst2 _ hsrc2 hdst2
      (by rw [xorStream_length]; exact hP), ?_⟩
  rw [Ne, xorStream_two_keys K1 K2 P 0]
  simp

/-- C8 amended, witness: the keys `[1, 2]` and `[1, 3]` on the plaintext
`[5, 6, 7]`. -/
theorem xor_wrong_key_witness :
    (XOREncryptor.mk [1, 3]).Decrypt (bufferReader [4, 4, 6]) emptyBuffer
      = some (Result.ret none, { data := [5, 7, 7], room := none }) ∧
    ([5, 7, 7] : List Byte) ≠ [5, 6, 7] :=
  ⟨(xor_wrong_key [1, 2] [1, 3] [5, 6, 7] (bufferReader [5, 6, 7]) (bufferReader [4, 4, 6])
      emptyBuffer emptyBuffer (by decide) (by decide) (by decide) (by decide) rfl
      (by decide) rfl).2.1,
    by decide⟩

/-- Byte `i` of the key stream applied to `bs` from position `n` is byte `i` of
`bs` combined with the key byte at position `n + i`. -/
theorem xorStream_getD (key : List Byte) (bs : List Byte) :
    ∀ (n i : Nat), i < bs.length →
      (xorStream key n bs).getD i 0 = bs.getD i 0 ^^^ key.getD ((n + i) % key.length) 0 := by
  induction bs with
  | nil => intro n i hi; simp at hi
  | cons b bs ih =>
    intro n i hi
    cases i with
    | zero => simp [xorStream]
    | succ j =>
      simp only [List.length_cons] at hi
      have := ih (n + 1) j (by omega)
      simp only [xorStream, List.getD_cons_succ, this]
      have e : n + 1 + j = n + (j + 1) := by omega
      rw [e]

/-- C16: for every non-empty key `K` and every input stream `P` (shorter than
2^63 bytes), however the reader splits `P` into reads and whether or not a
read is cut by the 4096-byte buffer, `xorData` returns no error and writes an
output of the length of `P` whose byte at stream position `i` is
`P[i] XOR K[i mod len(K)]`, the key index being in range; `Encrypt` and
`Decrypt` are both `xorData`. -/
theorem xorData_stream (K P : List Byte) (src : Reader) (dst : Writer)
    (hK : K ≠ []) (hP : P.length < 2 ^ 63) (hsrc : src.Delivers P) (hdst : dst.room = none) :
    ∃ out : List Byte,
      (XOREncryptor.mk K).xorData src dst
        = some (Result.ret none, { dst with data := dst.data ++ out }) ∧
      out.length = P.length ∧
      (∀ i, i < P.length →
        i % K.length < K.length ∧ out.getD i 0 = P.getD i 0 ^^^ K.getD (i % K.length) 0) ∧
      (XOREncryptor.mk K).Encrypt = (XOREncryptor.mk K).xorData ∧
      (XOREncryptor.mk K).Decrypt = (XOREncryptor.mk K).xorData := by
  refine ⟨xorStream K 0 P, xorData_delivers { key := K } hK src dst P hsrc hdst hP,
    xorStream_length K P 0, ?_, rfl, rfl⟩
  intro i hi
  refine ⟨Nat.mod_lt _ (List.length_pos.mpr hK), ?_⟩
  have := xorStream_getD K P 0 i hi
  simpa using this

/-- C16, witness: the key `[1, 2, 3]` on a stream of four bytes that arrives
in two reads; the byte at position 3 meets the key byte at position 0. -/
theorem xorData_stream_witness :
    ∃ out : List Byte,
      (XOREncryptor.mk [1, 2, 3]).xorData
          { steps := [{ data := [10, 20], err := none },
                      { data := [30, 40], err := some Error.EOF }] } emptyBuffer
        = some (Result.ret none, { data := out, room := none }) ∧
      out.length = 4 ∧ out.getD 3 0 = 40 ^^^ 1 := by
  obtain ⟨out, h1, h2, h3, _⟩ := xorData_stream [1, 2, 3] [10, 20, 30, 40]
    { steps := [{ data := [10, 20], err := none }, { data := [30, 40], err := some Error.EOF }] }
    emptyBuffer (by decide) (by decide) (by decide) rfl
  refine ⟨out, ?_, h2, ?_⟩
  · simpa [emptyBuffer] using h1
  · exact (h3 3 (by decide)).2

/-! ## The standard library readers -/

/-- One turn of the loop of `io.ReadAtLeast` is one `Read` into the free part
of the buffer. -/
theorem readAtLeast_step (r : Reader) (need : Nat) :
    readAtLeast r.steps (need + 1)
      = match (r.Read (need + 1)).err with
        | some e => ((r.Read (need + 1)).data, some e, (r.Read (need + 1)).next.steps)
        | none =>
          ((r.Read (need + 1)).data
              ++ (readAtLeast (r.Read (need + 1)).next.steps
                    (need + 1 - (r.Read (need + 1)).data.length)).1,
            (readAtLeast (r.Read (need + 1)).next.steps
              (need + 1 - (r.Read (need + 1)).data.length)).2.1,
            (readAtLeast (r.Read (need + 1)).next.steps
              (need + 1 - (r.Read (need + 1)).data.length)).2.2) := by
  obtain ⟨steps⟩ := r
  cases steps with
  | nil => simp [readAtLeast, Reader.Read]
  | cons s rest =>
    by_cases hfit : s.data.length ≤ need + 1
    · cases herr : s.err <;> simp [readAtLeast, Reader.Read, hfit, herr]
    · have hl : (List.take (need + 1) s.data).length = need + 1 := by
        rw [List.length_take]; omega
      simp [readAtLeast, Reader.Read, hfit, hl]

/-- One turn of the loop of `io.ReadAll` is one `Read`, whatever room the
buffer has. -/
theorem readAll_step (r : Reader) (cap : Nat) :
    readAll r.steps
      = match (r.Read cap).err with
        | none =>
          ((r.Read cap).data ++ (readAll (r.Read cap).next.steps).1,
            (readAll (r.Read cap).next.steps).2)
        | some Error.EOF => ((r.Read cap).data, none)
        | some e => ((r.Read cap).data, some e) := by
  obtain ⟨steps⟩ := r
  cases steps with
  | nil => simp [readAll, Reader.Read]
  | cons s rest =>
    by_cases hfit : s.data.length ≤ cap
    · cases herr : s.err with
      | none => simp [readAll, Reader.Read, hfit, herr]
      | some e => cases e <;> simp [readAll, Reader.Read, hfit, herr]
    · cases herr : s.err with
      | none =>
        simp only [readAll, Reader.Read, hfit, herr, if_false]
        rw [← List.append_assoc, List.take_append_drop]
      | some e => cases e <;> simp [readAll, Reader.Read, hfit, herr]

theorem readAll_content : ∀ (steps : List ReadStep) (B : List Byte),
    content steps = some B → readAll steps = (B, none) := by
  intro steps
  induction steps with
  | nil => intro B h; simp [content] at h; simp [readAll, h]
  | cons s rest ih =>
    intro B h
    cases herr : s.err with
    | none =>
      obtain ⟨Q, hQ, hB⟩ := (content_cons_none herr).mp h
      simp [readAll, herr, ih Q hQ, hB]
    | some e =>
      by_cases he : e = Error.EOF
      · subst he
        obtain ⟨_, hB⟩ := (content_cons_eof herr).mp h
        simp [readAll, herr, hB]
      · rw [content_cons_err herr he] at h
        exact absurd h (by simp)

theorem readAtLeast_delivers : ∀ (steps : List ReadStep) (B : List Byte) (N : Nat),
    content steps = some B → N ≤ B.length →
      (readAtLeast steps N).1 = B.take N ∧
      readAll (readAtLeast steps N).2.2 = (B.drop N, none) := by
  intro steps
  induction steps with
  | nil =>
    intro B N h hN
    simp [content] at h
    subst h
    simp at hN
    subst hN
    simp [readAtLeast, readAll]
  | cons s rest ih =>
    intro B N h hN
    cases N with
    | zero => simpa [readAtLeast] using readAll_content _ _ h
    | succ need =>
      by_cases hfit : s.data.length ≤ need + 1
      · cases herr : s.err with
        | none =>
          obtain ⟨Q, hQ, hB⟩ := (content_cons_none herr).mp h
          subst hB
          simp only [List.length_append] at hN
          obtain ⟨h1, h2⟩ := ih Q (need + 1 - s.data.length) hQ (by omega)
          simp only [readAtLeast, hfit, if_true, herr]
          refine ⟨?_, ?_⟩
          · rw [h1, List.take_append_eq_append_take, List.take_of_length_le hfit]
          · rw [h2, List.drop_append_eq_append_drop, List.drop_of_length_le hfit]
            simp
        | some e =>
          by_cases he : e = Error.EOF
          · subst he
            obtain ⟨hr, hB⟩ := (content_cons_eof herr).mp h
            subst hB hr
            simp only [readAtLeast, hfit, if_true, herr]
            have : s.data.length = need + 1 := by omega
            simp [readAll, List.take_of_length_le hfit, List.drop_of_length_le hfit]
          · rw [content_cons_err herr he] at h
            exact absurd h (by simp)
      · simp only [readAtLeast, hfit, if_false]
        cases herr : s.err with
        | none =>
          obtain ⟨Q, hQ, hB⟩ := (content_cons_none herr).mp h
          subst hB
          refine ⟨?_, ?_⟩
          · rw [List.take_append_of_le_length (by omega)]
          · have hc : content ({ data := s.data.drop (need + 1), err := none } :: rest)
                = some (s.data.drop (need + 1) ++ Q) :=
              (content_cons_none (s := { data := s.data.drop (need + 1), err := none }) rfl).mpr
                ⟨Q, hQ, rfl⟩
            rw [readAll_content _ _ hc, List.drop_append_of_le_length (by omega)]
        | some e =>
          by_cases he : e = Error.EOF
          · subst he
            obtain ⟨hr, hB⟩ := (content_cons_eof herr).mp h
            subst hB hr
            have hc : content [{ data := s.data.drop (need + 1), err := some Error.EOF }]
                = some (s.data.drop (need + 1)) := by simp [content]
            exact ⟨rfl, readAll_content _ _ hc⟩
          · rw [content_cons_err herr he] at h
            exact absurd h (by simp)

theorem readAtLeast_length_le : ∀ (steps : List ReadStep) (N : Nat),
    (readAtLeast steps N).1.length ≤ N := by
  intro steps
  induction steps with
  | nil => intro N; cases N <;> simp [readAtLeast]
  | cons s rest ih =>
    intro N
    cases N with
    | zero => simp [readAtLeast]
    | succ need =>
      by_cases hfit : s.data.length ≤ need + 1
      · cases herr : s.err with
        | none =>
          have := ih (need + 1 - s.data.length)
          simp only [readAtLeast, hfit, if_true, herr, List.length_append]
          omega
        | some e => simp [readAtLeast, hfit, herr]
      · simp only [readAtLeast, hfit, if_false, List.length_take]
        omega

theorem readAtLeast_none : ∀ (steps : List ReadStep) (N : Nat),
    (readAtLeast steps N).2.1 = none → (readAtLeast steps N).1.length = N := by
  intro steps
  induction steps with
  | nil => intro N; cases N <;> simp [readAtLeast]
  | cons s rest ih =>
    intro N
    cases N with
    | zero => simp [readAtLeast]
    | succ need =>
      by_cases hfit : s.data.length ≤ need + 1
      · cases herr : s.err with
        | none =>
          have := ih (need + 1 - s.data.length)
          simp only [readAtLeast, hfit, if_true, herr, List.length_append]
          intro h
          have := this h
          omega
        | some e => simp [readAtLeast, hfit, herr]
      · simp only [readAtLeast, hfit, if_false, List.length_take]
        intro _
        omega

/-- When `io.ReadFull` reports no error it has filled the buffer. -/
theorem ReadFull_length (r : Reader) (N : Nat) (h : (io.ReadFull r N).err = none) :
    (io.ReadFull r N).data.length = N := by
  have hle := readAtLeast_length_le r.steps N
  have hn := readAtLeast_none r.steps N
  simp only [io.ReadFull] at h ⊢
  by_cases h1 : N ≤ (readAtLeast r.steps N).1.length
  · omega
  · rw [if_neg h1] at h
    split at h
    · simp at h
    · exact hn h

/-- On a source that delivers `B`, at least `N` bytes long, `io.ReadFull` takes
the first `N` bytes and leaves the rest for `io.ReadAll`. -/
theorem ReadFull_delivers (r : Reader) (B : List Byte) (N : Nat)
    (h : r.Delivers B) (hN : N ≤ B.length) :
    (io.ReadFull r N).data = B.take N ∧ (io.ReadFull r N).err = none ∧
      io.ReadAll (io.ReadFull r N).next = (B.drop N, none) := by
  obtain ⟨h1, h2⟩ := readAtLeast_delivers r.steps B N h hN
  refine ⟨h1, ?_, h2⟩
  simp only [io.ReadFull, h1, List.length_take]
  rw [if_pos (by omega)]

theorem NewCipher_valid (key : List Byte)
    (h : key.length = 16 ∨ key.length = 24 ∨ key.length = 32) :
    aes.NewCipher key = .ok { key := key } := by
  simp [aes.NewCipher, h]

theorem NewCipher_invalid (key : List Byte)
    (h : ¬ (key.length = 16 ∨ key.length = 24 ∨ key.length = 32)) :
    aes.NewCipher key = .error (Error.KeySizeError key.length) := by
  simp only [aes.NewCipher, if_neg h]

/-- What `Encrypt` does on a valid key, a random source that yields a nonce, a
source that delivers `P` and a destination without limit. -/
theorem aes_encrypt_eq (lib : AEAD) (rand : Reader) (e : AESEncryptor) (src : Reader)
    (dst : Writer) (P : List Byte)
    (hkey : e.key.length = 16 ∨ e.key.length = 24 ∨ e.key.length = 32)
    (hrand : (io.ReadFull rand lib.NonceSize).err = none)
    (hsrc : src.Delivers P) (hdst : dst.room = none) :
    e.Encrypt lib rand src dst
      = (Result.ret none,
          { dst with data := dst.data ++ ((io.ReadFull rand lib.NonceSize).data
              ++ lib.Seal e.key (io.ReadFull rand lib.NonceSize).data P) }) := by
  have hall : io.ReadAll src = (P, none) := readAll_content _ _ hsrc
  have hdst1 : ({ dst with data := dst.data ++ (io.ReadFull rand lib.NonceSize).data }
      : Writer).room = none := hdst
  simp only [AESEncryptor.Encrypt, NewCipher_valid e.key hkey, cipher.NewGCM, hrand,
    Writer.Write_unbounded dst hdst, hall, Writer.Write_unbounded _ hdst1]
  simp [List.append_assoc]

/-- When `Encrypt` returns no error the key is valid and the random source
has yielded a nonce. -/
theorem aes_encrypt_inv (lib : AEAD) (rand : Reader) (e : AESEncryptor) (src : Reader)
    (dst w : Writer) (h : e.Encrypt lib rand src dst = (Result.ret none, w)) :
    (e.key.length = 16 ∨ e.key.length = 24 ∨ e.key.length = 32) ∧
      (io.ReadFull rand lib.NonceSize).err = none := by
  by_cases hkey : e.key.length = 16 ∨ e.key.length = 24 ∨ e.key.length = 32
  · refine ⟨hkey, ?_⟩
    cases hr : (io.ReadFull rand lib.NonceSize).err with
    | none => rfl
    | some err =>
      simp [AESEncryptor.Encrypt, NewCipher_valid e.key hkey, cipher.NewGCM, hr] at h
  · simp [AESEncryptor.Encrypt, NewCipher_invalid e.key hkey] at h

/-- What `Decrypt` does on a valid key and a source that delivers `B`, at
least a nonce long: the first `NonceSize` bytes are the nonce, the rest is
opened, and only an opened plaintext is written. -/
theorem aes_decrypt_eq (lib : AEAD) (e : AESEncryptor) (src : Reader) (dst : Writer)
    (B : List Byte)
    (hkey : e.key.length = 16 ∨ e.key.length = 24 ∨ e.key.length = 32)
    (hsrc : src.Delivers B) (hlen : lib.NonceSize ≤ B.length) :
    e.Decrypt lib src dst
      = match lib.Open e.key (B.take lib.NonceSize) (B.drop lib.NonceSize) with
        | none => (Result.ret (some (Error.wrap "failed to decrypt" Error.errOpen)), dst)
        | some plaintext =>
          match dst.Write plaintext with
          | (dst1, some err) =>
            (Result.ret (some (Error.wrap "failed to write decrypted data" err)), dst1)
          | (dst1, none) => (Result.ret none, dst1) := by
  obtain ⟨h1, h2, h3⟩ := ReadFull_delivers src B lib.NonceSize hsrc hlen
  simp only [AESEncryptor.Decrypt, NewCipher_valid e.key hkey, cipher.NewGCM, h2, h3, h1]


/-- On an input that `Open` rejects, `Decrypt` fails with the authentication
error and does not touch the destination. -/
theorem aes_decrypt_rejected (lib : AEAD) (e : AESEncryptor) (src : Reader)
    (dst : Writer) (B : List Byte)
    (hkey : e.key.length = 16 ∨ e.key.length = 24 ∨ e.key.length = 32)
    (hsrc : src.Delivers B) (hlen : lib.NonceSize ≤ B.length)
    (hfail : lib.Open e.key (B.take lib.NonceSize) (B.drop lib.NonceSize) = none) :
    e.Decrypt lib src dst
      = (Result.ret (some (Error.wrap "failed to decrypt" Error.errOpen)), dst) := by
  rw [aes_decrypt_eq lib e src dst B hkey hsrc hlen, hfail]

/-! ### The stand-ins for AES-GCM -/

theorem toyTag_length (k n p : List Byte) : (toyTag k n p).length = 16 := by
  simp [toyTag, List.length_take]

theorem toyGCM_seal_length (k n p : List Byte) :
    (toyGCM.Seal k n p).length = p.length + 16 := by
  simp [toyGCM, xorStream_length, toyTag_length]

theorem toyGCM_open_seal (k n p : List Byte) :
    toyGCM.Open k n (toyGCM.Seal k n p) = some p := by
  have hl : (xorStream k 0 p ++ toyTag k n p).length - 16 = (xorStream k 0 p).length := by
    simp [toyTag_length]
  simp only [toyGCM, hl, List.take_left', List.drop_left', xorStream_xorStream]
  simp [toyTag_length, xorStream_length]

/-! ### Claims on the AES-GCM cipher -/

/-- C2: for every key of 16, 24 or 32 bytes, every plaintext `P` (the empty
one included) and every nonce the random source yields, `Encrypt` returns no
error and writes some `C`, and `Decrypt` under the same key, reading `C` in
whatever split, returns no error and writes exactly `P`; `Open` is taken to
undo `Seal` for equal key and nonce. -/
theorem aes_decrypt_encrypt (lib : AEAD) (rand : Reader) (key P : List Byte)
    (src : Reader) (dst : Writer)
    (hkey : key.length = 16 ∨ key.length = 24 ∨ key.length = 32)
    (hOpen : ∀ n p, n.length = lib.NonceSize → lib.Open key n (lib.Seal key n p) = some p)
    (hrand : (io.ReadFull rand lib.NonceSize).err = none)
    (hsrc : src.Delivers P) (hdst : dst.room = none) :
    ∃ e C, NewAESEncryptor key = .ok e ∧
      e.Encrypt lib rand src dst = (Result.ret none, { dst with data := dst.data ++ C }) ∧
      ∀ (src2 : Reader) (dst2 : Writer), src2.Delivers C → dst2.room = none →
        e.Decrypt lib src2 dst2 = (Result.ret none, { dst2 with data := dst2.data ++ P }) := by
  have hnl := ReadFull_length rand lib.NonceSize hrand
  refine ⟨{ key := key }, (io.ReadFull rand lib.NonceSize).data
    ++ lib.Seal key (io.ReadFull rand lib.NonceSize).data P, ?_, ?_, ?_⟩
  · have : ¬ (key.length ≠ 16 ∧ key.length ≠ 24 ∧ key.length ≠ 32) := by omega
    simp only [NewAESEncryptor, if_neg this]
  · exact aes_encrypt_eq lib rand { key := key } src dst P hkey hrand hsrc hdst
  · intro src2 dst2 hsrc2 hdst2
    rw [aes_decrypt_eq lib { key := key } src2 dst2 _ hkey hsrc2
      (by rw [List.length_append]; omega)]
    rw [List.take_left' hnl, List.drop_left' hnl, hOpen _ _ hnl]
    simp only [Writer.Write_unbounded dst2 hdst2]

/-- C2, witness: the text `hello test` under `key16` with the stand-in
`toyGCM`. -/
theorem aes_decrypt_encrypt_witness :
    (AESEncryptor.mk key16).Decrypt toyGCM
        (bufferReader (sampleNonce ++ toyGCM.Seal key16 sampleNonce helloTest)) emptyBuffer
      = (Result.ret none, { data := helloTest, room := none }) := by
  obtain ⟨e, C, he, henc, hdec⟩ := aes_decrypt_encrypt toyGCM sampleRand key16 helloTest
    (bufferReader helloTest) emptyBuffer (by decide)
    (fun n p _ => toyGCM_open_seal key16 n p) (by decide) (by decide) rfl
  have he2 : e = AESEncryptor.mk key16 := by
    have h : NewAESEncryptor key16 = .ok (AESEncryptor.mk key16) := rfl
    rw [h] at he
    injection he with he
    exact he.symm
  subst he2
  have hC : C = sampleNonce ++ toyGCM.Seal key16 sampleNonce helloTest := by
    have h : (AESEncryptor.mk key16).Encrypt toyGCM sampleRand (bufferReader helloTest)
        emptyBuffer
        = (Result.ret none,
            { data := sampleNonce ++ toyGCM.Seal key16 sampleNonce helloTest, room := none }) := by
      decide
    rw [h] at henc
    simpa [emptyBuffer] using henc.symm
  subst hC
  exact hdec _ emptyBuffer (by decide) rfl

/-- C3: `NewAESEncryptor(key)` returns an encryptor holding `key` and no error
when `len(key)` is 16, 24 or 32, and an error and no encryptor for every other
length; so it succeeds if and only if the length is one of the three. -/
theorem NewAESEncryptor_key_size (key : List Byte) :
    NewAESEncryptor key
      = (if key.length = 16 ∨ key.length = 24 ∨ key.length = 32 then .ok { key := key }
        else .error (Error.errorf
          ("invalid key size: " ++ toString key.length ++ ", must be 16, 24 or 32 bytes"))) ∧
    ((∃ e, NewAESEncryptor key = .ok e) ↔
      key.length = 16 ∨ key.length = 24 ∨ key.length = 32) := by
  by_cases h : key.length = 16 ∨ key.length = 24 ∨ key.length = 32
  · have h2 : ¬ (key.length ≠ 16 ∧ key.length ≠ 24 ∧ key.length ≠ 32) := by omega
    simp only [NewAESEncryptor, if_neg h2, if_pos h]
    simpa using h
  · have h2 : key.length ≠ 16 ∧ key.length ≠ 24 ∧ key.length ≠ 32 := by omega
    simp only [NewAESEncryptor, if_pos h2, if_neg h]
    simpa using h2

/-- C4: for every valid key and plaintext `P`, with the 12-byte nonce and the
16-byte tag of GCM, `Encrypt` writes exactly `nonce || Seal(key, nonce, P)`
where `nonce` is the 12 bytes the random source yielded, `len(P) + 12 + 16`
bytes in all; and `Decrypt` takes the first 12 bytes of its input as the nonce
and all the remaining bytes as the sealed blob. -/
theorem aes_framing (lib : AEAD) (rand : Reader) (key P : List Byte)
    (src : Reader) (dst : Writer)
    (hkey : key.length = 16 ∨ key.length = 24 ∨ key.length = 32)
    (hN : lib.NonceSize = 12)
    (hSeal : ∀ n p, (lib.Seal key n p).length = p.length + 16)
    (hrand : (io.ReadFull rand 12).err = none)
    (hsrc : src.Delivers P) (hdst : dst.room = none) :
    (io.ReadFull rand 12).data.length = 12 ∧
    (AESEncryptor.mk key).Encrypt lib rand src dst
      = (Result.ret none,
          { dst with data := dst.data ++ ((io.ReadFull rand 12).data
              ++ lib.Seal key (io.ReadFull rand 12).data P) }) ∧
    ((io.ReadFull rand 12).data ++ lib.Seal key (io.ReadFull rand 12).data P).length
      = P.length + 12 + 16 ∧
    ∀ (B : List Byte) (src2 : Reader) (dst2 : Writer), src2.Delivers B → 12 ≤ B.length →
      (AESEncryptor.mk key).Decrypt lib src2 dst2
        = match lib.Open key (B.take 12) (B.drop 12) with
          | none => (Result.ret (some (Error.wrap "failed to decrypt" Error.errOpen)), dst2)
          | some plaintext =>
            match dst2.Write plaintext with
            | (dst3, some err) =>
              (Result.ret (some (Error.wrap "failed to write decrypted data" err)), dst3)
            | (dst3, none) => (Result.ret none, dst3) := by
  have hnl := ReadFull_length rand 12 hrand
  refine ⟨hnl, ?_, ?_, ?_⟩
  · have := aes_encrypt_eq lib rand { key := key } src dst P hkey (by rw [hN]; exact hrand)
      hsrc hdst
    rw [hN] at this
    exact this
  · rw [List.length_append, hSeal, hnl]
    omega
  · intro B src2 dst2 hsrc2 hB
    have := aes_decrypt_eq lib { key := key } src2 dst2 B hkey hsrc2 (by rw [hN]; exact hB)
    rw [hN] at this
    exact this

/-- C4, witness: the 10-byte text `hello test` gives a blob of 38 bytes. -/
theorem aes_framing_witness :
    ∃ C, (AESEncryptor.mk key16).Encrypt toyGCM sampleRand (bufferReader helloTest) emptyBuffer
        = (Result.ret none, { data := C, room := none }) ∧ C.length = 38 := by
  obtain ⟨_, henc, hlen, _⟩ := aes_framing toyGCM sampleRand key16 helloTest
    (bufferReader helloTest) emptyBuffer (by decide) rfl
    (fun n p => toyGCM_seal_length key16 n p) (by decide) (by decide) rfl
  exact ⟨_, henc, hlen⟩

/-- C5: for every input on which the tag check fails (`Open` returns its
error), `Decrypt` returns an error and leaves the destination writer as it
found it: nothing is written before the tag has been verified. -/
theorem aes_decrypt_tag_failure (lib : AEAD) (e : AESEncryptor) (src : Reader)
    (dst : Writer) (B : List Byte)
    (hkey : e.key.length = 16 ∨ e.key.length = 24 ∨ e.key.length = 32)
    (hsrc : src.Delivers B) (hlen : lib.NonceSize ≤ B.length)
    (hfail : lib.Open e.key (B.take lib.NonceSize) (B.drop lib.NonceSize) = none) :
    e.Decrypt lib src dst
      = (Result.ret (some (Error.wrap "failed to decrypt" Error.errOpen)), dst) :=
  aes_decrypt_rejected lib e src dst B hkey hsrc hlen hfail

/-- C5, witness: a blob sealed under `key16` and decrypted under
`otherKey16`, into a writer that already holds a byte. -/
theorem aes_decrypt_tag_failure_witness :
    (AESEncryptor.mk otherKey16).Decrypt toyGCM
        (bufferReader (sampleNonce ++ toyGCM.Seal key16 sampleNonce helloTest))
        { data := [7], room := some 100 }
      = (Result.ret (some (Error.wrap "failed to decrypt" Error.errOpen)),
          { data := [7], room := some 100 }) :=
  aes_decrypt_tag_failure toyGCM (AESEncryptor.mk otherKey16) _ _
    (sampleNonce ++ toyGCM.Seal key16 sampleNonce helloTest)
    (by decide) (by decide) (by decide) (by decide)


theorem lookup_filter_ne (m : Metadata) (k k2 : String) :
    List.lookup k2 (m.filter (fun e => e.1 != k))
      = if k2 = k then none else List.lookup k2 m := by
  induction m with
  | nil => simp
  | cons a m ih =>
    by_cases ha : a.1 = k
    · have : (a.1 != k) = false := by simp [ha]
      rw [List.filter_cons_of_neg (by simp [this]), ih]
      by_cases h2 : k2 = k
      · simp [h2]
      · have : (k2 == a.1) = false := by simp [ha, h2]
        obtain ⟨a1, a2⟩ := a
        simp only [h2, if_false, List.lookup_cons]
        simp only at this
        rw [this]
    · have : (a.1 != k) = true := by simp [ha]
      rw [List.filter_cons_of_pos (by simp [this])]
      obtain ⟨a1, a2⟩ := a
      simp only [List.lookup_cons, ih]
      by_cases h2 : k2 = k
      · subst h2
        have : (k2 == a1) = false := by
          simp only at ha
          simp [Ne.symm ha]
        simp [this]
      · simp [h2]

/-- After `m[k] = v` the key `k` has the value `v` and every other key the
value it had. -/
theorem lookup_assign (m : Metadata) (k v k2 : String) :
    List.lookup k2 (Metadata.assign m k v) = if k2 = k then some v else List.lookup k2 m := by
  simp only [Metadata.assign, List.lookup_cons, lookup_filter_ne]
  by_cases h : k2 = k
  · simp [h]
  · have : (k2 == k) = false := by simp [h]
    simp [h, this]

/-- The loop `for k, v := range metadata { finalMetadata[k] = v }`: the keys of
`metadata` get its values, the other keys keep theirs. -/
theorem lookup_foldl_assign (M : Metadata) :
    ∀ (C : Metadata) (k : String), (M.map Prod.fst).Nodup →
      List.lookup k (M.foldl (fun m kv => Metadata.assign m kv.1 kv.2) C)
        = match List.lookup k M with
          | some v => some v
          | none => List.lookup k C := by
  induction M with
  | nil => intro C k _; simp
  | cons a M ih =>
    intro C k hnd
    obtain ⟨a1, a2⟩ := a
    simp only [List.map_cons, List.nodup_cons] at hnd
    obtain ⟨hnot, hnd⟩ := hnd
    simp only [List.foldl_cons, ih _ k hnd, lookup_assign, List.lookup_cons]
    by_cases h : k = a1
    · subst h
      have hnone : List.lookup k M = none := by
        cases hl : List.lookup k M with
        | none => rfl
        | some v =>
          exfalso
          apply hnot
          clear ih hnd hnot
          induction M with
          | nil => simp at hl
          | cons b M ihM =>
            obtain ⟨b1, b2⟩ := b
            simp only [List.lookup_cons] at hl
            by_cases hb : k = b1
            · simp [hb]
            · have : (k == b1) = false := by simp [hb]
              rw [this] at hl
              simp only [List.map_cons, List.mem_cons]
              exact Or.inr (ihM hl)
      simp [hnone]
    · have : (k == a1) = false := by simp [h]
      simp [h, this]


/-! ### Claims on the orchestrator -/

/-- C9: when the cipher has encrypted the stream into the buffer `w`,
`UploadStream` passes to `Storage.Upload` the bytes of `w` and a mapping `md`
in which `upload_time` and `encrypted_size` (the decimal length of `w`) are
set by the orchestrator, whatever the caller supplied for them; every other
key of the caller's metadata `M` has the caller's value, also when the cipher
metadata has the key; every remaining key has the value of the cipher
metadata; and `md` has no other key. -/
theorem uploadStream_metadata (enc : Encryptor) (now : String) (data : Reader)
    (remotePath : String) (M : Metadata) (w : Writer)
    (hM : (M.map Prod.fst).Nodup)
    (hEnc : enc.Encrypt data emptyBuffer = some (Result.ret none, w)) :
    ∃ md : Metadata,
      (∀ k, List.lookup k md
        = if k = "upload_time" then some now
          else if k = "encrypted_size" then some (toString w.data.length)
          else match List.lookup k M with
            | some v => some v
            | none => List.lookup k enc.GetMetadata) ∧
      (∀ k, (List.lookup k md).isSome ↔
        ((List.lookup k enc.GetMetadata).isSome ∨ (List.lookup k M).isSome
          ∨ k = "encrypted_size" ∨ k = "upload_time")) ∧
      ∀ (σ : Type) (storage : Storage σ) (st : σ),
        (NewUploader enc storage).UploadStream now data remotePath M st
          = match storage.Upload remotePath (bufferReader w.data) md st with
            | (some err, st1) =>
              some (Result.ret (some (Error.wrap "failed to upload data" err)), st1)
            | (none, st1) => some (Result.ret none, st1) := by
  have hl : ∀ k, List.lookup k
      (Metadata.assign (Metadata.assign
        (M.foldl (fun m kv => Metadata.assign m kv.1 kv.2) enc.GetMetadata)
        "encrypted_size" (toString w.data.length)) "upload_time" now)
        = if k = "upload_time" then some now
          else if k = "encrypted_size" then some (toString w.data.length)
          else match List.lookup k M with
            | some v => some v
            | none => List.lookup k enc.GetMetadata := by
    intro k
    rw [lookup_assign, lookup_assign, lookup_foldl_assign M _ k hM]
  refine ⟨_, hl, ?_, ?_⟩
  · intro k
    rw [hl k]
    by_cases h1 : k = "upload_time"
    · simp [h1]
    · by_cases h2 : k = "encrypted_size"
      · simp [h2]
      · simp only [h1, h2, if_false, or_false]
        cases List.lookup k M <;> simp
  · intro σ storage st
    simp only [Uploader.UploadStream, NewUploader, hEnc]

/-- C9, witness: the caller supplies `a` and a wrong `encrypted_size`; the
store receives `a`, the size 31 of the blob, and the keys of the cipher. -/
theorem uploadStream_metadata_witness :
    ∃ md : Metadata,
      List.lookup "encrypted_size" md = some "31" ∧ List.lookup "a" md = some "b" ∧
      List.lookup "algorithm" md = some "AES-GCM" ∧ List.lookup "upload_time" md = some "now" ∧
      (NewUploader ((AESEncryptor.mk key16).toEncryptor toyGCM sampleRand) recorder).UploadStream
          "now" (bufferReader [1, 2, 3]) "/x.enc" [("a", "b"), ("encrypted_size", "7")] []
        = some (Result.ret none,
            [("/x.enc",
              (bufferReader (sampleNonce ++ toyGCM.Seal key16 sampleNonce [1, 2, 3])).steps,
              md)]) := by
  obtain ⟨md, hl, _, hup⟩ := uploadStream_metadata
    ((AESEncryptor.mk key16).toEncryptor toyGCM sampleRand) "now" (bufferReader [1, 2, 3])
    "/x.enc" [("a", "b"), ("encrypted_size", "7")]
    { data := sampleNonce ++ toyGCM.Seal key16 sampleNonce [1, 2, 3], room := none }
    (by decide) (by decide)
  refine ⟨md, ?_, ?_, ?_, ?_, ?_⟩
  · rw [hl]; decide
  · rw [hl]; decide
  · rw [hl]; decide
  · rw [hl]; decide
  · rw [hup]; rfl


/-- C10: for a local file with contents `P` that the cipher encrypts into the
buffer `w`, `UploadFile` passes to `Storage.Upload` the bytes of `w` and the
cipher metadata extended with `original_name` (the base name of the local
path), `original_size` (decimal `len(P)`), `encrypted_size` (decimal length
of `w`) and `upload_time`, and succeeds exactly when that call does; for the
AES cipher `encrypted_size` is `len(P) + 28`, `algorithm` is `AES-GCM` and
`key_size` is `8 * len(key)`. -/
theorem uploadFile_metadata (enc : Encryptor) (fs : LocalFiles) (now : String)
    (localPath remotePath : String) (file : File) (P : List Byte) (w : Writer)
    (hOpen : fs.Open localPath = .ok file)
    (hStat : file.Stat = .ok (P.length : Int))
    (hRead : file.reader.Delivers P)
    (hEnc : enc.Encrypt file.reader emptyBuffer = some (Result.ret none, w)) :
    ∃ md : Metadata,
      (∀ k, List.lookup k md
        = if k = "upload_time" then some now
          else if k = "encrypted_size" then some (toString w.data.length)
          else if k = "original_size" then some (toString P.length)
          else if k = "original_name" then some (filepath.Base localPath)
          else List.lookup k enc.GetMetadata) ∧
      (∀ (σ : Type) (storage : Storage σ) (st : σ),
        (NewUploader enc storage).UploadFile fs now localPath remotePath st
          = match storage.Upload remotePath (bufferReader w.data) md st with
            | (some err, st1) =>
              some (Result.ret (some (Error.wrap "failed to upload file" err)), st1)
            | (none, st1) => some (Result.ret none, st1)) ∧
      ∀ (lib : AEAD) (rand : Reader) (e : AESEncryptor),
        enc = e.toEncryptor lib rand → lib.NonceSize = 12 →
        (∀ n p, (lib.Seal e.key n p).length = p.length + 16) →
        List.lookup "encrypted_size" md = some (toString (P.length + 28)) ∧
        List.lookup "original_size" md = some (toString P.length) ∧
        List.lookup "algorithm" md = some "AES-GCM" ∧
        List.lookup "key_size" md = some (toString (8 * e.key.length)) := by
  have hsize : toString ((P.length : Nat) : Int) = toString P.length := rfl
  have hl : ∀ k, List.lookup k
      (Metadata.assign (Metadata.assign (Metadata.assign (Metadata.assign enc.GetMetadata
        "original_name" (filepath.Base localPath)) "original_size" (toString P.length))
        "encrypted_size" (toString w.data.length)) "upload_time" now)
        = if k = "upload_time" then some now
          else if k = "encrypted_size" then some (toString w.data.length)
          else if k = "original_size" then some (toString P.length)
          else if k = "original_name" then some (filepath.Base localPath)
          else List.lookup k enc.GetMetadata := by
    intro k
    rw [lookup_assign, lookup_assign, lookup_assign, lookup_assign]
  refine ⟨_, hl, ?_, ?_⟩
  · intro σ storage st
    simp only [Uploader.UploadFile, NewUploader, hOpen, hStat, hEnc, hsize]
  · intro lib rand e henc hN hSeal
    subst henc
    simp only [AESEncryptor.toEncryptor, Option.some.injEq] at hEnc
    obtain ⟨hkey, hrand⟩ := aes_encrypt_inv lib rand e file.reader emptyBuffer w hEnc
    have hnl := ReadFull_length rand lib.NonceSize hrand
    rw [aes_encrypt_eq lib rand e file.reader emptyBuffer P hkey hrand hRead rfl] at hEnc
    have hw : w.data.length = P.length + 28 := by
      have := congrArg (fun r => r.2.data.length) hEnc
      simp only [emptyBuffer, List.nil_append, List.length_append, hSeal, hnl] at this
      omega
    refine ⟨?_, ?_, ?_, ?_⟩
    · rw [hl, hw]; simp
    · rw [hl]; simp
    · rw [hl]; simp [AESEncryptor.toEncryptor, AESEncryptor.GetMetadata]
    · rw [hl, Nat.mul_comm]
      simp only [AESEncryptor.toEncryptor, AESEncryptor.GetMetadata]
      rfl

/-- C10, witness: the file `/tmp/hello.txt` with the text `hello test`, under
`key16`. -/
theorem uploadFile_metadata_witness :
    ∃ md : Metadata,
      List.lookup "original_name" md = some "hello.txt" ∧
      List.lookup "original_size" md = some "10" ∧
      List.lookup "encrypted_size" md = some "38" ∧
      List.lookup "algorithm" md = some "AES-GCM" ∧
      List.lookup "key_size" md = some "128" ∧
      (NewUploader ((AESEncryptor.mk key16).toEncryptor toyGCM sampleRand) recorder).UploadFile
          sampleFiles "now" "/tmp/hello.txt" "/x.enc" []
        = some (Result.ret none,
            [("/x.enc",
              (bufferReader (sampleNonce ++ toyGCM.Seal key16 sampleNonce helloTest)).steps,
              md)]) := by
  obtain ⟨md, hl, hup, haes⟩ := uploadFile_metadata
    ((AESEncryptor.mk key16).toEncryptor toyGCM sampleRand) sampleFiles "now"
    "/tmp/hello.txt" "/x.enc" { reader := bufferReader helloTest, Stat := .ok 10 } helloTest
    { data := sampleNonce ++ toyGCM.Seal key16 sampleNonce helloTest, room := none }
    rfl rfl (by decide) (by decide)
  obtain ⟨h1, h2, h3, h4⟩ := haes toyGCM sampleRand (AESEncryptor.mk key16) rfl rfl
    (fun n p => toyGCM_seal_length key16 n p)
  refine ⟨md, ?_, h2, h1, h3, h4, ?_⟩
  · rw [hl]; decide
  · rw [hup]; rfl


/-! ## formatSize -/

theorem wrapInt64_of_range (x : Int) (h1 : -2 ^ 63 ≤ x) (h2 : x < 2 ^ 63) : wrapInt64 x = x := by
  unfold wrapInt64
  rw [Int.emod_eq_of_lt (by omega) (by omega)]
  omega

theorem pow1024_pos (k : Nat) : (0 : Int) < 1024 ^ k := by positivity

theorem pow1024_le (k : Nat) (h : k ≤ 6) : (1024 : Int) ^ k ≤ 1024 ^ 6 :=
  pow_le_pow_right₀ (by norm_num) h

/-- After `k` more turns the loop of `formatSize` ends: when `n` lies between
`1024^k` and `1024^(k+1)`, `div` has been multiplied `k` times and `exp`
raised `k` times, without wrap-around as long as `exp` stays at most 5. -/
theorem formatSizeLoop_eq : ∀ (k fuel : Nat) (n : Int) (e : Nat),
    k < fuel → e + k ≤ 5 → (1024 : Int) ^ k ≤ n → n < 1024 ^ (k + 1) →
    formatSizeLoop fuel n (1024 ^ (e + 1)) (e : Int)
      = some ((1024 : Int) ^ (e + k + 1), ((e + k : Nat) : Int)) := by
  intro k
  induction k with
  | zero =>
    intro fuel n e hf _ _ hn
    obtain ⟨fuel, rfl⟩ : ∃ m, fuel = m + 1 := ⟨fuel - 1, by omega⟩
    have : ¬ n ≥ 1024 := by simpa using hn
    simp [formatSizeLoop, this]
  | succ k ih =>
    intro fuel n e hf he hlo hhi
    obtain ⟨fuel, rfl⟩ : ∃ m, fuel = m + 1 := ⟨fuel - 1, by omega⟩
    have hk := pow1024_pos k
    have hge : n ≥ 1024 := by
      have : (1024 : Int) ^ (k + 1) = 1024 ^ k * 1024 := pow_succ _ _
      nlinarith
    have hdiv : Int.tdiv n 1024 = n / 1024 := Int.tdiv_eq_ediv (by omega) (by norm_num)
    have h1 : (1024 : Int) ^ k ≤ n / 1024 :=
      Int.le_ediv_of_mul_le (by norm_num) (by rw [← pow_succ]; exact hlo)
    have h2 : n / 1024 < 1024 ^ (k + 1) :=
      Int.ediv_lt_of_lt_mul (by norm_num) (by rw [← pow_succ]; exact hhi)
    have hbig : (1024 : Int) ^ (e + 1 + 1) ≤ 1024 ^ 6 := pow1024_le _ (by omega)
    have hpos := pow1024_pos (e + 1 + 1)
    have hw1 : wrapInt64 ((1024 : Int) ^ (e + 1) * 1024) = 1024 ^ (e + 1 + 1) := by
      rw [← pow_succ]
      exact wrapInt64_of_range _ (by norm_num at hbig ⊢; omega) (by norm_num at hbig ⊢; omega)
    have hw2 : wrapInt64 ((e : Int) + 1) = ((e + 1 : Nat) : Int) := by
      rw [wrapInt64_of_range _ (by omega) (by omega)]
      simp
    have := ih fuel (n / 1024) (e + 1) (by omega) (by omega) h1 h2
    simp only [formatSizeLoop, hge, if_true, hdiv, hw1, hw2, this]
    have e1 : e + 1 + k + 1 = e + (k + 1) + 1 := by omega
    have e2 : e + 1 + k = e + (k + 1) := by omega
    rw [e1, e2]

/-- C18: for every 64-bit signed `size`, `formatSize` returns: the decimal
size followed by ` B` when `size < 1024` (negative sizes included), and for
`size >= 1024` the loop ends with `exp` between 0 and 5, so that `KMGTPE[exp]`
is in range, and with `div = 1024^(exp+1)`, which is below 2^63 and satisfies
`div <= size < 1024 * div`. -/
theorem formatSize_total (fmtFloat : Int → Int → String) (size : Int)
    (hlo : -2 ^ 63 ≤ size) (hhi : size < 2 ^ 63) :
    (size < 1024 ∧ formatSize fmtFloat size = some (some (toString size ++ " B"))) ∨
    (1024 ≤ size ∧ ∃ (exp : Nat) (c : Char), exp ≤ 5 ∧
      formatSizeLoop 64 (Int.tdiv size 1024) 1024 0
        = some ((1024 : Int) ^ (exp + 1), (exp : Int)) ∧
      (1024 : Int) ^ (exp + 1) < 2 ^ 63 ∧
      (1024 : Int) ^ (exp + 1) ≤ size ∧ size < 1024 * 1024 ^ (exp + 1) ∧
      "KMGTPE".toList.get? exp = some c ∧
      formatSize fmtFloat size
        = some (some (fmtFloat size (1024 ^ (exp + 1)) ++ " " ++ String.singleton c ++ "B"))) := by
  by_cases hs : size < 1024
  · exact Or.inl ⟨hs, by simp [formatSize, hs]⟩
  · right
    refine ⟨by omega, ?_⟩
    have hdiv : Int.tdiv size 1024 = size / 1024 := Int.tdiv_eq_ediv (by omega) (by norm_num)
    have hn1 : 1 ≤ size / 1024 := Int.le_ediv_of_mul_le (by norm_num) (by omega)
    have hn2 : size / 1024 < 2 ^ 53 :=
      Int.ediv_lt_of_lt_mul (by norm_num) (by norm_num at hhi ⊢; omega)
    have hk : ∃ k : Nat, k ≤ 5 ∧ (1024 : Int) ^ k ≤ size / 1024 ∧ size / 1024 < 1024 ^ (k + 1) := by
      by_cases c0 : size / 1024 < 1024 ^ 1
      · exact ⟨0, by omega, by simpa using hn1, c0⟩
      by_cases c1 : size / 1024 < 1024 ^ 2
      · exact ⟨1, by omega, by omega, c1⟩
      by_cases c2 : size / 1024 < 1024 ^ 3
      · exact ⟨2, by omega, by omega, c2⟩
      by_cases c3 : size / 1024 < 1024 ^ 4
      · exact ⟨3, by omega, by omega, c3⟩
      by_cases c4 : size / 1024 < 1024 ^ 5
      · exact ⟨4, by omega, by omega, c4⟩
      · exact ⟨5, by omega, by omega, by norm_num at hn2 ⊢; omega⟩
    obtain ⟨k, hk5, hklo, hkhi⟩ := hk
    have hloop := formatSizeLoop_eq k 64 (size / 1024) 0 (by omega) (by omega) hklo hkhi
    simp only [Nat.zero_add, pow_one, Nat.cast_zero] at hloop
    have hc : ∃ c, "KMGTPE".toList.get? k = some c := by
      have : k < "KMGTPE".toList.length := by
        have : "KMGTPE".toList.length = 6 := by decide
        omega
      exact ⟨_, List.get?_eq_get this⟩
    obtain ⟨c, hc⟩ := hc
    have hpk := pow1024_pos k
    have hbig : (1024 : Int) ^ (k + 1) ≤ 1024 ^ 6 := pow1024_le _ (by omega)
    have hmul : size / 1024 * 1024 ≤ size := by omega
    have hlt : size < (size / 1024 + 1) * 1024 := by omega
    have hsucc : (1024 : Int) ^ (k + 1) = 1024 ^ k * 1024 := pow_succ _ _
    refine ⟨k, c, hk5, ?_, ?_, ?_, ?_, hc, ?_⟩
    · rw [hdiv]; exact hloop
    · norm_num at hbig ⊢; omega
    · nlinarith
    · nlinarith
    · have hnn : ¬ ((k : Int) < 0) := by omega
      simp only [formatSize, hs, if_false, hdiv, hloop, hnn, Int.toNat_ofNat, hc]

/-- C18, witness: the greatest 64-bit size. -/
theorem formatSize_total_witness :
    ∃ (exp : Nat) (c : Char), exp ≤ 5 ∧ (1024 : Int) ^ (exp + 1) ≤ 2 ^ 63 - 1 ∧
      formatSize sampleFloat (2 ^ 63 - 1)
        = some (some (sampleFloat (2 ^ 63 - 1) (1024 ^ (exp + 1)) ++ " "
            ++ String.singleton c ++ "B")) := by
  rcases formatSize_total sampleFloat (2 ^ 63 - 1) (by decide) (by decide) with h | h
  · exact absurd h.1 (by decide)
  · obtain ⟨_, exp, c, h5, _, _, hle, _, _, hfmt⟩ := h
    exact ⟨exp, c, h5, hle, hfmt⟩


/-! ## Path texts -/

theorem splitSlash_cons (c : Char) (cs : List Char) :
    splitSlash (c :: cs)
      = if c = '/' then [] :: splitSlash cs
        else ((c :: (splitSlash cs).headD []) :: (splitSlash cs).tail) := by
  have hne : ∀ l, splitSlash l ≠ [] := by
    intro l
    induction l with
    | nil => simp [splitSlash]
    | cons a l ih =>
      simp only [splitSlash]
      split
      · split <;> simp
      · split <;> simp
  cases h : splitSlash cs with
  | nil => exact absurd h (hne cs)
  | cons w ws => simp [splitSlash, h]

theorem splitSlash_ne_nil (l : List Char) : splitSlash l ≠ [] := by
  cases l with
  | nil => simp [splitSlash]
  | cons c cs => rw [splitSlash_cons]; split <;> simp

/-- A text without separator is one piece. -/
theorem splitSlash_of_not_mem (l : List Char) (h : '/' ∉ l) : splitSlash l = [l] := by
  induction l with
  | nil => rfl
  | cons c cs ih =>
    have hc : c ≠ '/' := fun e => h (by simp [e])
    have hcs : '/' ∉ cs := fun e => h (List.mem_cons_of_mem _ e)
    rw [splitSlash_cons, ih hcs]
    simp [hc]

/-- The pieces of two texts with a separator between them. -/
theorem splitSlash_append (a b : List Char) :
    splitSlash (a ++ '/' :: b) = splitSlash a ++ splitSlash b := by
  induction a with
  | nil =>
    rw [List.nil_append, splitSlash_cons]
    simp [splitSlash]
  | cons c cs ih =>
    rw [List.cons_append, splitSlash_cons, splitSlash_cons, ih]
    by_cases hc : c = '/'
    · simp [hc]
    · simp only [hc, if_false]
      cases h : splitSlash cs with
      | nil => exact absurd h (splitSlash_ne_nil cs)
      | cons w ws => simp

/-- No piece has a separator. -/
theorem splitSlash_no_slash (l : List Char) : ∀ w ∈ splitSlash l, '/' ∉ w := by
  induction l with
  | nil => intro w hw; simp [splitSlash] at hw; subst hw; simp
  | cons c cs ih =>
    intro w hw
    rw [splitSlash_cons] at hw
    by_cases hc : c = '/'
    · simp only [hc, if_true, List.mem_cons] at hw
      rcases hw with hw | hw
      · subst hw; simp
      · exact ih w hw
    · simp only [hc, if_false, List.mem_cons] at hw
      cases h : splitSlash cs with
      | nil => exact absurd h (splitSlash_ne_nil cs)
      | cons v vs =>
        rw [h] at hw ih
        simp only [List.headD_cons, List.tail_cons] at hw
        rcases hw with hw | hw
        · subst hw
          have := ih v (List.mem_cons_self _ _)
          intro hm
          rcases List.mem_cons.mp hm with e | e
          · exact hc e.symm
          · exact this e
        · exact ih w (List.mem_cons_of_mem _ hw)

theorem toList_append (a b : String) : (a ++ b).toList = a.toList ++ b.toList := by
  cases a; cases b; rfl

theorem mk_toList (a : String) : String.mk a.toList = a := by
  cases a; rfl

theorem toList_inj (a b : String) (h : a.toList = b.toList) : a = b := by
  cases a; cases b; simp_all [String.toList]

theorem pathElems_append (a b : String) :
    pathElems (a ++ "/" ++ b) = pathElems a ++ pathElems b := by
  simp only [pathElems, toList_append]
  have : ("/" : String).toList = ['/'] := rfl
  rw [this, List.append_assoc, List.singleton_append, splitSlash_append, List.map_append]

theorem pathElems_of_not_mem (a : String) (h : '/' ∉ a.toList) : pathElems a = [a] := by
  unfold pathElems
  rw [splitSlash_of_not_mem _ h, List.map_singleton, mk_toList]

theorem pathElems_no_slash (a : String) : ∀ e ∈ pathElems a, '/' ∉ e.toList := by
  intro e he
  simp only [pathElems, List.mem_map] at he
  obtain ⟨w, hw, rfl⟩ := he
  exact splitSlash_no_slash _ w hw

theorem pathElems_ne_nil (a : String) : pathElems a ≠ [] := by
  simp [pathElems, splitSlash_ne_nil]

/-! ### Joining elements with separators -/

theorem intercalate_go (s : String) (l : List String) (acc : String) :
    String.intercalate.go acc s l = acc ++ String.intercalate.go "" s l := by
  induction l generalizing acc with
  | nil => simp [String.intercalate.go]
  | cons a l ih =>
    simp only [String.intercalate.go]
    rw [ih (acc ++ s ++ a), ih ("" ++ s ++ a)]
    simp [String.append_assoc]

theorem intercalate_cons_cons (s a b : String) (l : List String) :
    String.intercalate s (a :: b :: l) = a ++ s ++ String.intercalate s (b :: l) := by
  simp only [String.intercalate, String.intercalate.go]
  rw [intercalate_go s l (a ++ s ++ b), intercalate_go s l b]
  simp [String.append_assoc]

theorem intercalate_singleton (s a : String) : String.intercalate s [a] = a := by
  simp [String.intercalate, String.intercalate.go]

/-- The text of the elements with one more element at the end. -/
theorem intercalate_concat (l : List String) (n : String) (hl : l ≠ []) :
    String.intercalate "/" (l ++ [n]) = String.intercalate "/" l ++ "/" ++ n := by
  induction l with
  | nil => exact absurd rfl hl
  | cons a l ih =>
    cases l with
    | nil => simp [intercalate_cons_cons, intercalate_singleton]
    | cons b l =>
      rw [List.cons_append, List.cons_append, intercalate_cons_cons, ← List.cons_append,
        ih (by simp), intercalate_cons_cons]
      simp [String.append_assoc]

/-- The elements of a text of elements without separators. -/
theorem pathElems_intercalate (l : List String) (hl : l ≠ [])
    (h : ∀ e ∈ l, '/' ∉ e.toList) : pathElems (String.intercalate "/" l) = l := by
  induction l with
  | nil => exact absurd rfl hl
  | cons a l ih =>
    cases l with
    | nil =>
      rw [intercalate_singleton]
      exact pathElems_of_not_mem a (h a (by simp))
    | cons b l =>
      rw [intercalate_cons_cons, pathElems_append,
        pathElems_of_not_mem a (h a (by simp)),
        ih (by simp) (fun e he => h e (List.mem_cons_of_mem _ he))]
      rfl


/-! ### The walk of `filepath.Clean` -/

theorem Leading_all (S : List String) (h : Leading S) (hl : S.getLast? = some "..") :
    ∀ a ∈ S, a = ".." := by
  induction S with
  | nil => simp
  | cons x xs ih =>
    simp only [Leading] at h
    by_cases hx : x = ".."
    · simp only [hx, if_true] at h
      intro a ha
      rcases List.mem_cons.mp ha with e | e
      · rw [e, hx]
      · cases xs with
        | nil => simp at e
        | cons y ys =>
          apply ih h _ a e
          simpa [List.getLast?_cons_cons] using hl
    · simp only [hx, if_false] at h
      cases xs with
      | nil => simp at hl; exact absurd hl hx
      | cons y ys =>
        rw [List.getLast?_cons_cons] at hl
        exact absurd (List.mem_of_getLast?_eq_some hl) h

theorem Leading_concat_up (S : List String) (h : ∀ a ∈ S, a = "..") :
    Leading (S ++ [".."]) := by
  induction S with
  | nil => simp [Leading]
  | cons x xs ih =>
    have hx : x = ".." := h x (by simp)
    simp only [List.cons_append, Leading, hx, if_true]
    exact ih (fun a ha => h a (List.mem_cons_of_mem _ ha))

theorem Leading_concat (S : List String) (x : String) (h : Leading S) (hx : x ≠ "..") :
    Leading (S ++ [x]) := by
  induction S with
  | nil => simp [Leading, hx]
  | cons y ys ih =>
    simp only [Leading] at h
    simp only [List.cons_append, Leading]
    by_cases hy : y = ".."
    · simp only [hy, if_true] at h ⊢
      exact ih h
    · simp only [hy, if_false] at h ⊢
      intro hm
      rcases List.mem_append.mp hm with e | e
      · exact h e
      · exact hx (List.mem_singleton.mp e).symm

theorem Leading_dropLast (S : List String) (h : Leading S) : Leading S.dropLast := by
  induction S with
  | nil => simp [Leading]
  | cons y ys ih =>
    cases ys with
    | nil => simp [Leading]
    | cons z zs =>
      simp only [Leading] at h
      simp only [List.dropLast_cons₂, Leading]
      by_cases hy : y = ".."
      · simp only [hy, if_true] at h ⊢
        exact ih h
      · simp only [hy, if_false] at h ⊢
        intro hm
        exact h (List.dropLast_subset _ hm)

theorem Leading_append_up (S T : List String) (h : Leading (S ++ ".." :: T)) :
    ∀ a ∈ S, a = ".." := by
  induction S with
  | nil => simp
  | cons y ys ih =>
    simp only [List.cons_append, Leading] at h
    by_cases hy : y = ".."
    · simp only [hy, if_true] at h
      intro a ha
      rcases List.mem_cons.mp ha with e | e
      · rw [e, hy]
      · exact ih h a e
    · simp only [hy, if_false] at h
      exact absurd (by simp) h

/-- One step of `filepath.Clean` keeps the elements cleaned. -/
theorem cleanStep_clean (r : Bool) (S : List String) (x : String)
    (h : CleanElems r S) (hx : '/' ∉ x.toList) : CleanElems r (cleanStep r S x) := by
  obtain ⟨h1, h2, h3⟩ := h
  unfold cleanStep
  by_cases hx1 : x = "" ∨ x = "."
  · simp only [hx1, if_true]
    exact ⟨h1, h2, h3⟩
  · simp only [hx1, if_false]
    have hx2 : x ≠ "" ∧ x ≠ "." := by
      constructor
      · exact fun e => hx1 (Or.inl e)
      · exact fun e => hx1 (Or.inr e)
    by_cases hx3 : x = ".."
    · simp only [hx3, if_true]
      cases hl : S.getLast? with
      | none =>
        simp only
        cases r with
        | true => simp only [if_true]; exact ⟨h1, h2, h3⟩
        | false =>
          simp only [Bool.false_eq_true, if_false]
          refine ⟨?_, by simp, by simp [Leading]⟩
          intro e he
          simp only [List.mem_singleton] at he
          subst he
          exact ⟨by decide, by decide, by decide⟩
      | some top =>
        simp only
        by_cases ht : top = ".."
        · simp only [ht, if_true]
          have hall := Leading_all S h3 (by rw [hl, ht])
          have hmem : ".." ∈ S := by
            rw [← ht]; exact List.mem_of_getLast?_eq_some hl
          refine ⟨?_, ?_, Leading_concat_up S hall⟩
          · intro e he
            rcases List.mem_append.mp he with he | he
            · exact h1 e he
            · simp only [List.mem_singleton] at he
              subst he
              exact ⟨by decide, by decide, by decide⟩
          · intro hr
            exact absurd hmem (h2 hr)
        · simp only [ht, if_false]
          refine ⟨fun e he => h1 e (List.dropLast_subset _ he), ?_, Leading_dropLast S h3⟩
          intro hr hm
          exact h2 hr (List.dropLast_subset _ hm)
    · simp only [hx3, if_false]
      refine ⟨?_, ?_, Leading_concat S x h3 hx3⟩
      · intro e he
        rcases List.mem_append.mp he with he | he
        · exact h1 e he
        · simp only [List.mem_singleton] at he
          subst he
          exact ⟨hx, hx2.1, hx2.2⟩
      · intro hr hm
        rcases List.mem_append.mp hm with hm | hm
        · exact h2 hr hm
        · simp only [List.mem_singleton] at hm
          exact hx3 hm.symm

theorem foldl_cleanStep_clean (r : Bool) (xs : List String) :
    ∀ (S : List String), CleanElems r S → (∀ x ∈ xs, '/' ∉ x.toList) →
      CleanElems r (xs.foldl (cleanStep r) S) := by
  induction xs with
  | nil => intro S h _; exact h
  | cons x xs ih =>
    intro S h hx
    simp only [List.foldl_cons]
    exact ih _ (cleanStep_clean r S x h (hx x (by simp)))
      (fun y hy => hx y (List.mem_cons_of_mem _ hy))

theorem CleanElems_nil (r : Bool) : CleanElems r [] := by
  simp [CleanElems, Leading]

/-- Cleaned elements go through the walk of `filepath.Clean` unchanged. -/
theorem foldl_cleanStep_id (r : Bool) (T : List String) :
    ∀ (S : List String), CleanElems r (S ++ T) → T.foldl (cleanStep r) S = S ++ T := by
  induction T with
  | nil => intro S _; simp
  | cons x T ih =>
    intro S h
    have hstep : cleanStep r S x = S ++ [x] := by
      obtain ⟨h1, h2, h3⟩ := h
      have hx := h1 x (by simp)
      unfold cleanStep
      have hx1 : ¬ (x = "" ∨ x = ".") := by
        intro e
        rcases e with e | e
        · exact hx.2.1 e
        · exact hx.2.2 e
      simp only [hx1, if_false]
      by_cases hx3 : x = ".."
      · simp only [hx3, if_true]
        rw [hx3] at h3
        have hall := Leading_append_up S T h3
        have hr : r = false := by
          cases r with
          | false => rfl
          | true => exact absurd (by simp [hx3]) (h2 rfl)
        cases hl : S.getLast? with
        | none =>
          have : S = [] := by simpa using hl
          simp [this, hr]
        | some top =>
          have := hall top (List.mem_of_getLast?_eq_some hl)
          simp [this]
      · simp only [hx3, if_false]
    simp only [List.foldl_cons, hstep]
    rw [ih (S ++ [x]) (by simpa using h)]
    simp


/-! ### The text of cleaned elements -/

theorem append_eq_empty (a b : String) (h : a ++ b = "") : a = "" ∧ b = "" := by
  have h2 := congrArg String.toList h
  rw [toList_append] at h2
  have h3 : a.toList = [] ∧ b.toList = [] := by
    simpa using h2
  exact ⟨toList_inj _ _ h3.1, toList_inj _ _ h3.2⟩

theorem intercalate_ne_empty (l : List String) (hl : l ≠ []) (h : ∀ e ∈ l, e ≠ "") :
    String.intercalate "/" l ≠ "" := by
  cases l with
  | nil => exact absurd rfl hl
  | cons a l =>
    cases l with
    | nil => rw [intercalate_singleton]; exact h a (by simp)
    | cons b l =>
      rw [intercalate_cons_cons]
      intro e
      have := (append_eq_empty _ _ e).1
      exact absurd (append_eq_empty _ _ this).2 (by decide)

theorem fromElems_ne_empty (r : Bool) (E : List String) : filepath.fromElems r E ≠ "" := by
  unfold filepath.fromElems
  cases r with
  | true =>
    simp only [if_true]
    intro e
    exact absurd (append_eq_empty _ _ e).1 (by decide)
  | false =>
    simp only [Bool.false_eq_true, if_false]
    split
    · decide
    · assumption

/-- The text of cleaned elements with one more name at the end. -/
theorem fromElems_concat (r : Bool) (E : List String) (n : String)
    (hE : ∀ e ∈ E, e ≠ "") (hn : n ≠ "") :
    filepath.fromElems r (E ++ [n])
      = (if E = [] then (if r = true then "/" else "") else filepath.fromElems r E ++ "/") ++ n := by
  have hbody : String.intercalate "/" (E ++ [n]) ≠ "" :=
    intercalate_ne_empty _ (by simp) (by
      intro e he
      rcases List.mem_append.mp he with he | he
      · exact hE e he
      · rw [List.mem_singleton.mp he]; exact hn)
  by_cases hE0 : E = []
  · subst hE0
    simp only [List.nil_append, if_true]
    unfold filepath.fromElems
    rw [intercalate_singleton]
    cases r with
    | true => simp
    | false => simp [hn]
  · simp only [hE0, if_false]
    have hb := intercalate_ne_empty E hE0 hE
    unfold filepath.fromElems
    rw [intercalate_concat E n hE0]
    rw [intercalate_concat E n hE0] at hbody
    cases r with
    | true => simp [String.append_assoc]
    | false => simp [hb, hbody]

theorem fromElems_meta (r : Bool) (E : List String) (n : String)
    (hE : ∀ e ∈ E, e ≠ "") (hn : n ≠ "") :
    filepath.fromElems r (E ++ [n]) ++ ".meta" = filepath.fromElems r (E ++ [n ++ ".meta"]) := by
  have hn2 : n ++ ".meta" ≠ "" := fun e => hn (append_eq_empty _ _ e).1
  rw [fromElems_concat r E n hE hn, fromElems_concat r E _ hE hn2, String.append_assoc]

theorem head_append (a b : String) (h : a ≠ "") :
    (a ++ b).toList.head? = a.toList.head? := by
  rw [toList_append]
  cases ha : a.toList with
  | nil => exact absurd (toList_inj a "" (by simpa using ha)) h
  | cons c cs => simp

/-- A text of cleaned elements starts with the separator when it is rooted,
and only then. -/
theorem head_fromElems (r : Bool) (E : List String) (h : CleanElems r E) :
    ((filepath.fromElems r E).toList.head? = some '/') ↔ r = true := by
  cases r with
  | true =>
    simp only [filepath.fromElems, if_true, iff_true]
    rw [head_append _ _ (by decide)]
    rfl
  | false =>
    simp only [Bool.false_eq_true, iff_false]
    cases E with
    | nil => simp [filepath.fromElems, String.intercalate]
    | cons a E =>
      have ha := h.1 a (by simp)
      have hb := intercalate_ne_empty (a :: E) (by simp) (fun e he => (h.1 e he).2.1)
      have hhead : (filepath.fromElems false (a :: E)).toList.head? = a.toList.head? := by
        simp only [filepath.fromElems, Bool.false_eq_true, if_false, hb]
        cases E with
        | nil => rw [intercalate_singleton]
        | cons b E =>
          rw [intercalate_cons_cons, String.append_assoc, head_append _ _ ha.2.1]
      rw [hhead]
      intro e
      exact ha.1 (List.mem_of_mem_head? e)

/-- Reading the elements of a text of cleaned elements back: a walk that
passes over the empty element and over `.` goes through the elements. -/
theorem foldl_pathElems_fromElems {α : Type} (f : α → String → α) (init : α)
    (hf1 : ∀ s, f s "" = s) (hf2 : ∀ s, f s "." = s)
    (r : Bool) (E : List String) (h : CleanElems r E) :
    (pathElems (filepath.fromElems r E)).foldl f init = E.foldl f init := by
  have hslash : ∀ e ∈ E, '/' ∉ e.toList := fun e he => (h.1 e he).1
  by_cases hE : E = []
  · subst hE
    cases r with
    | true =>
      have : pathElems (filepath.fromElems true []) = ["", ""] := by decide
      simp [this, hf1]
    | false =>
      have : pathElems (filepath.fromElems false []) = ["."] := by decide
      simp [this, hf2]
  · have hb := intercalate_ne_empty E hE (fun e he => (h.1 e he).2.1)
    cases r with
    | true =>
      have : filepath.fromElems true E = "" ++ "/" ++ String.intercalate "/" E := by
        simp [filepath.fromElems]
      rw [this, pathElems_append, pathElems_intercalate E hE hslash]
      have : pathElems "" = [""] := by decide
      simp [this, hf1]
    | false =>
      have : filepath.fromElems false E = String.intercalate "/" E := by
        simp [filepath.fromElems, hb]
      rw [this, pathElems_intercalate E hE hslash]

/-- What `filepath.Clean` returns is a text of cleaned elements. -/
theorem Clean_form (x : String) :
    ∃ r E, filepath.Clean x = filepath.fromElems r E ∧ CleanElems r E := by
  refine ⟨x.toList.head? == some '/', _, rfl, ?_⟩
  exact foldl_cleanStep_clean _ _ [] (CleanElems_nil _) (pathElems_no_slash x)

theorem Join_form (a b : String) (h : filepath.Join a b ≠ "") :
    ∃ r E, filepath.Join a b = filepath.fromElems r E ∧ CleanElems r E := by
  unfold filepath.Join at h ⊢
  by_cases ha : a = ""
  · by_cases hb : b = ""
    · simp [ha, hb] at h
    · simp only [ha, hb, if_true, if_false]
      exact Clean_form b
  · by_cases hb : b = ""
    · simp only [ha, hb, if_true, if_false]
      exact Clean_form a
    · simp only [ha, hb, if_false]
      exact Clean_form _

/-- Cleaning a text of cleaned elements gives it back. -/
theorem Clean_fromElems (r : Bool) (E : List String) (h : CleanElems r E) :
    filepath.Clean (filepath.fromElems r E) = filepath.fromElems r E := by
  have hr : ((filepath.fromElems r E).toList.head? == some '/') = r := by
    cases r with
    | true => simpa using (head_fromElems true E h).mpr rfl
    | false =>
      have := (head_fromElems false E h)
      simpa using this
  unfold filepath.Clean
  simp only [hr]
  rw [foldl_pathElems_fromElems (cleanStep r) [] (by simp [cleanStep]) (by simp [cleanStep]) r E h,
    foldl_cleanStep_id r E [] (by simpa using h)]
  simp


/-! ### A name below a cleaned path -/

theorem ProperName_meta (n : String) (h : ProperName n) : ProperName (n ++ ".meta") := by
  obtain ⟨h1, h2, _, _⟩ := h
  have hlen : (n ++ ".meta").toList.length = n.toList.length + 5 := by
    rw [toList_append]; simp
  refine ⟨?_, ?_, ?_, ?_⟩
  · rw [toList_append]
    intro hm
    rcases List.mem_append.mp hm with e | e
    · exact h1 e
    · revert e; decide
  · intro e; rw [e] at hlen; simp at hlen
  · intro e; rw [e] at hlen; simp at hlen
  · intro e; rw [e] at hlen; simp at hlen

theorem CleanElems_concat (r : Bool) (E : List String) (n : String)
    (h : CleanElems r E) (hn : ProperName n) : CleanElems r (E ++ [n]) := by
  obtain ⟨h1, h2, h3⟩ := h
  obtain ⟨n1, n2, n3, n4⟩ := hn
  refine ⟨?_, ?_, Leading_concat E n h3 n4⟩
  · intro e he
    rcases List.mem_append.mp he with he | he
    · exact h1 e he
    · rw [List.mem_singleton.mp he]; exact ⟨n1, n2, n3⟩
  · intro hr hm
    rcases List.mem_append.mp hm with hm | hm
    · exact h2 hr hm
    · exact n4 (List.mem_singleton.mp hm).symm

/-- Joining a name to a cleaned path: `filepath.Join` puts it at the end. -/
theorem Join_proper (r : Bool) (E : List String) (n : String)
    (h : CleanElems r E) (hn : ProperName n) :
    filepath.Join (filepath.fromElems r E) n = filepath.fromElems r (E ++ [n]) := by
  have hc := fromElems_ne_empty r E
  have hE2 := CleanElems_concat r E n h hn
  unfold filepath.Join
  simp only [hc, hn.2.1, if_false]
  unfold filepath.Clean
  have hhead : ((filepath.fromElems r E ++ "/" ++ n).toList.head? == some '/') = r := by
    rw [String.append_assoc, head_append _ _ hc]
    cases r with
    | true => simpa using (head_fromElems true E h).mpr rfl
    | false => simpa using (head_fromElems false E h)
  simp only [hhead]
  rw [pathElems_append, pathElems_of_not_mem n hn.1, List.foldl_append,
    foldl_pathElems_fromElems (cleanStep r) [] (by simp [cleanStep]) (by simp [cleanStep]) r E h,
    foldl_cleanStep_id r E [] (by simpa using h),
    foldl_cleanStep_id r [n] ([] ++ E) (by simpa using hE2)]
  simp

theorem dropWhile_append_stop {α : Type} (p : α → Bool) (a b : List α)
    (ha : ∀ x ∈ a, p x = true) (hb : b = [] ∨ ∃ y ys, b = y :: ys ∧ p y = false) :
    (a ++ b).dropWhile p = b := by
  induction a with
  | nil =>
    rcases hb with hb | ⟨y, ys, hb, hy⟩
    · simp [hb]
    · simp [hb, List.dropWhile, hy]
  | cons x a ih =>
    simp only [List.cons_append, List.dropWhile, ha x (by simp)]
    exact ih (fun z hz => ha z (List.mem_cons_of_mem _ hz))

theorem takeWhile_append_stop {α : Type} (p : α → Bool) (a b : List α)
    (ha : ∀ x ∈ a, p x = true) (hb : b = [] ∨ ∃ y ys, b = y :: ys ∧ p y = false) :
    (a ++ b).takeWhile p = a := by
  induction a with
  | nil =>
    rcases hb with hb | ⟨y, ys, hb, hy⟩
    · simp [hb]
    · simp [hb, List.takeWhile, hy]
  | cons x a ih =>
    have := ih (fun z hz => ha z (List.mem_cons_of_mem _ hz))
    simp only [List.cons_append, List.takeWhile, ha x (by simp)]
    exact congrArg (List.cons x) this

/-- The text before the last name of a text of cleaned elements. -/
theorem fromElems_concat_rev (r : Bool) (E : List String) (n : String)
    (hE : ∀ e ∈ E, e ≠ "") (hn : n ≠ "") :
    ∃ pre : String, filepath.fromElems r (E ++ [n]) = pre ++ n ∧
      pre = (if E = [] then (if r = true then "/" else "") else filepath.fromElems r E ++ "/") ∧
      (pre.toList.reverse = [] ∨ ∃ y ys, pre.toList.reverse = y :: ys ∧ y = '/') := by
  refine ⟨_, fromElems_concat r E n hE hn, rfl, ?_⟩
  by_cases hE : E = []
  · cases r with
    | true => right; exact ⟨'/', [], by simp [hE], rfl⟩
    | false => left; simp [hE]
  · right
    simp only [hE, if_false, toList_append]
    exact ⟨'/', (filepath.fromElems r E).toList.reverse, by simp, rfl⟩

/-- The directory of a name below a cleaned path is that path. -/
theorem Dir_proper (r : Bool) (E : List String) (n : String)
    (h : CleanElems r E) (hn : ProperName n) :
    filepath.Dir (filepath.fromElems r (E ++ [n])) = filepath.fromElems r E := by
  obtain ⟨pre, hpre, hdef, hrev⟩ :=
    fromElems_concat_rev r E n (fun e he => (h.1 e he).2.1) hn.2.1
  have hdrop : ((pre ++ n).toList.reverse.dropWhile (fun c => c != '/')).reverse
      = pre.toList := by
    rw [toList_append, List.reverse_append, dropWhile_append_stop]
    · simp
    · intro x hx
      have : x ≠ '/' := fun e => hn.1 (by rw [← e]; exact List.mem_reverse.mp hx)
      simpa using this
    · rcases hrev with hrev | ⟨y, ys, hrev, hy⟩
      · exact Or.inl hrev
      · exact Or.inr ⟨y, ys, hrev, by simp [hy]⟩
  unfold filepath.Dir
  rw [hpre, hdrop, mk_toList, hdef]
  by_cases hE : E = []
  · subst hE
    cases r with
    | true => decide
    | false => decide
  · simp only [hE, if_false]
    have hc := fromElems_ne_empty r E
    have hhead : ((filepath.fromElems r E ++ "/").toList.head? == some '/') = r := by
      rw [head_append _ _ hc]
      cases r with
      | true => simpa using (head_fromElems true E h).mpr rfl
      | false => simpa using (head_fromElems false E h)
    have hsplit : pathElems (filepath.fromElems r E ++ "/")
        = pathElems (filepath.fromElems r E) ++ [""] := by
      have : filepath.fromElems r E ++ "/" = filepath.fromElems r E ++ "/" ++ "" := by simp
      rw [this, pathElems_append]
      rfl
    unfold filepath.Clean
    simp only [hhead]
    rw [hsplit, List.foldl_append,
      foldl_pathElems_fromElems (cleanStep r) [] (by simp [cleanStep]) (by simp [cleanStep])
        r E h,
      foldl_cleanStep_id r E [] (by simpa using h)]
    simp [cleanStep]

/-- The last element of a name below a cleaned path is the name. -/
theorem Base_concat (r : Bool) (E : List String) (n : String)
    (hE : ∀ e ∈ E, e ≠ "") (hn1 : '/' ∉ n.toList) (hn2 : n ≠ "") :
    filepath.Base (filepath.fromElems r (E ++ [n])) = n := by
  obtain ⟨pre, hpre, _, hrev⟩ := fromElems_concat_rev r E n hE hn2
  have hne : pre ++ n ≠ "" := fun e => hn2 (append_eq_empty _ _ e).2
  have hnl : n.toList.reverse ≠ [] := by
    intro e
    exact hn2 (toList_inj n "" (by simpa using e))
  have hall : ∀ x ∈ n.toList.reverse, x ≠ '/' :=
    fun x hx e => hn1 (by rw [← e]; exact List.mem_reverse.mp hx)
  have hstrip : (pre ++ n).toList.reverse.dropWhile (fun c => c == '/')
      = (pre ++ n).toList.reverse := by
    rw [toList_append, List.reverse_append]
    cases hx : n.toList.reverse with
    | nil => exact absurd hx hnl
    | cons x xs =>
      have : (x == '/') = false := by simpa using hall x (by rw [hx]; simp)
      simp [List.dropWhile, this]
  have htake : (pre ++ n).toList.reverse.takeWhile (fun c => c != '/')
      = n.toList.reverse := by
    rw [toList_append, List.reverse_append, takeWhile_append_stop]
    · intro x hx
      simpa using hall x hx
    · rcases hrev with hrev | ⟨y, ys, hrev, hy⟩
      · exact Or.inl hrev
      · exact Or.inr ⟨y, ys, hrev, by simp [hy]⟩
  unfold filepath.Base
  rw [hpre]
  simp only [hne, if_false, hstrip, htake, hnl, List.reverse_reverse, mk_toList]


/-! ### The walk of the operating system along a cleaned path -/

theorem walk_fromElems (fs : FS) (r : Bool) (E : List String) (h : CleanElems r E) :
    fs.walk (filepath.fromElems r E)
      = E.foldl walkStep (if r = true then [] else fs.cwd, []) := by
  unfold FS.walk
  have hhead := head_fromElems r E h
  have hinit : (if (filepath.fromElems r E).toList.head? = some '/' then ([] : Path) else fs.cwd)
      = (if r = true then [] else fs.cwd) := by
    by_cases hr : r = true
    · rw [if_pos (hhead.mpr hr), if_pos hr]
    · rw [if_neg (fun e => hr (hhead.mp e)), if_neg hr]
  rw [hinit]
  exact foldl_pathElems_fromElems walkStep _ (by simp [walkStep]) (by simp [walkStep]) r E h

theorem walkStep_proper (w : Path × List String) (n : String) (hn : ProperName n) :
    walkStep w n = (w.1, w.2 ++ [n]) := by
  obtain ⟨_, h2, h3, h4⟩ := hn
  simp [walkStep, h2, h3, h4]

/-- A cleaned text is what `filepath.Clean` and a non-empty `filepath.Join`
return. -/
theorem child_path (fs : FS) (c n : String)
    (hc : ∃ r E, c = filepath.fromElems r E ∧ CleanElems r E) (hn : ProperName n) :
    filepath.Dir (filepath.Join c n) = c ∧
    filepath.Base (filepath.Join c n) = n ∧
    fs.walk (filepath.Join c n) = ((fs.walk c).1, (fs.walk c).2 ++ [n]) ∧
    fs.walk (filepath.Join c n ++ ".meta")
      = ((fs.walk c).1, (fs.walk c).2 ++ [n ++ ".meta"]) ∧
    filepath.Join c n ≠ "" ∧
    (∃ r E, filepath.Join c n = filepath.fromElems r E ∧ CleanElems r E) := by
  obtain ⟨r, E, rfl, hE⟩ := hc
  have hE1 : ∀ e ∈ E, e ≠ "" := fun e he => (hE.1 e he).2.1
  have hE2 := CleanElems_concat r E n hE hn
  have hE3 := CleanElems_concat r E _ hE (ProperName_meta n hn)
  rw [Join_proper r E n hE hn]
  refine ⟨Dir_proper r E n hE hn, Base_concat r E n hE1 hn.1 hn.2.1, ?_, ?_,
    fromElems_ne_empty _ _, ⟨r, _, rfl, hE2⟩⟩
  · rw [walk_fromElems fs r _ hE2, walk_fromElems fs r E hE, List.foldl_append]
    simp only [List.foldl_cons, List.foldl_nil]
    exact walkStep_proper _ n hn
  · rw [fromElems_meta r E n hE1 hn.2.1, walk_fromElems fs r _ hE3, walk_fromElems fs r E hE,
      List.foldl_append]
    simp only [List.foldl_cons, List.foldl_nil]
    exact walkStep_proper _ _ (ProperName_meta n hn)

theorem Path.eq_nil_or_append (p : Path) : p = [] ∨ ∃ l a, p = l ++ [a] := by
  rcases List.eq_nil_or_concat p with h | ⟨l, a, h⟩
  · exact Or.inl h
  · exact Or.inr ⟨l, a, by simpa using h⟩

theorem lookup_filter_key {α : Type} (l : List (Path × α)) (p q : Path) :
    List.lookup q (l.filter (fun e => e.1 != p)) = if q = p then none else List.lookup q l := by
  induction l with
  | nil => simp
  | cons a l ih =>
    obtain ⟨a1, a2⟩ := a
    by_cases ha : a1 = p
    · subst ha
      have hf : ((a1, a2).1 != a1) = false := by simp
      rw [List.filter_cons_of_neg (by simp [hf]), ih]
      by_cases hq : q = a1
      · simp [hq]
      · have : (q == a1) = false := by simpa using hq
        simp [hq, List.lookup_cons, this]
    · have hf : ((a1, a2).1 != p) = true := by simpa using ha
      rw [List.filter_cons_of_pos (by simp [hf])]
      simp only [List.lookup_cons, ih]
      by_cases hq : q = p
      · subst hq
        have : (q == a1) = false := by simpa using Ne.symm ha
        simp [this]
      · simp [hq]

theorem lookup_some_mem {α : Type} (l : List (Path × α)) (k : Path) (v : α)
    (h : List.lookup k l = some v) : (k, v) ∈ l := by
  induction l with
  | nil => simp at h
  | cons a l ih =>
    obtain ⟨a1, a2⟩ := a
    simp only [List.lookup_cons] at h
    by_cases hk : k = a1
    · subst hk
      simp only [beq_self_eq_true, Option.some.injEq] at h
      subst h
      exact List.mem_cons_self _ _
    · have : (k == a1) = false := by simpa using hk
      rw [this] at h
      exact List.mem_cons_of_mem _ (ih h)

theorem FS.lookup_set_self (fs : FS) (p : Path) (n : Node) : (fs.set p n).lookup p = some n := by
  simp [FS.lookup, FS.set, List.lookup_cons]

theorem FS.lookup_set_ne (fs : FS) (p q : Path) (n : Node) (h : q ≠ p) :
    (fs.set p n).lookup q = fs.lookup q := by
  have : (q == p) = false := by simpa using h
  simp [FS.lookup, FS.set, List.lookup_cons, this, lookup_filter_key, h]

theorem FS.lookup_erase_self (fs : FS) (p : Path) : (fs.erase p).lookup p = none := by
  simp [FS.lookup, FS.erase, lookup_filter_key]

theorem FS.set_clock (fs : FS) (p : Path) (n : Node) : (fs.set p n).clock = fs.clock := rfl

theorem FS.set_cwd (fs : FS) (p : Path) (n : Node) : (fs.set p n).cwd = fs.cwd := rfl

theorem FS.erase_cwd (fs : FS) (p : Path) : (fs.erase p).cwd = fs.cwd := rfl

/-- The walk along a path text and the place it names depend on the working
directory only. -/
theorem FS.walk_congr (fs fs2 : FS) (h : fs2.cwd = fs.cwd) (path : String) :
    fs2.walk path = fs.walk path := by
  simp [FS.walk, h]

theorem FS.resolve_congr (fs fs2 : FS) (h : fs2.cwd = fs.cwd) (path : String) :
    fs2.resolve path = fs.resolve path := by
  simp [FS.resolve, FS.walk_congr fs fs2 h]

theorem mem_nePrefixes (l : Path) : ∀ q, q ∈ nePrefixes l → 0 < q.length ∧ q.length ≤ l.length := by
  induction l with
  | nil => intro q h; simp [nePrefixes] at h
  | cons a l ih =>
    intro q h
    simp only [nePrefixes, List.mem_cons, List.mem_map] at h
    rcases h with h | ⟨r, hr, rfl⟩
    · subst h; simp
    · have := ih r hr
      simp only [List.length_cons]
      omega

theorem nePrefixes_append_singleton (l : Path) (a : String) :
    nePrefixes (l ++ [a]) = nePrefixes l ++ [l ++ [a]] := by
  induction l with
  | nil => simp [nePrefixes]
  | cons b l ih => simp [nePrefixes, ih]

theorem nePrefixes_length (l : Path) : (nePrefixes l).length = l.length := by
  induction l with
  | nil => rfl
  | cons a l ih => simp [nePrefixes, ih]

/-- The prefixes of a path that goes on from `a` are those of `a`, then those
that go on from `a`. -/
theorem nePrefixes_append (a b : Path) :
    nePrefixes (a ++ b) = nePrefixes a ++ (nePrefixes b).map (fun q => a ++ q) := by
  induction a with
  | nil => simp [nePrefixes]
  | cons x a ih => simp [nePrefixes, ih, List.map_map, Function.comp_def]

/-- A prefix of a path is a prefix of every path that goes on from it. -/
theorem nePrefixes_subset (a b : Path) : ∀ q ∈ nePrefixes a, q ∈ nePrefixes (a ++ b) := by
  intro q hq
  rw [nePrefixes_append]
  exact List.mem_append_left _ hq

/-- A proper prefix of a path is shorter than the path. -/
theorem mem_nePrefixes_dropLast (p : Path) (q : Path) (h : q ∈ nePrefixes p.dropLast) :
    0 < q.length ∧ q.length < p.length := by
  have := mem_nePrefixes _ q h
  rw [List.length_dropLast] at this
  omega

theorem FS.checkDirs_congr (fs fs2 : FS) (qs : List Path)
    (h : ∀ q ∈ qs, fs2.lookup q = fs.lookup q) : fs2.checkDirs qs = fs.checkDirs qs := by
  induction qs with
  | nil => rfl
  | cons q qs ih =>
    have hq := h q (List.mem_cons_self _ _)
    have ih2 := ih (fun r hr => h r (List.mem_cons_of_mem _ hr))
    simp only [FS.checkDirs, hq, ih2]

/-- The walk through directories succeeds exactly when each has a name of
accepted length and is a directory. -/
theorem FS.checkDirs_eq_none (fs : FS) (qs : List Path) :
    fs.checkDirs qs = none
      ↔ ∀ q ∈ qs, Path.nameTooLong q = false ∧ ∃ s t, fs.lookup q = some (Node.dir s t) := by
  induction qs with
  | nil => simp [FS.checkDirs]
  | cons q qs ih =>
    simp only [FS.checkDirs, List.mem_cons, forall_eq_or_imp]
    cases hlong : Path.nameTooLong q with
    | true => simp [ENAMETOOLONG]
    | false =>
      simp only [Bool.false_eq_true, if_false, true_and]
      cases hq : fs.lookup q with
      | none => simp [ENOENT]
      | some n =>
        cases n with
        | file d t => simp [ENOTDIR]
        | dir s t => simp [ih]

theorem FS.checkDirs_append (fs : FS) (a b : List Path) :
    fs.checkDirs (a ++ b) = none ↔ fs.checkDirs a = none ∧ fs.checkDirs b = none := by
  simp only [FS.checkDirs_eq_none, List.mem_append]
  constructor
  · intro h
    exact ⟨fun q hq => h q (Or.inl hq), fun q hq => h q (Or.inr hq)⟩
  · rintro ⟨h1, h2⟩ q (hq | hq)
    · exact h1 q hq
    · exact h2 q hq

/-- What `os.MkdirAll` leaves behind when it succeeds: the directories asked
for, everything that existed before, and nothing else. -/
theorem FS.mkdirs_ok (qs : List Path) : ∀ (fs fs1 : FS), fs.mkdirs qs = (none, fs1) →
    (∀ q ∈ qs, Path.nameTooLong q = false ∧ ∃ s t, fs1.lookup q = some (Node.dir s t)) ∧
    (∀ r, r ∉ qs → fs1.lookup r = fs.lookup r) ∧
    (∀ r, fs.lookup r ≠ none → fs1.lookup r = fs.lookup r) ∧
    fs1.clock = fs.clock ∧ fs1.dirSize = fs.dirSize ∧ fs1.cwd = fs.cwd := by
  induction qs with
  | nil =>
    intro fs fs1 h
    simp only [FS.mkdirs, Prod.mk.injEq, true_and] at h
    subst h
    simp
  | cons q qs ih =>
    intro fs fs1 h
    simp only [FS.mkdirs] at h
    cases hlong : Path.nameTooLong q with
    | true => simp [hlong] at h
    | false =>
      simp only [hlong, Bool.false_eq_true, if_false] at h
      cases hq : fs.lookup q with
      | none =>
        rw [hq] at h
        obtain ⟨h1, h2, h3, h4, h5, h6⟩ := ih _ _ h
        have hself : (fs.set q (Node.dir fs.dirSize fs.clock)).lookup q
            = some (Node.dir fs.dirSize fs.clock) := FS.lookup_set_self _ _ _
        refine ⟨?_, ?_, ?_, h4, h5, h6⟩
        · intro r hr
          rcases List.mem_cons.mp hr with hr | hr
          · subst hr
            exact ⟨hlong, _, _, (h3 r (by rw [hself]; simp)).trans hself⟩
          · exact h1 r hr
        · intro r hr
          have hne : r ≠ q := fun e => hr (e ▸ List.mem_cons_self _ _)
          rw [h2 r (fun e => hr (List.mem_cons_of_mem _ e)), FS.lookup_set_ne _ _ _ _ hne]
        · intro r hr
          have hne : r ≠ q := fun e => hr (e ▸ hq)
          have := FS.lookup_set_ne fs q r (Node.dir fs.dirSize fs.clock) hne
          rw [h3 r (by rw [this]; exact hr), this]
      | some n =>
        rw [hq] at h
        cases n with
        | file d t => simp at h
        | dir s t =>
          simp only at h
          obtain ⟨h1, h2, h3, h4, h5, h6⟩ := ih _ _ h
          refine ⟨?_, ?_, h3, h4, h5, h6⟩
          · intro r hr
            rcases List.mem_cons.mp hr with hr | hr
            · subst hr
              exact ⟨hlong, s, t, (h3 r (by rw [hq]; simp)).trans hq⟩
            · exact h1 r hr
          · intro r hr
            exact h2 r (fun e => hr (List.mem_cons_of_mem _ e))

/-- The entries after `os.MkdirAll` are entries from before or directories
asked for. -/
theorem FS.mkdirs_entries (qs : List Path) : ∀ (fs : FS) (e : Path × Node),
    e ∈ (fs.mkdirs qs).2.entries → e ∈ fs.entries ∨ e.1 ∈ qs := by
  induction qs with
  | nil => intro fs e h; exact Or.inl h
  | cons q qs ih =>
    intro fs e h
    simp only [FS.mkdirs] at h
    cases hlong : Path.nameTooLong q with
    | true => simp only [hlong, if_true] at h; exact Or.inl h
    | false =>
      simp only [hlong, Bool.false_eq_true, if_false] at h
      cases hq : fs.lookup q with
      | none =>
        rw [hq] at h
        rcases ih _ e h with h | h
        · simp only [FS.set, List.mem_cons, List.mem_filter] at h
          rcases h with h | h
          · right; subst h; simp
          · exact Or.inl h.1
        · exact Or.inr (List.mem_cons_of_mem _ h)
      | some n =>
        rw [hq] at h
        cases n with
        | file d t => exact Or.inl h
        | dir s t =>
          rcases ih _ e h with h | h
          · exact Or.inl h
          · exact Or.inr (List.mem_cons_of_mem _ h)

/-- Where the directories exist and no file is in the way, `os.MkdirAll`
succeeds when the names to create are of accepted length. -/
theorem FS.mkdirs_succeeds (qs : List Path) : ∀ (fs : FS),
    (∀ q ∈ qs, Path.nameTooLong q = false ∧ ∀ d t, fs.lookup q ≠ some (Node.file d t)) →
    (fs.mkdirs qs).1 = none := by
  induction qs with
  | nil => intro fs _; rfl
  | cons q qs ih =>
    intro fs h
    obtain ⟨hlong, hq⟩ := h q (by simp)
    simp only [FS.mkdirs, hlong, Bool.false_eq_true, if_false]
    cases hl : fs.lookup q with
    | none =>
      simp only
      apply ih
      intro r hr
      refine ⟨(h r (List.mem_cons_of_mem _ hr)).1, ?_⟩
      intro d t
      by_cases hrq : r = q
      · subst hrq; rw [FS.lookup_set_self]; simp
      · rw [FS.lookup_set_ne _ _ _ _ hrq]
        exact (h r (List.mem_cons_of_mem _ hr)).2 d t
    | some n =>
      cases n with
      | file d t => exact absurd hl (hq d t)
      | dir s t =>
        simp only
        exact ih fs (fun r hr => h r (List.mem_cons_of_mem _ hr))

theorem append_meta_ne (a : String) : a ++ ".meta" ≠ a := by
  intro h
  have := congrArg String.length h
  rw [String.length_append] at this
  have h5 : ".meta".length = 5 := by decide
  omega

theorem Path.not_mem_nePrefixes_dropLast (p : Path) : p ∉ nePrefixes p.dropLast := by
  intro h
  have := mem_nePrefixes_dropLast p _ h
  omega

theorem FS.Stat_of_lookup (fs : FS) (p : Path) (n : Node) (hp : p ≠ [])
    (hd : fs.checkDirs (nePrefixes p.dropLast) = none) (hlong : Path.nameTooLong p = false)
    (hl : fs.lookup p = some n) : fs.Stat p = .ok n := by
  simp [FS.Stat, hd, hp, hl, hlong]

theorem FS.Stat_ok_checkDirs (fs : FS) (p : Path) (n : Node) (h : fs.Stat p = .ok n) :
    fs.checkDirs (nePrefixes p.dropLast) = none := by
  simp only [FS.Stat] at h
  cases hc : fs.checkDirs (nePrefixes p.dropLast) with
  | none => rfl
  | some e => rw [hc] at h; simp at h

theorem FS.Stat_ok_lookup (fs : FS) (p : Path) (n : Node) (hp : p ≠ [])
    (h : fs.Stat p = .ok n) : Path.nameTooLong p = false ∧ fs.lookup p = some n := by
  have hc := FS.Stat_ok_checkDirs fs p n h
  simp only [FS.Stat, hc, hp, if_false] at h
  cases hlong : Path.nameTooLong p with
  | true => simp [hlong] at h
  | false =>
    simp only [hlong, Bool.false_eq_true, if_false] at h
    cases hl : fs.lookup p with
    | none => rw [hl] at h; simp at h
    | some m => rw [hl] at h; exact ⟨rfl, by simpa using h⟩

/-- Where the directories down to a directory exist, `os.Stat` finds it. -/
theorem FS.Stat_dir (fs : FS) (p : Path) (h : fs.checkDirs (nePrefixes p) = none) :
    ∃ sz t, fs.Stat p = .ok (Node.dir sz t) := by
  rcases Path.eq_nil_or_append p with hp | ⟨l, a, hp⟩
  · subst hp
    exact ⟨fs.dirSize, 0, by simp [FS.Stat, FS.checkDirs, nePrefixes]⟩
  · subst hp
    rw [nePrefixes_append_singleton] at h
    have hall := (FS.checkDirs_eq_none _ _).mp h
    obtain ⟨hlong, sz, t, hl⟩ := hall (l ++ [a]) (by simp)
    have hc : fs.checkDirs (nePrefixes (l ++ [a]).dropLast) = none := by
      rw [List.dropLast_concat]
      exact (FS.checkDirs_eq_none _ _).mpr (fun q hq => hall q (by simp [hq]))
    exact ⟨sz, t, FS.Stat_of_lookup _ _ _ (by simp) hc hlong hl⟩

/-- A directory that `os.Stat` finds has its directories above it. -/
theorem FS.Stat_dir_checkDirs (fs : FS) (p : Path) (sz t : Int)
    (h : fs.Stat p = .ok (Node.dir sz t)) : fs.checkDirs (nePrefixes p) = none := by
  rcases Path.eq_nil_or_append p with hp | ⟨l, a, hp⟩
  · subst hp; simp [nePrefixes, FS.checkDirs]
  · subst hp
    have hc := FS.Stat_ok_checkDirs _ _ _ h
    obtain ⟨hlong, hl⟩ := FS.Stat_ok_lookup _ _ _ (by simp) h
    rw [List.dropLast_concat] at hc
    rw [nePrefixes_append_singleton, FS.checkDirs_append]
    refine ⟨hc, ?_⟩
    simp [FS.checkDirs, hlong, hl]

theorem textError_mono (text : String) (m n : Nat) (h : textError text n = none)
    (hmn : m ≤ n) : textError text m = none := by
  unfold textError at h ⊢
  by_cases h1 : firstNul text < n
  · simp [h1] at h
  · simp only [h1, if_false] at h
    by_cases h2 : PATH_MAX ≤ n
    · simp [h2] at h
    · have h3 : ¬ firstNul text < m := by omega
      have h4 : ¬ PATH_MAX ≤ m := by omega
      simp [h3, h4]

theorem textSize_le (text : String) (p q : Path) : textSize text p q ≤ text.utf8ByteSize := by
  unfold textSize
  omega

/-- A text that names a place is not empty and is accepted as a path. -/
theorem FS.resolve_ok (fs : FS) (path : String) (p : Path) (h : fs.resolve path = .ok p) :
    path ≠ "" ∧ textError path path.utf8ByteSize = none ∧
      p = (fs.walk path).1 ++ (fs.walk path).2 := by
  unfold FS.resolve at h
  by_cases hp : path = ""
  · simp [hp] at h
  · simp only [hp, if_false] at h
    cases ht : textError path path.utf8ByteSize with
    | some err => rw [ht] at h; simp at h
    | none =>
      rw [ht] at h
      simp only [Except.ok.injEq] at h
      exact ⟨hp, rfl, h.symm⟩

theorem FS.resolve_of (fs : FS) (path : String) (hp : path ≠ "")
    (ht : textError path path.utf8ByteSize = none) :
    fs.resolve path = .ok ((fs.walk path).1 ++ (fs.walk path).2) := by
  simp [FS.resolve, hp, ht]

theorem takeWhile_drop_cases {α : Type} (p : α → Bool) (l : List α) :
    (l.drop (l.takeWhile p).length = [] ∧ l.takeWhile p = l) ∨
    ∃ q rest, l.drop (l.takeWhile p).length = q :: rest ∧ p q = false := by
  induction l with
  | nil => left; simp
  | cons a l ih =>
    cases hpa : p a with
    | false => right; exact ⟨a, l, by simp [List.takeWhile, hpa], hpa⟩
    | true =>
      rcases ih with ⟨h1, h2⟩ | ⟨q, rest, h1, h2⟩
      · left; simp [List.takeWhile, hpa, h1, h2]
      · right; exact ⟨q, rest, by simp [List.takeWhile, hpa, h1], h2⟩

/-- What a successful `os.MkdirAll` leaves behind: the text names a place,
the directories down to it exist, what existed before is as it was, and
nothing but directories on the way was added. -/
theorem MkdirAll_ok (fs fs1 : FS) (path : String) (h : os.MkdirAll fs path = (none, fs1)) :
    fs.resolve path = .ok ((fs.walk path).1 ++ (fs.walk path).2) ∧
    fs1.checkDirs (nePrefixes ((fs.walk path).1 ++ (fs.walk path).2)) = none ∧
    (∀ r, fs.lookup r ≠ none → fs1.lookup r = fs.lookup r) ∧
    (∀ r, r ∉ nePrefixes ((fs.walk path).1 ++ (fs.walk path).2) → fs1.lookup r = fs.lookup r) ∧
    (∀ e ∈ fs1.entries,
      e ∈ fs.entries ∨ e.1 ∈ nePrefixes ((fs.walk path).1 ++ (fs.walk path).2)) ∧
    fs1.clock = fs.clock ∧ fs1.dirSize = fs.dirSize ∧ fs1.cwd = fs.cwd := by
  unfold os.MkdirAll at h
  by_cases hp : path = ""
  · simp [hp] at h
  · simp only [hp, if_false] at h
    generalize hw : fs.walk path = w at h ⊢
    cases hc : fs.checkDirs (nePrefixes w.1) with
    | some err => rw [hc] at h; simp at h
    | none =>
      rw [hc] at h
      simp only at h
      generalize hacc : List.takeWhile
        (fun q => (textError path (textSize path (w.1 ++ w.2) q)).isNone)
        (List.drop w.1.length (nePrefixes (w.1 ++ w.2))) = accepted at h
      cases hmk : fs.mkdirs accepted with
      | mk e fs2 =>
        rw [hmk] at h
        cases e with
        | some err => simp at h
        | none =>
          simp only at h
          have hcases := takeWhile_drop_cases
            (fun q => (textError path (textSize path (w.1 ++ w.2) q)).isNone)
            (List.drop w.1.length (nePrefixes (w.1 ++ w.2)))
          rw [hacc] at hcases
          rcases hcases with ⟨h1, h2⟩ | ⟨q, rest, h1, h2⟩
          · rw [h1] at h
            simp only [Prod.mk.injEq] at h
            obtain ⟨ht, hfs⟩ := h
            subst hfs
            obtain ⟨m1, m2, m3, m4, m5, m6⟩ := FS.mkdirs_ok _ _ _ hmk
            have hsplit : nePrefixes (w.1 ++ w.2) = nePrefixes w.1 ++ accepted := by
              rw [h2]
              have := List.take_append_drop w.1.length (nePrefixes (w.1 ++ w.2))
              rw [nePrefixes_append, List.take_left' (nePrefixes_length w.1)] at this
              rw [← nePrefixes_append] at this
              exact this.symm
            refine ⟨by rw [← hw]; exact FS.resolve_of fs path hp ht, ?_, m3, ?_, ?_, m4, m5, m6⟩
            · rw [hsplit, FS.checkDirs_append]
              refine ⟨?_, (FS.checkDirs_eq_none _ _).mpr m1⟩
              rw [FS.checkDirs_congr fs fs2 _ ?_]
              · exact hc
              · intro r hr
                apply m3
                obtain ⟨_, s, t, hl⟩ := (FS.checkDirs_eq_none _ _).mp hc r hr
                rw [hl]; simp
            · intro r hr
              apply m2
              intro hr2
              exact hr (by rw [hsplit]; exact List.mem_append_right _ hr2)
            · intro e he
              have := FS.mkdirs_entries accepted fs e (by rw [hmk]; exact he)
              rcases this with h3 | h3
              · exact Or.inl h3
              · exact Or.inr (by rw [hsplit]; exact List.mem_append_right _ h3)
          · rw [h1] at h
            simp only [Prod.mk.injEq] at h
            rw [h.1] at h2
            simp at h2

/-- Where the directories down to a place exist, `os.MkdirAll` of a text that
names it changes nothing. -/
theorem FS.mkdirs_of_dirs (qs : List Path) (fs : FS) (h : fs.checkDirs qs = none) :
    fs.mkdirs qs = (none, fs) := by
  induction qs with
  | nil => rfl
  | cons q qs ih =>
    have hall := (FS.checkDirs_eq_none _ _).mp h
    obtain ⟨hlong, s, t, hl⟩ := hall q (by simp)
    simp only [FS.mkdirs, hlong, Bool.false_eq_true, if_false, hl]
    exact ih ((FS.checkDirs_eq_none _ _).mpr (fun r hr => hall r (List.mem_cons_of_mem _ hr)))

/-- What a successful write of a file needs and does. -/
theorem FS.WriteFile_ok (fs fs1 : FS) (p : Path) (data : List Byte)
    (h : fs.WriteFile p data = .ok fs1) :
    p ≠ [] ∧ fs.checkDirs (nePrefixes p.dropLast) = none ∧ Path.nameTooLong p = false ∧
      fs1 = fs.set p (Node.file data fs.clock) := by
  simp only [FS.WriteFile] at h
  cases hc : fs.checkDirs (nePrefixes p.dropLast) with
  | some e => rw [hc] at h; simp at h
  | none =>
    rw [hc] at h
    by_cases hp : p = []
    · simp [hp] at h
    · simp only [hp, if_false] at h
      cases hlong : Path.nameTooLong p with
      | true => simp [hlong] at h
      | false =>
        simp only [hlong, Bool.false_eq_true, if_false] at h
        refine ⟨hp, rfl, rfl, ?_⟩
        cases hl : fs.lookup p with
        | none => rw [hl] at h; simpa using h.symm
        | some n =>
          rw [hl] at h
          cases n with
          | file d t => simpa using h.symm
          | dir sz t => simp at h

/-- What `os.Remove` needs and does at a place: the directories above it
exist, it names a file or an empty directory, and only that entry goes. -/
theorem FS.Remove_ok (fs fs1 : FS) (p : Path) (h : fs.Remove p = .ok fs1) :
    fs1 = fs.erase p ∧ p ≠ [] ∧ fs.checkDirs (nePrefixes p.dropLast) = none ∧
      Path.nameTooLong p = false ∧
      ((∃ d t, fs.lookup p = some (Node.file d t)) ∨
       (∃ sz t, fs.lookup p = some (Node.dir sz t) ∧ fs.children p = [])) := by
  simp only [FS.Remove] at h
  cases hc : fs.checkDirs (nePrefixes p.dropLast) with
  | some e => rw [hc] at h; simp at h
  | none =>
    rw [hc] at h
    by_cases hp : p = []
    · simp [hp] at h
    · simp only [hp, if_false] at h
      cases hlong : Path.nameTooLong p with
      | true => simp [hlong] at h
      | false =>
        simp only [hlong, Bool.false_eq_true, if_false] at h
        cases hl : fs.lookup p with
        | none => rw [hl] at h; simp at h
        | some n =>
          rw [hl] at h
          cases n with
          | file d t =>
            simp only [Except.ok.injEq] at h
            exact ⟨h.symm, hp, rfl, rfl, Or.inl ⟨d, t, rfl⟩⟩
          | dir sz t =>
            by_cases hch : fs.children p = []
            · simp only [hch, if_true, Except.ok.injEq] at h
              exact ⟨h.symm, hp, rfl, rfl, Or.inr ⟨sz, t, rfl, hch⟩⟩
            · simp [hch] at h

theorem FS.children_set (fs : FS) (q p : Path) (n : Node) :
    (fs.set q n).children p
      = (if q ≠ [] ∧ q.dropLast = p then [(q, n)] else [])
        ++ (fs.children p).filter (fun e => e.1 != q) := by
  simp only [FS.children, FS.set, List.filter_cons]
  rw [List.filter_comm]
  by_cases h : q ≠ [] ∧ q.dropLast = p
  · have : (q != [] && q.dropLast == p) = true := by simpa using h
    simp [h, this]
  · have : (q != [] && q.dropLast == p) = false := by
      simpa [← Bool.not_eq_true] using h
    simp [h, this]

theorem filter_ne_self (l : List (Path × Node)) (q : Path) (h : ∀ e ∈ l, e.1 ≠ q) :
    l.filter (fun e => e.1 != q) = l := by
  rw [List.filter_eq_self]
  intro e he
  simpa using h e he

theorem FS.mem_children (fs : FS) (p : Path) (e : Path × Node) :
    e ∈ fs.children p ↔ e ∈ fs.entries ∧ e.1 ≠ [] ∧ e.1.dropLast = p := by
  simp [FS.children, List.mem_filter]

/-- The entries of a directory are one name longer than the directory. -/
theorem FS.children_length (fs : FS) (p : Path) (e : Path × Node) (h : e ∈ fs.children p) :
    e.1.length = p.length + 1 ∧ e.1 = p ++ [e.1.getLastD ""] := by
  obtain ⟨_, h1, h2⟩ := (FS.mem_children fs p e).mp h
  rcases Path.eq_nil_or_append e.1 with h3 | ⟨l, a, h3⟩
  · exact absurd h3 h1
  · rw [h3] at h2 ⊢
    rw [List.dropLast_concat] at h2
    subst h2
    simp

theorem mem_insertEntry (e x : DirEntry) (l : List DirEntry) :
    x ∈ insertEntry e l ↔ x = e ∨ x ∈ l := by
  induction l with
  | nil => simp [insertEntry]
  | cons y l ih =>
    simp only [insertEntry]
    split
    · simp
    · simp only [List.mem_cons, ih]
      constructor
      · rintro (h | h | h)
        · exact Or.inr (Or.inl h)
        · exact Or.inl h
        · exact Or.inr (Or.inr h)
      · rintro (h | h | h)
        · exact Or.inr (Or.inl h)
        · exact Or.inl h
        · exact Or.inr (Or.inr h)

theorem mem_sortEntries (x : DirEntry) (l : List DirEntry) : x ∈ sortEntries l ↔ x ∈ l := by
  induction l with
  | nil => simp [sortEntries]
  | cons y l ih => simp [sortEntries, mem_insertEntry, ih]

theorem sortEntries_nil_iff (l : List DirEntry) : sortEntries l = [] ↔ l = [] := by
  constructor
  · intro h
    cases l with
    | nil => rfl
    | cons y l =>
      have : y ∈ sortEntries (y :: l) := (mem_sortEntries y _).mpr (by simp)
      rw [h] at this
      simp at this
  · intro h; subst h; rfl


/-! ## The local store -/

theorem CleanText_Join (a b : String) (h : filepath.Join a b ≠ "") :
    CleanText (filepath.Join a b) :=
  Join_form a b h

/-- The places that `Upload`, `Delete` and the other methods reach for the
name `n` in the directory with the cleaned text `c`. -/
theorem child_places (fs : FS) (c n : String) (parent : Path)
    (hc : CleanText c) (hn : ProperName n) (hdir : fs.resolve c = .ok parent) :
    filepath.Dir (filepath.Join c n) = c ∧
    (∀ fp, fs.resolve (filepath.Join c n) = .ok fp → fp = parent ++ [n]) ∧
    (∀ mp, fs.resolve (filepath.Join c n ++ ".meta") = .ok mp → mp = parent ++ [n ++ ".meta"]) ∧
    (textError (filepath.Join c n) (filepath.Join c n).utf8ByteSize = none →
      fs.resolve (filepath.Join c n) = .ok (parent ++ [n])) ∧
    (textError (filepath.Join c n ++ ".meta") (filepath.Join c n ++ ".meta").utf8ByteSize = none →
      fs.resolve (filepath.Join c n ++ ".meta") = .ok (parent ++ [n ++ ".meta"])) := by
  obtain ⟨h1, _, h3, h4, h5, _⟩ := child_path fs c n hc hn
  obtain ⟨_, _, hparent⟩ := FS.resolve_ok fs c parent hdir
  have hmeta : filepath.Join c n ++ ".meta" ≠ "" := fun e => h5 (append_eq_empty _ _ e).1
  refine ⟨h1, ?_, ?_, ?_, ?_⟩
  · intro fp hfp
    obtain ⟨_, _, hfp2⟩ := FS.resolve_ok fs _ fp hfp
    rw [hfp2, h3, hparent, List.append_assoc]
  · intro mp hmp
    obtain ⟨_, _, hmp2⟩ := FS.resolve_ok fs _ mp hmp
    rw [hmp2, h4, hparent, List.append_assoc]
  · intro ht
    rw [FS.resolve_of fs _ h5 ht, h3, hparent, List.append_assoc]
  · intro ht
    rw [FS.resolve_of fs _ hmeta ht, h4, hparent, List.append_assoc]

/-- The file system that a successful `Upload` of the name `n` into the
directory `c` leaves behind: the directories down to the directory, the file
with the data read and, when the metadata is not empty, the sidecar with the
metadata document. -/
theorem upload_state (s : LocalStorage) (codec : JSONCodec) (p : String)
    (data : Reader) (m : Metadata) (fs fs2 : FS) (c n : String) (parent : Path)
    (hc : CleanText c) (hn : ProperName n)
    (hp : filepath.Join s.basePath p = filepath.Join c n)
    (hdir : fs.resolve c = .ok parent)
    (h : s.Upload codec p data m fs = (none, fs2)) :
    ∃ fs1, os.MkdirAll fs c = (none, fs1) ∧ (io.ReadAll data).2 = none ∧
      fs.resolve (filepath.Join c n) = .ok (parent ++ [n]) ∧
      Path.nameTooLong (parent ++ [n]) = false ∧
      (m = [] →
        fs2 = (fs1.set (parent ++ [n]) (Node.file [] fs.clock)).set (parent ++ [n])
          (Node.file (io.ReadAll data).1 fs.clock)) ∧
      (m ≠ [] →
        fs.resolve (filepath.Join c n ++ ".meta") = .ok (parent ++ [n ++ ".meta"]) ∧
        Path.nameTooLong (parent ++ [n ++ ".meta"]) = false ∧
        fs2 = ((fs1.set (parent ++ [n]) (Node.file [] fs.clock)).set (parent ++ [n])
          (Node.file (io.ReadAll data).1 fs.clock)).set (parent ++ [n ++ ".meta"])
            (Node.file (codec.Marshal m) fs.clock)) := by
  obtain ⟨hD, hF, hM, _, _⟩ := child_places fs c n parent hc hn hdir
  simp only [LocalStorage.Upload, hp, hD] at h
  cases hmk : os.MkdirAll fs c with
  | mk e fs1 =>
    rw [hmk] at h
    cases e with
    | some err => simp at h
    | none =>
      simp only at h
      obtain ⟨_, _, _, _, _, hclock, _, hcwd⟩ := MkdirAll_ok fs fs1 c hmk
      refine ⟨fs1, rfl, ?_⟩
      -- os.Create
      simp only [os.Create, FS.resolve_congr fs fs1 hcwd] at h
      cases hr : fs.resolve (filepath.Join c n) with
      | error err => rw [hr] at h; simp at h
      | ok fp =>
        have hfp := hF fp hr
        subst hfp
        rw [hr] at h
        simp only at h
        cases hw : fs1.WriteFile (parent ++ [n]) [] with
        | error err => rw [hw] at h; simp at h
        | ok fs3 =>
          rw [hw] at h
          simp only at h
          obtain ⟨_, _, hlong, hfs3⟩ := FS.WriteFile_ok _ _ _ _ hw
          subst hfs3
          cases herr : (io.ReadAll data).2 with
          | some err => rw [herr] at h; simp at h
          | none =>
            rw [herr] at h
            simp only [FS.write, FS.set_clock, hclock] at h
            refine ⟨rfl, rfl, hlong, ?_, ?_⟩
            · intro hm
              subst hm
              simpa using h.symm
            · intro hm
              have hlen : m.length > 0 := List.length_pos.mpr hm
              simp only [hlen, if_true, LocalStorage.saveMetadata, os.WriteFile] at h
              have hcwd2 : ((fs1.set (parent ++ [n]) (Node.file [] fs.clock)).set (parent ++ [n])
                  (Node.file (io.ReadAll data).1 fs.clock)).cwd = fs.cwd := hcwd
              rw [FS.resolve_congr fs _ hcwd2] at h
              cases hr2 : fs.resolve (filepath.Join c n ++ ".meta") with
              | error err => rw [hr2] at h; simp at h
              | ok mp =>
                have hmp := hM mp hr2
                subst hmp
                rw [hr2] at h
                simp only at h
                cases hw2 : FS.WriteFile ((fs1.set (parent ++ [n]) (Node.file [] fs.clock)).set
                    (parent ++ [n]) (Node.file (io.ReadAll data).1 fs.clock))
                    (parent ++ [n ++ ".meta"]) (codec.Marshal m) with
                | error err => rw [hw2] at h; simp at h
                | ok fs4 =>
                  rw [hw2] at h
                  obtain ⟨_, _, hlong2, hfs4⟩ := FS.WriteFile_ok _ _ _ _ hw2
                  simp only [Prod.mk.injEq, true_and] at h
                  subst h
                  refine ⟨rfl, hlong2, ?_⟩
                  rw [hfs4]
                  simp [FS.set_clock, hclock]


/-- Creating directories that are no deeper than a directory leaves the
entries of that directory as they are. -/
theorem FS.mkdirs_children (qs : List Path) (p : Path) : ∀ (fs : FS),
    (∀ q ∈ qs, q.length ≤ p.length) → (fs.mkdirs qs).2.children p = fs.children p := by
  induction qs with
  | nil => intro fs _; rfl
  | cons q qs ih =>
    intro fs h
    have hq := h q (by simp)
    have hqs : ∀ r ∈ qs, r.length ≤ p.length := fun r hr => h r (List.mem_cons_of_mem _ hr)
    simp only [FS.mkdirs]
    cases hlong : Path.nameTooLong q with
    | true => simp
    | false =>
      simp only [Bool.false_eq_true, if_false]
      cases hl : fs.lookup q with
      | none =>
        simp only
        rw [ih _ hqs, FS.children_set]
        have h1 : ¬ (q ≠ [] ∧ q.dropLast = p) := by
          rintro ⟨h1, h2⟩
          have := congrArg List.length h2
          rw [List.length_dropLast] at this
          have : q.length ≠ 0 := fun e => h1 (List.length_eq_zero.mp e)
          omega
        simp only [h1, if_false, List.nil_append]
        apply filter_ne_self
        intro e he hne
        have := (FS.children_length fs p e he).1
        rw [hne] at this
        omega
      | some n =>
        cases n with
        | file d t => rfl
        | dir s t => exact ih fs hqs

theorem MkdirAll_children (fs fs1 : FS) (path : String) (p : Path)
    (h : os.MkdirAll fs path = (none, fs1))
    (hp : ((fs.walk path).1 ++ (fs.walk path).2).length ≤ p.length) :
    fs1.children p = fs.children p := by
  unfold os.MkdirAll at h
  by_cases hpath : path = ""
  · simp [hpath] at h
  · simp only [hpath, if_false] at h
    generalize hw : fs.walk path = w at h hp
    cases hc : fs.checkDirs (nePrefixes w.1) with
    | some err => rw [hc] at h; simp at h
    | none =>
      rw [hc] at h
      simp only at h
      generalize hacc : List.takeWhile
        (fun q => (textError path (textSize path (w.1 ++ w.2) q)).isNone)
        (List.drop w.1.length (nePrefixes (w.1 ++ w.2))) = accepted at h
      have hsub : ∀ q ∈ accepted, q.length ≤ p.length := by
        intro q hq
        rw [← hacc] at hq
        have := List.mem_of_mem_drop ((List.takeWhile_sublist _).subset hq)
        have := (mem_nePrefixes _ q this).2
        omega
      have hch := FS.mkdirs_children accepted p fs hsub
      cases hmk : fs.mkdirs accepted with
      | mk e fs2 =>
        rw [hmk] at h hch
        cases e with
        | some err => simp at h
        | none =>
          simp only at h hch
          split at h
          · simp only [Prod.mk.injEq] at h
            rw [← h.2]; exact hch
          · simp only [Prod.mk.injEq] at h
            rw [← h.2]; exact hch

/-- What a successful `Upload` of the name `n` into the directory `c` leaves
behind, place by place. -/
theorem upload_ok (s : LocalStorage) (codec : JSONCodec) (p : String)
    (data : Reader) (m : Metadata) (fs fs2 : FS) (c n : String) (parent : Path)
    (hc : CleanText c) (hn : ProperName n)
    (hp : filepath.Join s.basePath p = filepath.Join c n)
    (hdir : fs.resolve c = .ok parent)
    (h : s.Upload codec p data m fs = (none, fs2)) :
    (io.ReadAll data).2 = none ∧
    fs2.cwd = fs.cwd ∧ fs2.dirSize = fs.dirSize ∧
    fs.resolve (filepath.Join c n) = .ok (parent ++ [n]) ∧
    Path.nameTooLong (parent ++ [n]) = false ∧
    fs2.checkDirs (nePrefixes parent) = none ∧
    fs2.lookup (parent ++ [n]) = some (Node.file (io.ReadAll data).1 fs.clock) ∧
    (m ≠ [] →
      fs.resolve (filepath.Join c n ++ ".meta") = .ok (parent ++ [n ++ ".meta"]) ∧
      Path.nameTooLong (parent ++ [n ++ ".meta"]) = false ∧
      fs2.lookup (parent ++ [n ++ ".meta"]) = some (Node.file (codec.Marshal m) fs.clock)) ∧
    (m = [] → fs2.lookup (parent ++ [n ++ ".meta"]) = fs.lookup (parent ++ [n ++ ".meta"])) ∧
    (∀ r, r ≠ parent ++ [n] → r ≠ parent ++ [n ++ ".meta"] →
      (r ∉ nePrefixes parent ∨ fs.lookup r ≠ none) → fs2.lookup r = fs.lookup r) ∧
    fs2.children parent
      = (if m = [] then [] else [(parent ++ [n ++ ".meta"], Node.file (codec.Marshal m) fs.clock)])
        ++ [(parent ++ [n], Node.file (io.ReadAll data).1 fs.clock)]
        ++ (fs.children parent).filter
            (fun e => e.1 != parent ++ [n] && (m.isEmpty || e.1 != parent ++ [n ++ ".meta"])) := by
  obtain ⟨fs1, hmk, herr, hfp, hlong, h0, h1⟩ :=
    upload_state s codec p data m fs fs2 c n parent hc hn hp hdir h
  obtain ⟨hres, hcd, hold, hframe, _, hclock, hsize, hcwd⟩ := MkdirAll_ok fs fs1 c hmk
  rw [hdir] at hres
  simp only [Except.ok.injEq] at hres
  rw [← hres] at hcd hframe
  have hch1 : fs1.children parent = fs.children parent :=
    MkdirAll_children fs fs1 c parent hmk (by rw [← hres])
  have hne : parent ++ [n ++ ".meta"] ≠ parent ++ [n] := by
    intro e
    have := List.append_cancel_left e
    simp only [List.cons.injEq, and_true] at this
    exact append_meta_ne n this
  have hnp : ∀ q ∈ nePrefixes parent, q ≠ parent ++ [n] ∧ q ≠ parent ++ [n ++ ".meta"] := by
    intro q hq
    have := (mem_nePrefixes _ q hq).2
    constructor <;> (intro e; rw [e] at this; simp at this)
  have hfp_child : parent ++ [n] ≠ [] ∧ (parent ++ [n]).dropLast = parent := by simp
  have hmp_child : parent ++ [n ++ ".meta"] ≠ [] ∧ (parent ++ [n ++ ".meta"]).dropLast = parent := by
    simp
  have hfs1 : ∀ r, (r ∉ nePrefixes parent ∨ fs.lookup r ≠ none) → fs1.lookup r = fs.lookup r := by
    intro r hr
    rcases hr with hr | hr
    · exact hframe r hr
    · exact hold r hr
  by_cases hm : m = []
  · have hfs2 := h0 hm
    subst hfs2
    refine ⟨herr, hcwd, hsize, hfp, hlong, ?_, ?_, fun e => absurd hm e, ?_, ?_, ?_⟩
    · rw [FS.checkDirs_congr fs1 _ _ ?_]
      · exact hcd
      · intro q hq
        rw [FS.lookup_set_ne _ _ _ _ (hnp q hq).1, FS.lookup_set_ne _ _ _ _ (hnp q hq).1]
    · exact FS.lookup_set_self _ _ _
    · intro _
      rw [FS.lookup_set_ne _ _ _ _ hne, FS.lookup_set_ne _ _ _ _ hne]
      apply hframe
      intro e
      exact (hnp _ e).2 rfl
    · intro r hr1 _ hr3
      rw [FS.lookup_set_ne _ _ _ _ hr1, FS.lookup_set_ne _ _ _ _ hr1]
      exact hfs1 r hr3
    · simp only [FS.children_set, hfp_child, and_self, if_true, hch1, hm, List.nil_append,
        List.isEmpty_nil, Bool.true_or, Bool.and_true, ne_eq, not_false_eq_true,
        List.filter_append, List.filter_filter]
      simp
  · obtain ⟨hmp, hlong2, hfs2⟩ := h1 hm
    subst hfs2
    have hemp : m.isEmpty = false := by
      cases m with
      | nil => exact absurd rfl hm
      | cons a l => rfl
    refine ⟨herr, hcwd, hsize, hfp, hlong, ?_, ?_, fun _ => ⟨hmp, hlong2, ?_⟩,
      fun e => absurd e hm, ?_, ?_⟩
    · rw [FS.checkDirs_congr fs1 _ _ ?_]
      · exact hcd
      · intro q hq
        rw [FS.lookup_set_ne _ _ _ _ (hnp q hq).2, FS.lookup_set_ne _ _ _ _ (hnp q hq).1,
          FS.lookup_set_ne _ _ _ _ (hnp q hq).1]
    · rw [FS.lookup_set_ne _ _ _ _ hne.symm]
      exact FS.lookup_set_self _ _ _
    · exact FS.lookup_set_self _ _ _
    · intro r hr1 hr2 hr3
      rw [FS.lookup_set_ne _ _ _ _ hr2, FS.lookup_set_ne _ _ _ _ hr1,
        FS.lookup_set_ne _ _ _ _ hr1]
      exact hfs1 r hr3
    · have hb : ((parent ++ [n]) != (parent ++ [n ++ ".meta"])) = true := by
        simpa using hne.symm
      simp only [FS.children_set, hfp_child, hmp_child, and_self, if_true, hch1, hm, if_false,
        hemp, Bool.false_or, ne_eq, not_false_eq_true, List.filter_append, List.filter_filter,
        List.filter_cons, List.filter_nil, hb]
      simp [Bool.and_comm]


theorem Stat_resolved (fs : FS) (path : String) (p : Path) (h : fs.resolve path = .ok p) :
    os.Stat fs path = fs.Stat p := by
  simp [os.Stat, h]

theorem ReadFile_resolved (fs : FS) (path : String) (p : Path) (h : fs.resolve path = .ok p) :
    os.ReadFile fs path = fs.ReadFile p := by
  simp [os.ReadFile, h]

/-- After a successful `Upload` the file is found by `os.Stat`. -/
theorem upload_stat (s : LocalStorage) (codec : JSONCodec) (p : String)
    (data : Reader) (m : Metadata) (fs fs2 : FS) (c n : String) (parent : Path)
    (hc : CleanText c) (hn : ProperName n)
    (hp : filepath.Join s.basePath p = filepath.Join c n)
    (hdir : fs.resolve c = .ok parent)
    (h : s.Upload codec p data m fs = (none, fs2)) :
    os.Stat fs2 (filepath.Join s.basePath p)
      = .ok (Node.file (io.ReadAll data).1 fs.clock) := by
  obtain ⟨_, hcwd, _, hfp, hlong, hcd, hl, _⟩ :=
    upload_ok s codec p data m fs fs2 c n parent hc hn hp hdir h
  rw [hp, Stat_resolved fs2 _ (parent ++ [n]) (by rw [FS.resolve_congr fs fs2 hcwd]; exact hfp)]
  exact FS.Stat_of_lookup _ _ _ (by simp) (by rw [List.dropLast_concat]; exact hcd) hlong hl

/-- After a successful `Upload` with metadata the sidecar holds the metadata
document and `GetMetadata` decodes it. -/
theorem upload_getMetadata (s : LocalStorage) (codec : JSONCodec) (p : String)
    (data : Reader) (m : Metadata) (fs fs2 : FS) (c n : String) (parent : Path)
    (hc : CleanText c) (hn : ProperName n)
    (hp : filepath.Join s.basePath p = filepath.Join c n)
    (hdir : fs.resolve c = .ok parent)
    (h : s.Upload codec p data m fs = (none, fs2)) (hm : m ≠ []) :
    s.loadMetadata codec (filepath.Join c n) fs2 = codec.Unmarshal (codec.Marshal m) ∧
    s.GetMetadata codec p fs2
      = match codec.Unmarshal (codec.Marshal m) with
        | .error err => .error err
        | .ok metadata => .ok metadata := by
  have hs := upload_stat s codec p data m fs fs2 c n parent hc hn hp hdir h
  obtain ⟨_, hcwd, _, _, _, hcd, _, hmeta, _⟩ :=
    upload_ok s codec p data m fs fs2 c n parent hc hn hp hdir h
  obtain ⟨hmp, hlong, hl⟩ := hmeta hm
  have hst : fs2.Stat (parent ++ [n ++ ".meta"])
      = .ok (Node.file (codec.Marshal m) fs.clock) :=
    FS.Stat_of_lookup _ _ _ (by simp) (by rw [List.dropLast_concat]; exact hcd) hlong hl
  have hload : s.loadMetadata codec (filepath.Join c n) fs2
      = codec.Unmarshal (codec.Marshal m) := by
    simp only [LocalStorage.loadMetadata]
    rw [ReadFile_resolved fs2 _ (parent ++ [n ++ ".meta"])
      (by rw [FS.resolve_congr fs fs2 hcwd]; exact hmp)]
    simp [FS.ReadFile, hst]
  refine ⟨hload, ?_⟩
  simp only [LocalStorage.GetMetadata, LocalStorage.Exists, hs]
  rw [hp, hload]

/-! ### Claims on the local store: GetMetadata -/

/-- C12, the failing input: an object with the metadata `k = v` is stored at
`/a/b.txt`; the second `Upload` to `/a/b.txt`, with other data and the empty
metadata, succeeds and replaces the data, and `GetMetadata` still returns
`k = v`, read from the sidecar that the second `Upload` left in place. -/
theorem upload_empty_metadata_keeps_sidecar :
    (sampleStore.Upload toyJSON "/a/b.txt" (bufferReader [9]) []
      (sampleStore.Upload toyJSON "/a/b.txt" (bufferReader [1, 2, 3]) [("k", "v")]
        sampleFS).2).1 = none ∧
    (sampleStore.Download "/a/b.txt" emptyBuffer
      (sampleStore.Upload toyJSON "/a/b.txt" (bufferReader [9]) []
        (sampleStore.Upload toyJSON "/a/b.txt" (bufferReader [1, 2, 3]) [("k", "v")]
          sampleFS).2).2).2.1 = { data := [9], room := none } ∧
    sampleStore.GetMetadata toyJSON "/a/b.txt"
      (sampleStore.Upload toyJSON "/a/b.txt" (bufferReader [9]) []
        (sampleStore.Upload toyJSON "/a/b.txt" (bufferReader [1, 2, 3]) [("k", "v")]
          sampleFS).2).2 = .ok [("k", "v")] := by
  refine ⟨rfl, rfl, rfl⟩


/-! ### Claims on the local store: Delete -/

/-- A name that ends in `.meta` has the extension `.meta`. -/
theorem Ext_append_meta (name : String) : filepath.Ext (name ++ ".meta") = ".meta" := by
  have h : (name ++ ".meta").toList.reverse
      = 'a' :: 't' :: 'e' :: 'm' :: '.' :: name.toList.reverse := by
    simp [String.toList]
  have ht : List.takeWhile (fun c => c != '.' && c != '/')
      ('a' :: 't' :: 'e' :: 'm' :: '.' :: name.toList.reverse) = ['a', 't', 'e', 'm'] := by
    simp [List.takeWhile]
  simp only [filepath.Ext, h, ht]
  rfl

/-- The directory of an upload as `os.ReadDir` reads it afterwards. -/
theorem upload_readDir (s : LocalStorage) (codec : JSONCodec) (p : String)
    (data : Reader) (m : Metadata) (fs fs2 : FS) (c n : String) (parent : Path)
    (hc : CleanText c) (hn : ProperName n)
    (hp : filepath.Join s.basePath p = filepath.Join c n)
    (hdir : fs.resolve c = .ok parent)
    (h : s.Upload codec p data m fs = (none, fs2)) :
    os.ReadDir fs2 c = .ok (sortEntries ((fs2.children parent).map
      (fun e => { name := e.1.getLastD "", node := e.2 }))) := by
  obtain ⟨_, hcwd, _, _, _, hcd, _⟩ :=
    upload_ok s codec p data m fs fs2 c n parent hc hn hp hdir h
  obtain ⟨sz, t, hst⟩ := FS.Stat_dir fs2 parent hcd
  simp [os.ReadDir, FS.resolve_congr fs fs2 hcwd, hdir, FS.ReadDir, hst]

/-! ### Claims on the local store: the suffix `.meta` -/

/-- C11, counterexample: after `Upload("/a/b.meta", data, {"k": "v"})` on the
empty store of the examples, `List("/a")` returns no entry. -/
theorem list_after_upload_counterexample :
    (sampleStore.Upload toyJSON "/a/b.meta" (bufferReader [1, 2, 3]) [("k", "v")] sampleFS).1
      = none ∧
    sampleStore.List toyJSON "/a"
      (sampleStore.Upload toyJSON "/a/b.meta" (bufferReader [1, 2, 3]) [("k", "v")] sampleFS).2
      = .ok [] := by
  exact ⟨rfl, rfl⟩

/-- C11, amended: let the object path `p` name the entry `name` of the
directory that the path `dir` names in the store, `name` a file name whose
extension is not `.meta`, and let that directory hold no entry before the
upload (as every directory of an empty store, existing or not).  Then for
every data `d` and non-empty metadata `m` that `json.Unmarshal` reads back
from `json.Marshal(m)`, after a successful `Upload(p, d, m)` the call
`List(dir)` returns exactly one entry: its path is `filepath.Join(dir, name)`,
its size is `len(d)`, it is not a directory, its modification time is that of
the upload and its metadata is `m`; the sidecar `name.meta` is not
returned. -/
theorem list_after_upload (s : LocalStorage) (codec : JSONCodec) (fs fs2 : FS)
    (p dir name : String) (parent : Path) (data : Reader) (d : List Byte) (m : Metadata)
    (hname : ProperName name) (hext : filepath.Ext name ≠ ".meta")
    (hp : filepath.Join s.basePath p = filepath.Join (filepath.Join s.basePath dir) name)
    (hdir : fs.resolve (filepath.Join s.basePath dir) = .ok parent)
    (hnew : fs.children parent = [])
    (hm : m ≠ []) (hdata : data.Delivers d)
    (hjson : codec.Unmarshal (codec.Marshal m) = .ok m)
    (hup : s.Upload codec p data m fs = (none, fs2)) :
    s.List codec dir fs2
      = .ok [{ Path := filepath.Join dir name, Size := (d.length : Int), IsDir := false,
               ModTime := fs.clock, Metadata := m }] := by
  have hcne : filepath.Join s.basePath dir ≠ "" := (FS.resolve_ok fs _ _ hdir).1
  have hc := CleanText_Join _ _ hcne
  have hall : io.ReadAll data = (d, none) := readAll_content _ _ hdata
  obtain ⟨_, _, _, _, _, _, _, _, _, _, hch⟩ :=
    upload_ok s codec p data m fs fs2 _ name parent hc hname hp hdir hup
  have hrd := upload_readDir s codec p data m fs fs2 _ name parent hc hname hp hdir hup
  obtain ⟨hload, _⟩ := upload_getMetadata s codec p data m fs fs2 _ name parent hc hname hp hdir
    hup hm
  rw [hjson] at hload
  rw [hall, hnew] at hch
  simp only [hm, if_false, List.filter_nil, List.append_nil, List.cons_append,
    List.nil_append] at hch
  rw [hch] at hrd
  have hextm := Ext_append_meta name
  simp only [LocalStorage.List, hrd, List.map_cons, List.map_nil, List.getLastD_concat,
    sortEntries, insertEntry]
  split <;>
    simp [LocalStorage.listEntries, LocalStorage.fileInfo, hextm, hext, hload, Node.size,
      Node.isDir, Node.modTime]

/-- C11, witness: the object `/a/b.txt` in the store of the examples. -/
theorem list_after_upload_witness :
    sampleStore.List toyJSON "/a"
      (sampleStore.Upload toyJSON "/a/b.txt" (bufferReader [1, 2, 3]) [("k", "v")] sampleFS).2
      = .ok [{ Path := "/a/b.txt", Size := 3, IsDir := false, ModTime := 1700000000,
               Metadata := [("k", "v")] }] :=
  list_after_upload sampleStore toyJSON sampleFS
    (sampleStore.Upload toyJSON "/a/b.txt" (bufferReader [1, 2, 3]) [("k", "v")] sampleFS).2
    "/a/b.txt" "/a" "b.txt" ["srv", "backup", "a"] (bufferReader [1, 2, 3]) [1, 2, 3]
    [("k", "v")] (by decide) (by decide) (by decide) rfl rfl (by simp) (by decide) rfl rfl

/-! ## The download side of the orchestrator -/

/-- A `bytes.Buffer` read as a source delivers its content. -/
theorem bufferReader_delivers (b : List Byte) : (bufferReader b).Delivers b := by
  unfold bufferReader Reader.Delivers
  by_cases h : b.length = 0
  · have hb : b = [] := List.length_eq_zero.mp h
    subst hb
    rfl
  · simp [h, content]

/-- Where `AESEncryptor.Decrypt` fails, it has written to the destination only
if the failure is that of the write itself. -/
theorem aes_decrypt_error_dst (lib : AEAD) (e : AESEncryptor) (src : Reader)
    (dst dst1 : Writer) (err : Error)
    (h : e.Decrypt lib src dst = (Result.ret (some err), dst1)) :
    dst1 = dst ∨ ∃ werr, err = Error.wrap "failed to write decrypted data" werr := by
  unfold AESEncryptor.Decrypt at h
  split at h
  · simp only [Prod.mk.injEq] at h; exact Or.inl h.2.symm
  · split at h
    · simp only [Prod.mk.injEq] at h; exact Or.inl h.2.symm
    · simp only at h
      split at h
      · simp only [Prod.mk.injEq] at h; exact Or.inl h.2.symm
      · split at h
        · simp only [Prod.mk.injEq] at h; exact Or.inl h.2.symm
        · split at h
          · simp only [Prod.mk.injEq] at h; exact Or.inl h.2.symm
          · split at h
            · simp only [Prod.mk.injEq, Result.ret.injEq, Option.some.injEq] at h
              exact Or.inr ⟨_, h.1.symm⟩
            · simp at h

/-! ### Claims on the download side -/

/-- C15, counterexample: the store of the examples holds the text `hello test`
encrypted under `key16`; `DownloadFile` with the cipher of `otherKey16` does
not return the error of `Decrypt` but an error that wraps it. -/
theorem download_error_counterexample :
    (AESEncryptor.toEncryptor toyGCM sampleRand { key := otherKey16 }).Decrypt
        (bufferReader sampleCiphertext) emptyBuffer
      = some (Result.ret (some (Error.wrap "failed to decrypt" Error.errOpen)), emptyBuffer) ∧
    (NewUploader (AESEncryptor.toEncryptor toyGCM sampleRand { key := otherKey16 })
        (sampleStore.toStorage toyJSON)).DownloadFile "/a/hello.enc" "/tmp/out.txt"
        sampleVault blankFS
      = some (Result.ret (some (Error.wrap "failed to decrypt file"
          (Error.wrap "failed to decrypt" Error.errOpen))), sampleVault, blankFS) ∧
    Error.wrap "failed to decrypt file" (Error.wrap "failed to decrypt" Error.errOpen)
      ≠ Error.wrap "failed to decrypt" Error.errOpen := by
  exact ⟨rfl, rfl, by decide⟩

/-- C15, amended: if the store delivers the object and the cipher's `Decrypt`
fails with the error `err`, `DownloadFile` returns `err` wrapped as
`failed to decrypt file: err` and leaves the local file system as it was; and
`DownloadStream` with the AES cipher returns the error of `Decrypt` wrapped
as `failed to decrypt data: ...` and has written nothing to the destination
unless the error is that of the write to the destination itself; when the
failure is the tag check, the error is
`failed to decrypt data: failed to decrypt: cipher: message authentication failed`
and the destination is untouched. -/
theorem download_decrypt_failure {σ : Type} (storage : Storage σ) (enc : Encryptor)
    (lib : AEAD) (rand : Reader) (e : AESEncryptor)
    (remotePath localPath : String) (st st1 : σ) (lfs : FS) (blob junk : Writer) (err : Error)
    (hdl : storage.Download remotePath emptyBuffer st = (none, blob, st1))
    (hdec : enc.Decrypt (bufferReader blob.data) emptyBuffer
      = some (Result.ret (some err), junk)) :
    (NewUploader enc storage).DownloadFile remotePath localPath st lfs
        = some (Result.ret (some (Error.wrap "failed to decrypt file" err)), st1, lfs) ∧
    (∀ (dst dst1 : Writer) (aerr : Error),
      e.Decrypt lib (bufferReader blob.data) dst = (Result.ret (some aerr), dst1) →
      (NewUploader (e.toEncryptor lib rand) storage).DownloadStream remotePath dst st
          = some (Result.ret (some (Error.wrap "failed to decrypt data" aerr)), dst1, st1) ∧
      (dst1 = dst ∨ ∃ werr, aerr = Error.wrap "failed to write decrypted data" werr)) ∧
    (∀ (dst : Writer),
      (e.key.length = 16 ∨ e.key.length = 24 ∨ e.key.length = 32) →
      lib.NonceSize ≤ blob.data.length →
      lib.Open e.key (blob.data.take lib.NonceSize) (blob.data.drop lib.NonceSize) = none →
      (NewUploader (e.toEncryptor lib rand) storage).DownloadStream remotePath dst st
          = some (Result.ret (some (Error.wrap "failed to decrypt data"
              (Error.wrap "failed to decrypt" Error.errOpen))), dst, st1)) := by
  refine ⟨?_, ?_, ?_⟩
  · simp only [Uploader.DownloadFile, NewUploader, hdl, hdec]
  · intro dst dst1 aerr h
    refine ⟨?_, aes_decrypt_error_dst lib e _ dst dst1 aerr h⟩
    simp only [Uploader.DownloadStream, NewUploader, hdl, AESEncryptor.toEncryptor, h]
  · intro dst hkey hlen hopen
    have h := aes_decrypt_rejected lib e (bufferReader blob.data) dst blob.data hkey
      (bufferReader_delivers blob.data) hlen hopen
    simp only [Uploader.DownloadStream, NewUploader, hdl, AESEncryptor.toEncryptor, h]

theorem download_decrypt_failure_witness :
    (NewUploader (AESEncryptor.toEncryptor toyGCM sampleRand { key := otherKey16 })
        (sampleStore.toStorage toyJSON)).DownloadFile "/a/hello.enc" "/tmp/out.txt"
        sampleVault blankFS
      = some (Result.ret (some (Error.wrap "failed to decrypt file"
          (Error.wrap "failed to decrypt" Error.errOpen))), sampleVault, blankFS) ∧
    (NewUploader (AESEncryptor.toEncryptor toyGCM sampleRand { key := otherKey16 })
        (sampleStore.toStorage toyJSON)).DownloadStream "/a/hello.enc"
        { data := [7], room := some 3 } sampleVault
      = some (Result.ret (some (Error.wrap "failed to decrypt data"
          (Error.wrap "failed to decrypt" Error.errOpen))),
          { data := [7], room := some 3 }, sampleVault) := by
  obtain ⟨h1, _, h3⟩ := download_decrypt_failure (sampleStore.toStorage toyJSON)
    (AESEncryptor.toEncryptor toyGCM sampleRand { key := otherKey16 })
    toyGCM sampleRand { key := otherKey16 } "/a/hello.enc" "/tmp/out.txt"
    sampleVault sampleVault blankFS { data := sampleCiphertext, room := none } emptyBuffer
    (Error.wrap "failed to decrypt" Error.errOpen) rfl rfl
  exact ⟨h1, h3 { data := [7], room := some 3 } (by decide) (by decide) rfl⟩

end CryptoBackup
